import Mathlib

/-!
Verification of the extractforms extraction core against its specification.

The Lean definitions below are a shallow embedding of the Python source:

* `src/extractforms/extractor.py` — confidence reconciliation, page routing,
  schema value collection, result assembly;
* `src/extractforms/processing/normalization.py` — typed value normalization
  (phones, decimal amounts, percentages, addresses, emails);
* `src/extractforms/pricing.py` and `src/extractforms/typing/models/extraction.py`
  — pricing aggregation;
* `src/extractforms/page_filtering.py` — schema logical-page to physical-page
  mapping.

Python strings are modelled as `String`, Python `int` as `Int`, optional
values as `Option`, dictionaries as insertion-ordered association lists
(matching CPython dict semantics), and raised exceptions as `Except` errors.
`decimal.Decimal` is modelled exactly (arbitrary-precision coefficient and
exponent) together with the default-context behaviour that the source relies
on: precision 28, `ROUND_HALF_EVEN`, `Emax = 999999`, `Emin = -999999`, and
the default trap on `Overflow` / `InvalidOperation`.
-/

namespace ExtractForms

/-! ## Python string primitives -/

/-- Characters stripped by Python's `str.strip()` (ASCII whitespace set). -/
def pyIsSpace (c : Char) : Bool :=
  c = ' ' || c = '\t' || c = '\n' || c = '\x0d' || c = '\x0b' || c = '\x0c'

/-- `str.strip()` on a character list. -/
def pyStripList (l : List Char) : List Char :=
  ((l.dropWhile pyIsSpace).reverse.dropWhile pyIsSpace).reverse

/-- Python `str.strip()`. -/
def pyStrip (s : String) : String :=
  ⟨pyStripList s.toList⟩

/-- `str.split()` (split on whitespace runs, dropping empty chunks). -/
def pySplitWsAux : List Char → List Char → List (List Char)
  | [], acc => if acc = [] then [] else [acc.reverse]
  | c :: rest, acc =>
    if pyIsSpace c then
      if acc = [] then pySplitWsAux rest [] else acc.reverse :: pySplitWsAux rest []
    else pySplitWsAux rest (c :: acc)

/-- `str.split()` on a character list. -/
def pySplitWs (l : List Char) : List (List Char) :=
  pySplitWsAux l []

/-- `" ".join(words)` on character lists. -/
def joinSpace (ws : List (List Char)) : List Char :=
  List.intercalate [' '] ws

/-- ASCII lowercasing of one character (Python `str.lower()` on ASCII input):
codepoints 65–90 are shifted by 32, everything else is unchanged. -/
def pyLowerChar (c : Char) : Char :=
  if 65 ≤ c.toNat ∧ c.toNat ≤ 90 then Char.ofNat (c.toNat + 32) else c

/-- Python `str.lower()` (ASCII fragment). -/
def pyLower (s : String) : String :=
  ⟨s.toList.map pyLowerChar⟩

/-- ASCII digit test (Python `str.isdigit()` on ASCII input). -/
def isDigitChar (c : Char) : Bool :=
  '0' ≤ c && c ≤ '9'

/-- `str.rstrip(c)` on a character list. -/
def stripTrailing (c : Char) (l : List Char) : List Char :=
  (l.reverse.dropWhile (· = c)).reverse

/-! ## Enums and data model

`ConfidenceLevel`, `PassMode` and the base `FieldKind` members come from
`src/extractforms/typing/enums.py`.  The `phone`/`amount`/`address`/`email`
members of `FieldKind` and the whole of `FieldSemanticType` are referenced by
`normalization.py` and the test-suite but their declarations are not present
under `src/`. -/

/-- Confidence level of one extracted value (`typing/enums.py`). -/
inductive ConfidenceLevel where
  | low
  | medium
  | high
  | unknown
deriving DecidableEq, Repr

/-- Schema field kind.  The `text`/`number`/`date`/`checkbox`/`select`/`unknown`
members come from `typing/enums.py`.  Modelled from the spec: the
`phone`/`amount`/`address`/`email` members, listed in the spec's data-model
section ("coarse type tag: text/number/date/checkbox/select/phone/amount/
address/email/unknown") and used by `normalization.py`, are missing from the
enum declaration available under `src/`. -/
inductive FieldKind where
  | text
  | number
  | date
  | checkbox
  | select
  | phone
  | amount
  | address
  | email
  | unknown
deriving DecidableEq, Repr

/-- Modelled from the spec: `FieldSemanticType` is imported from
`extractforms.typing.enums` by `normalization.py` but its declaration is not
present under `src/`; the members are the normalization hints of the spec's
transformation table (phone, amount, percentage, address, email). -/
inductive FieldSemanticType where
  | phone
  | amount
  | percentage
  | address
  | email
deriving DecidableEq, Repr

/-- Extracted field value payload (`typing/models/extraction.py`). -/
structure FieldValue where
  key : String
  value : String
  page : Option Int := none
  confidence : ConfidenceLevel := .unknown
deriving DecidableEq, Repr

/-- Single schema field definition (`typing/models/schema.py`). -/
structure SchemaField where
  key : String
  label : String
  page : Option Int := none
  kind : FieldKind := .unknown
  semanticType : Option FieldSemanticType := none
  expectedType : Option String := none
  regex : Option String := none
  options : List String := []
deriving DecidableEq, Repr

/-- Schema describing an input form (`typing/models/schema.py`). -/
structure SchemaSpec where
  id : String
  name : String
  fingerprint : String
  version : Int := 1
  schemaFamilyId : Option String := none
  fields : List SchemaField
deriving DecidableEq, Repr

/-- One rendered PDF page (`typing/models/page_selection.py`). -/
structure RenderedPage where
  pageNumber : Int
  mimeType : String
  dataBase64 : String
deriving DecidableEq, Repr

/-- Price accounting for one model call (`typing/models/extraction.py`).
`total_cost_usd` is a Python float; it is carried along but no claim reasons
about its arithmetic. -/
structure PricingCall where
  provider : String
  model : String
  inputTokens : Option Int := none
  outputTokens : Option Int := none
  totalCostUsd : Option Float := none

/-- Page analysis for a selected PDF range (`page_filtering.py`). -/
structure PageSelectionAnalysis where
  selectedPageNumbers : List Int
  nonblankPageNumbers : List Int
deriving DecidableEq, Repr

/-! ## Confidence reconciler (`extractor.py`) -/

/-- `_confidence_rank`: comparable rank where higher is more confident. -/
def confidenceRank : ConfidenceLevel → Nat
  | .unknown => 0
  | .low => 1
  | .medium => 2
  | .high => 3

/-- `_select_better_value`: select the better field value between the current
one and a candidate. -/
def selectBetterValue (current : Option FieldValue) (candidate : FieldValue) : FieldValue :=
  match current with
  | none => candidate
  | some cur =>
    let currentBlank := pyStrip cur.value = ""
    let candidateBlank := pyStrip candidate.value = ""
    if currentBlank ∧ ¬ candidateBlank then candidate
    else if ¬ currentBlank ∧ candidateBlank then cur
    else if confidenceRank candidate.confidence > confidenceRank cur.confidence then candidate
    else cur

/-! ## Pricing aggregation (`pricing.py`, `typing/models/extraction.py`) -/

/-- `_sum_optional_int` (list form, `pricing.py`): sum of the known values, or
`none` when every value is unknown. -/
def sumOptionalIntList (values : List (Option Int)) : Option Int :=
  match values.filterMap id with
  | [] => none
  | known => some (known.foldl (· + ·) 0)

/-- `_sum_optional_float` (list form, `pricing.py`). -/
def sumOptionalFloatList (values : List (Option Float)) : Option Float :=
  match values.filterMap id with
  | [] => none
  | known => some (known.foldl (· + ·) 0)

/-- `merge_pricing_calls` (`pricing.py`): aggregate pricing calls into a single
summary; the provider and model are taken from the first call without any
mismatch check. -/
def mergePricingCalls (calls : List PricingCall) : Option PricingCall :=
  match calls with
  | [] => none
  | first :: _ =>
    some { provider := first.provider
           model := first.model
           inputTokens := sumOptionalIntList (calls.map (·.inputTokens))
           outputTokens := sumOptionalIntList (calls.map (·.outputTokens))
           totalCostUsd := sumOptionalFloatList (calls.map (·.totalCostUsd)) }

/-- `ModelMismatchError` payload raised by `PricingCall.__add__`. -/
structure ModelMismatchError where
  provider1 : String
  model1 : String
  provider2 : String
  model2 : String
deriving DecidableEq, Repr

/-- `_sum_optional_int` (binary form, `typing/models/extraction.py`). -/
def sumOptionalInt2 : Option Int → Option Int → Option Int
  | none, v2 => v2
  | v1, none => v1
  | some v1, some v2 => some (v1 + v2)

/-- `_sum_optional_float` (binary form, `typing/models/extraction.py`). -/
def sumOptionalFloat2 : Option Float → Option Float → Option Float
  | none, v2 => v2
  | v1, none => v1
  | some v1, some v2 => some (v1 + v2)

/-- `PricingCall.__add__`: combine two pricing calls, raising
`ModelMismatchError` when provider or model differ. -/
def pricingCallAdd (a b : PricingCall) : Except ModelMismatchError PricingCall :=
  if a.provider ≠ b.provider ∨ a.model ≠ b.model then
    .error ⟨a.provider, a.model, b.provider, b.model⟩
  else
    .ok { provider := a.provider
          model := a.model
          inputTokens := sumOptionalInt2 a.inputTokens b.inputTokens
          outputTokens := sumOptionalInt2 a.outputTokens b.outputTokens
          totalCostUsd := sumOptionalFloat2 a.totalCostUsd b.totalCostUsd }

/-! ## Association-list dictionaries

CPython dictionaries preserve insertion order; assignment to an existing key
updates it in place, assignment to a fresh key appends. -/

/-- Lookup in an `Int`-keyed association list (`dict.get`). -/
def lookupInt {α : Type} (d : List (Int × α)) (k : Int) : Option α :=
  match d with
  | [] => none
  | (k', v) :: rest => if k' = k then some v else lookupInt rest k

/-- Lookup in a `String`-keyed association list. -/
def lookupStr {α : Type} (d : List (String × α)) (k : String) : Option α :=
  match d with
  | [] => none
  | (k', v) :: rest => if k' = k then some v else lookupStr rest k

/-- `d.setdefault(k, []).append(v)` on an `Int`-keyed dict of lists. -/
def dictAppend (d : List (Int × List String)) (k : Int) (v : String) :
    List (Int × List String) :=
  match d with
  | [] => [(k, [v])]
  | (k', vs) :: rest =>
    if k' = k then (k', vs ++ [v]) :: rest else (k', vs) :: dictAppend rest k v

/-- `d[k] = v` on a `String`-keyed dict (update in place or append). -/
def dictSet {α : Type} (d : List (String × α)) (k : String) (v : α) :
    List (String × α) :=
  match d with
  | [] => [(k, v)]
  | (k', v') :: rest =>
    if k' = k then (k', v) :: rest else (k', v') :: dictSet rest k v

/-! ## Schema page mapping (`page_filtering.py`) -/

/-- The integers `start, start+1, ..., start+n-1` (a Python `range` slice). -/
def rangeInts (start : Int) : Nat → List Int
  | 0 => []
  | n + 1 => start :: rangeInts (start + 1) n

/-- `range(1, maxPage + 1)` for an `Int` bound. -/
def rangeFromOne (maxPage : Int) : List Int :=
  rangeInts 1 maxPage.toNat

/-- Python list indexing used by `build_schema_page_mapping`
(`nonblank[page_number - 1]`; always in range at its use sites, the default
is never observable there). -/
def pyIndex (l : List Int) (i : Int) : Int :=
  l.getD i.toNat 0

/-- `build_schema_page_mapping`: schema logical-page to physical PDF page
mapping.  `schema_pages = sorted({...})` in the source is used only for
emptiness and its maximum, modelled by `filterMap` and a `max`-fold. -/
def buildSchemaPageMapping (schema : SchemaSpec)
    (analysis : Option PageSelectionAnalysis) : List (Int × Int) :=
  match schema.fields.filterMap (·.page) with
  | [] => []
  | p :: ps =>
    let maxSchemaPage := ps.foldl max p
    let identity := (rangeFromOne maxSchemaPage).map (fun n => (n, n))
    match analysis with
    | none => identity
    | some a =>
      if a.selectedPageNumbers = [] then identity
      else if a.nonblankPageNumbers ≠ [] ∧
          a.nonblankPageNumbers.length < a.selectedPageNumbers.length ∧
          maxSchemaPage ≤ (a.nonblankPageNumbers.length : Int) then
        (rangeFromOne maxSchemaPage).map
          (fun n => (n, pyIndex a.nonblankPageNumbers (n - 1)))
      else identity

/-! ## Page router (`extractor.py`) -/

/-- `page_map.get(field.page, field.page)`. -/
def pageMapGet (pageMap : Option (List (Int × Int))) (p : Int) : Int :=
  match pageMap with
  | none => p
  | some pm =>
    match lookupInt pm p with
    | none => p
    | some q => q

/-- `_group_keys_by_page`: group schema keys by (mapped) page. -/
def groupKeysByPage (schema : SchemaSpec) (pageMap : Option (List (Int × Int))) :
    List (Int × List String) :=
  schema.fields.foldl
    (fun d field =>
      match field.page with
      | none => d
      | some p => dictAppend d (pageMapGet pageMap p) field.key)
    []

/-- The `(index, mapped_page)` pairs of fields carrying page metadata
(`anchored_positions` in `_infer_sparse_keys_by_page`). -/
def anchoredPositions (schema : SchemaSpec) (pageMap : Option (List (Int × Int))) :
    List (Nat × Int) :=
  (schema.fields.enum).filterMap
    (fun if_ =>
      match if_.2.page with
      | none => none
      | some p => some (if_.1, pageMapGet pageMap p))

/-- Python `min(l, key=f)` (first element attaining the minimum), folded over a
head and tail. -/
def pyMinBy {α : Type} (f : α → Nat) (a : α) (l : List α) : α :=
  l.foldl (fun acc x => if f x < f acc then x else acc) a

/-- Distance key used by the sparse-key inference: `abs(anchored[0] - index)`. -/
def anchorDist (index : Nat) (anchored : Nat × Int) : Nat :=
  ((anchored.1 : Int) - (index : Int)).natAbs

/-- Inner loop of `_infer_sparse_keys_by_page`: attach each page-less field to
the page of its nearest anchored neighbour. -/
def inferSparseLoop (anchors : List (Nat × Int)) (ha : Nat × Int)
    (hrest : List (Nat × Int)) :
    List (Nat × SchemaField) → List (Int × List String) → List (Int × List String)
  | [], d => d
  | (index, field) :: rest, d =>
    match field.page with
    | some _ => inferSparseLoop anchors ha hrest rest d
    | none =>
      let nearest := pyMinBy (anchorDist index) ha hrest
      inferSparseLoop anchors ha hrest rest (dictAppend d nearest.2 field.key)

/-- `_infer_sparse_keys_by_page`: infer page routing for fields without
explicit page metadata; returns `(inferred_by_page, unresolved)`. -/
def inferSparseKeysByPage (schema : SchemaSpec)
    (pageMap : Option (List (Int × Int))) :
    List (Int × List String) × List String :=
  match anchoredPositions schema pageMap with
  | [] =>
    ([], schema.fields.filterMap
      (fun field => if field.page = none then some field.key else none))
  | a :: rest =>
    (inferSparseLoop (a :: rest) a rest schema.fields.enum [], [])

/-- `_unresolved_sparse_keys`. -/
def unresolvedSparseKeys (schema : SchemaSpec)
    (pageMap : Option (List (Int × Int))) : List String :=
  (inferSparseKeysByPage schema pageMap).2

/-- Append `key` to the bucket at `page` only when not already present
(the dedup loop in `_build_routed_keys_by_page`). -/
def addKeyIfAbsent (d : List (Int × List String)) (page : Int) (key : String) :
    List (Int × List String) :=
  match lookupInt d page with
  | none => dictAppend d page key
  | some keys => if key ∈ keys then d else dictAppend d page key

/-- `setdefault(page_number, [])` on the routing dict. -/
def dictSetDefault (d : List (Int × List String)) (page : Int) :
    List (Int × List String) :=
  match lookupInt d page with
  | none => d ++ [(page, [])]
  | some _ => d

/-- `_build_routed_keys_by_page`: explicit grouping merged with inferred
sparse-key routing. -/
def buildRoutedKeysByPage (schema : SchemaSpec)
    (pageMap : Option (List (Int × Int))) : List (Int × List String) :=
  let keysByPage := groupKeysByPage schema pageMap
  let inferred := (inferSparseKeysByPage schema pageMap).1
  inferred.foldl
    (fun d entry =>
      entry.2.foldl (fun d' key => addKeyIfAbsent d' entry.1 key)
        (dictSetDefault d entry.1))
    keysByPage

/-! ## Missing-key computation (`extractor.py`) -/

/-- The null sentinel resolved from backend settings
(`_backend_null_sentinel`); the embedding carries the resolved value. -/
structure Backend where
  extract : List RenderedPage → List String → Option String →
    List FieldValue × Option PricingCall
  nullSentinel : String

/-- A collected value is usable when its trimmed form is non-empty and is
neither the configured sentinel nor the literal `"NULL"` safety net. -/
def usableValue (sentinel : String) (v : FieldValue) : Bool :=
  pyStrip v.value ≠ "" ∧ pyStrip v.value ≠ sentinel ∧ pyStrip v.value ≠ "NULL"

/-- Insertion into a sorted list of strings (Python `sorted` uses
code-point lexicographic order on `str`). -/
def insertSorted (s : String) : List String → List String
  | [] => [s]
  | x :: xs => if s ≤ x then s :: x :: xs else x :: insertSorted s xs

/-- `sorted(...)` over strings. -/
def sortStrings (l : List String) : List String :=
  l.foldr insertSorted []

/-- Set-dedup preserving first occurrences (models building a Python `set`;
only membership and sorted output are observable). -/
def dedupStrings : List String → List String
  | [] => []
  | x :: xs => if x ∈ xs then dedupStrings xs else x :: dedupStrings xs

/-- `_missing_paged_keys`: page-routed keys still lacking a usable value. -/
def missingPagedKeys (extractedValues : List FieldValue)
    (keysByPage : List (Int × List String)) (backend : Backend) : List String :=
  let pagedKeys := (keysByPage.map (·.2)).flatten
  sortStrings (dedupStrings
    (pagedKeys.filter
      (fun k =>
        ! extractedValues.any
          (fun v => decide (v.key = k) && usableValue backend.nullSentinel v))))

/-! ## Exact decimal model (`decimal.Decimal` under the default context)

`_normalize_decimal` constructs a `Decimal` (exact; `InvalidOperation` on
syntax errors is caught), calls `normalize()` — the General Decimal
Arithmetic `reduce` operation under the default context (precision 28,
`ROUND_HALF_EVEN`, `Emax = 999999`, `Emin = -999999`) whose trapped
`Overflow`/`InvalidOperation` signals escape the function — and renders the
result with `format(_, "f")`. -/

/-- Default-context precision. -/
def decPrec : Nat := 28

/-- Default-context `Emax`. -/
def decEmax : Int := 999999

/-- Default-context `Emin`. -/
def decEmin : Int := -999999

/-- Default-context `Etiny = Emin - prec + 1`. -/
def decEtiny : Int := decEmin - decPrec + 1

/-- A finite decimal: sign, coefficient and exponent (value
`(-1)^neg * coeff * 10^exp`). -/
structure DecNum where
  neg : Bool
  coeff : Nat
  exp : Int
deriving DecidableEq, Repr

/-- A Python `Decimal`: finite number, infinity, or (signaling) NaN with
payload coefficient. -/
inductive PyDecimal where
  | num (d : DecNum)
  | inf (neg : Bool)
  | nan (signaling : Bool) (neg : Bool) (payload : Nat)
deriving DecidableEq, Repr

/-- Little-endian base-10 digits, fuel-driven so that it reduces in the
kernel (`fuel ≥ n` suffices). -/
def natDigitsRevAux : Nat → Nat → List Nat
  | 0, _ => []
  | _ + 1, 0 => []
  | fuel + 1, n => n % 10 :: natDigitsRevAux fuel (n / 10)

/-- Little-endian base-10 digits of `n` (empty for `0`). -/
def natDigitsRev (n : Nat) : List Nat :=
  natDigitsRevAux n n

/-- Number of base-10 digits of `n` (`0` for `0`). -/
def numDigits (n : Nat) : Nat :=
  (natDigitsRev n).length

/-- Decimal digit characters of `n` (most significant first; `"0"` for `0`). -/
def natDigitChars (n : Nat) : List Char :=
  match n with
  | 0 => ['0']
  | _ => (natDigitsRev n).reverse.map Nat.digitChar

/-- Numeric value of a digit character. -/
def charDigit (c : Char) : Nat :=
  c.toNat - 48

/-- Value of a big-endian digit-character list. -/
def digitsToNat (l : List Char) : Nat :=
  l.foldl (fun a c => 10 * a + charDigit c) 0

/-- Left-pad a digit list with `'0'` up to length `k`. -/
def padZeros (k : Nat) (l : List Char) : List Char :=
  List.replicate (k - l.length) '0' ++ l

/-- Strip factors of ten from the coefficient, raising the exponent
accordingly; an exact zero gets exponent `0`.  Fuel-driven (`fuel ≥ c`
suffices). -/
def stripZerosAux : Nat → Nat → Int → Nat × Int
  | 0, c, e => (c, e)
  | fuel + 1, c, e =>
    if c = 0 then (0, 0)
    else if c % 10 = 0 then stripZerosAux fuel (c / 10) (e + 1)
    else (c, e)

/-- Remove trailing zeros of a decimal coefficient (the zero-stripping part
of `reduce`). -/
def stripZeros (c : Nat) (e : Int) : Nat × Int :=
  stripZerosAux c c e

/-- Round the coefficient at the last `k` digits (`k ≥ 1`) with
`ROUND_HALF_EVEN`, raising the exponent by `k`. -/
def roundHalfEvenAt (c : Nat) (e : Int) (k : Nat) : Nat × Int :=
  let p := 10 ^ k
  let q := c / p
  let r := c % p
  let half := 5 * 10 ^ (k - 1)
  let q' := if half < r then q + 1 else if r < half then q else q + q % 2
  (q', e + k)

/-- The `reduce` (aka `normalize`) operation on a finite decimal under the
default context: round to context precision, clamp subnormal exponents to
`Etiny`, strip trailing zeros, and signal `Overflow` (trapped, hence an
error) when the adjusted exponent exceeds `Emax`. -/
def decReduceNum (neg : Bool) (c : Nat) (e : Int) : Except Unit DecNum :=
  let r1 :=
    if numDigits c ≤ decPrec then (c, e)
    else roundHalfEvenAt c e (numDigits c - decPrec)
  let r2 :=
    if r1.1 ≠ 0 ∧ r1.2 < decEtiny then roundHalfEvenAt r1.1 r1.2 (decEtiny - r1.2).toNat
    else r1
  let r3 := stripZeros r2.1 r2.2
  if r3.1 ≠ 0 ∧ decEmax < r3.2 + numDigits r3.1 - 1 then .error ()
  else .ok ⟨neg, r3.1, r3.2⟩

/-- `Decimal.normalize()` under the default context.  Quiet NaN and infinity
pass through; a signaling NaN raises the trapped `InvalidOperation`. -/
def decReduce : PyDecimal → Except Unit PyDecimal
  | .num d => (decReduceNum d.neg d.coeff d.exp).map .num
  | .inf neg => .ok (.inf neg)
  | .nan true _ _ => .error ()
  | .nan false neg payload => .ok (.nan false neg payload)

/-- `format(d, "f")` on a character-list level: fixed-point rendering. -/
def formatFixed : PyDecimal → List Char
  | .inf neg => (if neg then ['-'] else []) ++ ['I','n','f','i','n','i','t','y']
  | .nan s neg payload =>
    (if neg then ['-'] else []) ++ (if s then ['s','N','a','N'] else ['N','a','N']) ++
      (if payload = 0 then [] else natDigitChars payload)
  | .num d =>
    (if d.neg then ['-'] else []) ++
      (if 0 ≤ d.exp then natDigitChars (d.coeff * 10 ^ d.exp.toNat)
       else
         let k := (-d.exp).toNat
         natDigitChars (d.coeff / 10 ^ k) ++
           '.' :: padZeros k (natDigitChars (d.coeff % 10 ^ k)))

/-! ### Decimal string parser (`Decimal.__new__` on strings)

The constructor strips leading/trailing whitespace, removes underscores
throughout, then parses `sign? (digits [. digits?] | . digits)
([eE] sign? digits)?` or the case-insensitive specials
`inf`/`infinity`/`nan payload?`/`snan payload?`. -/

/-- Read an optional leading sign (`true` means negative). -/
def readSign (l : List Char) : Bool × List Char :=
  match l with
  | [] => (false, [])
  | c :: r =>
    if c = '+' then (false, r)
    else if c = '-' then (true, r)
    else (false, c :: r)

/-- Read an optional exponent sign (`1` or `-1`). -/
def readExpSign (l : List Char) : Int × List Char :=
  match l with
  | [] => (1, [])
  | c :: r =>
    if c = '+' then (1, r)
    else if c = '-' then (-1, r)
    else (1, c :: r)

/-- Parse an optional exponent suffix onto a mantissa. -/
def parseExpPart (mant : Nat) (fexp : Int) : List Char → Option (Nat × Int)
  | [] => some (mant, fexp)
  | c :: rest =>
    if c = 'e' ∨ c = 'E' then
      let sr := readExpSign rest
      let ed := sr.2.takeWhile isDigitChar
      if ed = [] ∨ sr.2.drop ed.length ≠ [] then none
      else some (mant, fexp + sr.1 * (digitsToNat ed : Int))
    else none

/-- Parse the unsigned numeric part: coefficient and exponent. -/
def parseUnsigned (l : List Char) : Option (Nat × Int) :=
  let ip := l.takeWhile isDigitChar
  match l.drop ip.length with
  | [] => if ip = [] then none else parseExpPart (digitsToNat ip) 0 []
  | c :: rest2 =>
    if c = '.' then
      let fp := rest2.takeWhile isDigitChar
      if ip = [] ∧ fp = [] then none
      else parseExpPart (digitsToNat (ip ++ fp)) (-(fp.length : Int))
        (rest2.drop fp.length)
    else if ip = [] then none
    else parseExpPart (digitsToNat ip) 0 (c :: rest2)

/-- Parse a Python decimal literal into a `PyDecimal`. -/
def parsePyDecimal (s : String) : Option PyDecimal :=
  let l := (pyStripList s.toList).filter (· ≠ '_')
  let sr := readSign l
  let neg := sr.1
  let body := sr.2
  let low := body.map pyLowerChar
  if low = ['i','n','f'] ∨ low = ['i','n','f','i','n','i','t','y'] then
    some (.inf neg)
  else if low.take 3 = ['n','a','n'] ∧ (low.drop 3).all isDigitChar then
    some (.nan false neg (digitsToNat (body.drop 3)))
  else if low.take 4 = ['s','n','a','n'] ∧ (low.drop 4).all isDigitChar then
    some (.nan true neg (digitsToNat (body.drop 4)))
  else
    (parseUnsigned body).map (fun ce => .num ⟨neg, ce.1, ce.2⟩)

/-! ## Typed value normalization (`processing/normalization.py`) -/

/-- `_normalize_phone`: keep digits and `+`, turn a leading `00` into `+`,
and drop all `+` when more than one remains. -/
def normalizePhone (value : String) : String :=
  let compact := value.toList.filter (fun c => isDigitChar c || c = '+')
  if compact.take 2 = ['0', '0'] then ⟨'+' :: compact.drop 2⟩
  else if 1 < (compact.filter (· = '+')).length then
    ⟨compact.filter (· ≠ '+')⟩
  else ⟨compact⟩

/-- `value.replace(" ", "").replace(",", ".")`. -/
def compactAmount (value : String) : String :=
  ⟨(value.toList.filter (· ≠ ' ')).map (fun c => if c = ',' then '.' else c)⟩

/-- `_normalize_decimal`: parse as exact decimal and re-render in fixed-point
form without trailing zeros; on parse failure return the argument unchanged.
The uncaught trapped signals of `normalize()` surface as `Except.error`. -/
def normalizeDecimal (value : String) : Except Unit String :=
  match parsePyDecimal (compactAmount value) with
  | none => .ok value
  | some d => do
    let r ← decReduce d
    let normalized := formatFixed r
    if '.' ∈ normalized then
      .ok ⟨stripTrailing '.' (stripTrailing '0' normalized)⟩
    else
      .ok ⟨normalized⟩

/-- `_normalize_percentage`: strip `%` and whitespace, normalize as a decimal,
re-append `%`. -/
def normalizePercentage (value : String) : Except Unit String :=
  let compact := pyStrip ⟨value.toList.filter (· ≠ '%')⟩
  (normalizeDecimal compact).map (fun n => n ++ "%")

/-- `normalize_typed_value`: dispatch on semantic type and kind. -/
def normalizeTypedValue (value : String) (schemaField : SchemaField)
    (nullSentinel : String) : Except Unit String :=
  let stripped := pyStrip value
  if stripped = "" ∨ stripped = nullSentinel then .ok nullSentinel
  else if schemaField.semanticType = some .phone ∨ schemaField.kind = .phone then
    .ok (normalizePhone stripped)
  else if schemaField.semanticType = some .amount ∨ schemaField.kind = .amount then
    normalizeDecimal stripped
  else if schemaField.semanticType = some .percentage then
    normalizePercentage stripped
  else if schemaField.semanticType = some .address ∨ schemaField.kind = .address then
    .ok ⟨joinSpace (pySplitWs stripped.toList)⟩
  else if schemaField.semanticType = some .email ∨ schemaField.kind = .email then
    .ok (pyLower stripped)
  else
    .ok stripped

/-! ## Extraction collector (`extractor.py`)

The cooperative-concurrency layer only overlaps network calls:
`asyncio.gather` preserves task order and the semaphore bounds in-flight
calls without affecting results, so the embedding evaluates the backend
calls in issuance order. -/

/-- Slices `pages[start : start + (n+1)]` of the chunking loop (chunk size
`n + 1 ≥ 1`, matching `max(chunk_pages, 1)`). -/
def sliceChunks {α : Type} (n : Nat) : List α → List (List α)
  | [] => []
  | x :: xs => (x :: xs).take (n + 1) :: sliceChunks n ((x :: xs).drop (n + 1))
termination_by l => l.length
decreasing_by simp; omega

/-- The page batches of `_extract_values_for_keys`: one batch of all pages
when the chunk size covers them, otherwise successive slices. -/
def pageBatches (chunkPages : Int) (pages : List RenderedPage) :
    List (List RenderedPage) :=
  let normalizedChunk := max chunkPages 1
  if (pages.length : Int) ≤ normalizedChunk then [pages]
  else sliceChunks (normalizedChunk.toNat - 1) pages

/-- `by_key[value.key] = _select_better_value(by_key.get(value.key), value)`. -/
def updateByKey (d : List (String × FieldValue)) (v : FieldValue) :
    List (String × FieldValue) :=
  match d with
  | [] => [(v.key, selectBetterValue none v)]
  | (k, cur) :: rest =>
    if k = v.key then (k, selectBetterValue (some cur) v) :: rest
    else (k, cur) :: updateByKey rest v

/-- Reconciliation dictionary of a value list, keyed by field key in
first-seen order. -/
def foldByKey (values : List FieldValue) : List (String × FieldValue) :=
  values.foldl updateByKey []

/-- `_extract_values_for_keys`: chunked schema-wide extraction for a key set,
reconciled per key. -/
def extractValuesForKeys (backend : Backend) (pages : List RenderedPage)
    (keys : List String) (chunkPages : Int) (extraInstructions : Option String) :
    List FieldValue × List PricingCall :=
  if keys = [] then ([], [])
  else
    let batchResults :=
      (pageBatches chunkPages pages).map
        (fun batch => backend.extract batch keys extraInstructions)
    let byKey := foldByKey ((batchResults.map (·.1)).flatten)
    (byKey.map (·.2), batchResults.filterMap (·.2))

/-- `pages_by_number` lookup (dict comprehension: the last page with a given
number wins). -/
def findPageByNumber (pages : List RenderedPage) (n : Int) :
    Option RenderedPage :=
  pages.reverse.find? (fun p => p.pageNumber = n)

/-- Insertion into an `Int`-sorted association list. -/
def insertSortedInt {α : Type} (kv : Int × α) :
    List (Int × α) → List (Int × α)
  | [] => [kv]
  | x :: xs => if kv.1 ≤ x.1 then kv :: x :: xs else x :: insertSortedInt kv xs

/-- `sorted(keys_by_page.items())`. -/
def sortByPageNumber {α : Type} (d : List (Int × α)) : List (Int × α) :=
  d.foldr insertSortedInt []

/-- `_extract_values_for_page_groups`: one single-page call per routed page. -/
def extractValuesForPageGroups (backend : Backend) (pages : List RenderedPage)
    (keysByPage : List (Int × List String)) (extraInstructions : Option String) :
    List FieldValue × List PricingCall :=
  let results :=
    (sortByPageNumber keysByPage).map
      (fun item =>
        match findPageByNumber pages item.1 with
        | none => ([], none)
        | some page => backend.extract [page] item.2 extraInstructions)
  ((results.map (·.1)).flatten, results.filterMap (·.2))

/-- Input payload of `_collect_schema_values`
(`CollectSchemaValuesInput`; of the request only `chunk_pages` and
`extra_instructions` reach the collector). -/
structure CollectInput where
  schemaSpec : SchemaSpec
  chunkPages : Int
  extraInstructions : Option String
  backend : Backend
  pages : List RenderedPage
  usePageGroups : Bool
  schemaPageMap : Option (List (Int × Int))

/-- Values and pricing gathered before any fallback (page-scoped calls plus
the schema-wide chunked run over unresolved sparse keys). -/
def preFallback (input : CollectInput) :
    (List FieldValue × List PricingCall) × (List FieldValue × List PricingCall) :=
  (extractValuesForPageGroups input.backend input.pages
      (buildRoutedKeysByPage input.schemaSpec input.schemaPageMap)
      input.extraInstructions,
   extractValuesForKeys input.backend input.pages
      (unresolvedSparseKeys input.schemaSpec input.schemaPageMap)
      input.chunkPages input.extraInstructions)

/-- `_collect_schema_values`.  The third component is observational: the key
list of the single fallback schema-wide extraction, or `none` when no
fallback was issued. -/
def collectSchemaValues (input : CollectInput) :
    List FieldValue × List PricingCall × Option (List String) :=
  let keysByPage := buildRoutedKeysByPage input.schemaSpec input.schemaPageMap
  if keysByPage = [] ∨ input.usePageGroups = false then
    let r := extractValuesForKeys input.backend input.pages
      (input.schemaSpec.fields.map (·.key)) input.chunkPages
      input.extraInstructions
    (r.1, r.2, none)
  else
    let pre := preFallback input
    let extractedValues := pre.1.1 ++ pre.2.1
    let missing := missingPagedKeys extractedValues keysByPage input.backend
    if missing = [] then
      (extractedValues, pre.1.2 ++ pre.2.2, none)
    else
      let fallback := extractValuesForKeys input.backend input.pages missing
        input.chunkPages input.extraInstructions
      (extractedValues ++ fallback.1,
       pre.1.2 ++ pre.2.2 ++ fallback.2,
       some missing)

/-! ## Result assembler (`extractor.py`) -/

/-- Extraction result (`typing/models/extraction.py`); the free-form
diagnostic `metadata` dict carries no typed content relevant to any claim
and is not modelled. -/
structure ExtractionResult where
  fields : List FieldValue
  flat : List (String × String)
  schemaFieldsCount : Nat
  pricing : Option PricingCall

/-- One iteration of the `_build_result` field loop. -/
def buildEntry (byKey : List (String × FieldValue)) (nullSentinel : String)
    (schemaField : SchemaField) : Except Unit FieldValue :=
  match lookupStr byKey schemaField.key with
  | none =>
    .ok { key := schemaField.key, value := nullSentinel,
          page := schemaField.page, confidence := .unknown }
  | some fieldValue =>
    if pyStrip fieldValue.value = "" then
      .ok { key := schemaField.key, value := nullSentinel,
            page := fieldValue.page, confidence := fieldValue.confidence }
    else
      (normalizeTypedValue fieldValue.value schemaField nullSentinel).map
        (fun nv => { fieldValue with value := nv })

/-- The `_build_result` loop over schema fields. -/
def buildEntries (byKey : List (String × FieldValue)) (nullSentinel : String) :
    List SchemaField → Except Unit (List FieldValue)
  | [] => .ok []
  | f :: fs => do
    let e ← buildEntry byKey nullSentinel f
    let rest ← buildEntries byKey nullSentinel fs
    .ok (e :: rest)

/-- `_build_result`: reconcile values per key, emit one entry per schema
field (null sentinel for absent/blank values, typed normalization otherwise)
and derive the flat map.  A trapped decimal signal escaping the normalizer
surfaces as `Except.error`. -/
def buildResult (schema : SchemaSpec) (values : List FieldValue)
    (nullSentinel : String) (pricing : Option PricingCall) :
    Except Unit ExtractionResult := do
  let byKey := foldByKey values
  let entries ← buildEntries byKey nullSentinel schema.fields
  .ok { fields := entries
        flat := entries.foldl (fun d v => dictSet d v.key v.value) []
        schemaFieldsCount := schema.fields.length
        pricing := pricing }

/-! ## Statement-level helper definitions -/

/-- Left fold of the confidence reconciler over the values carrying a given
key: the value that survives reconciliation for that key. -/
def reconcileForKey (k : String) (values : List FieldValue) : Option FieldValue :=
  (values.filter (fun v => v.key = k)).foldl
    (fun acc v => some (selectBetterValue acc v)) none

/-- `m` is the first element of `l` attaining the minimum of `f`
(Python `min(l, key=f)` semantics). -/
def isFirstMinBy {α : Type} (f : α → Nat) (m : α) (l : List α) : Prop :=
  ∃ l₁ l₂, l = l₁ ++ m :: l₂ ∧ (∀ y ∈ l₁, f m < f y) ∧ ∀ y ∈ l, f m ≤ f y

/-- Fixture: first rendered page. -/
def cexPage1 : RenderedPage := ⟨1, "image/png", "AA=="⟩

/-- Fixture: second rendered page. -/
def cexPage2 : RenderedPage := ⟨2, "image/png", "BB=="⟩

/-- Fixture backend: the single-page (page-scoped) call answers the key `a`
with the literal null sentinel at high confidence; the full-page-set
(fallback) call answers `a = "x"` at low confidence. -/
def cexBackend : Backend :=
  { extract := fun pages _keys _extra =>
      if pages.length = 1 then ([⟨"a", "NULL", some 1, .high⟩], none)
      else ([⟨"a", "x", some 1, .low⟩], none)
    nullSentinel := "NULL" }

/-- Fixture schema: a single field `a` anchored to page 1. -/
def cexSchema : SchemaSpec :=
  ⟨"id", "n", "fp", 1, none, [⟨"a", "A", some 1, .unknown, none, none, none, []⟩]⟩

/-- Fixture collection input: two pages, page grouping enabled, chunk size
covering the page list. -/
def cexInput : CollectInput :=
  ⟨cexSchema, 2, none, cexBackend, [cexPage1, cexPage2], true, none⟩

/-- Fixture: a schema field of phone kind. -/
def phoneFieldFixture : SchemaField :=
  ⟨"p", "P", none, .phone, none, none, none, []⟩

/-- Value of a little-endian digit list (specification function for
`natDigitsRev`). -/
def natFromRev : List Nat → Nat
  | [] => 0
  | d :: ds => d + 10 * natFromRev ds

/-- A rendered amount is in minimal fixed-point form: if it contains a
decimal point it ends in neither a trailing zero nor a trailing point. -/
def minimalFixedForm (s : String) : Prop :=
  '.' ∈ s.toList →
    s.toList.getLast? ≠ some '0' ∧ s.toList.getLast? ≠ some '.'

/-- Exact rational value of a finite decimal (specification function for the
exact-arithmetic claim). -/
def decValue (d : DecNum) : ℚ :=
  (if d.neg then -1 else 1) * d.coeff * (10 : ℚ) ^ d.exp

/-- Fixture schema for sparse-key inference: anchored fields `a` (page 1) and
`b` (page 3) around the unanchored fields `x` and `y`. -/
def sparseSchemaFixture : SchemaSpec :=
  ⟨"id", "n", "fp", 1, none,
    [⟨"a", "A", some 1, .unknown, none, none, none, []⟩,
     ⟨"x", "X", none, .unknown, none, none, none, []⟩,
     ⟨"y", "Y", none, .unknown, none, none, none, []⟩,
     ⟨"b", "B", some 3, .unknown, none, none, none, []⟩]⟩

/-! ## General lemmas -/

theorem mem_insertSorted {a s : String} {l : List String} :
    a ∈ insertSorted s l ↔ a = s ∨ a ∈ l := by
  induction l with
  | nil => simp [insertSorted]
  | cons x xs ih =>
    simp only [insertSorted]
    split
    · simp
    · simp only [List.mem_cons, ih]
      tauto

theorem mem_sortStrings {a : String} {l : List String} :
    a ∈ sortStrings l ↔ a ∈ l := by
  induction l with
  | nil => simp [sortStrings]
  | cons x xs ih =>
    show a ∈ insertSorted x (sortStrings xs) ↔ _
    rw [mem_insertSorted]
    simp [ih]

theorem mem_dedupStrings {a : String} {l : List String} :
    a ∈ dedupStrings l ↔ a ∈ l := by
  induction l with
  | nil => simp [dedupStrings]
  | cons x xs ih =>
    simp only [dedupStrings]
    split
    · rename_i hx
      simp only [List.mem_cons, ih]
      constructor
      · exact Or.inr
      · rintro (rfl | h)
        · exact hx
        · exact h
    · simp [ih]

/-- Membership characterization of `_missing_paged_keys`. -/
theorem mem_missingPagedKeys {k : String} {vals : List FieldValue}
    {kbp : List (Int × List String)} {backend : Backend} :
    k ∈ missingPagedKeys vals kbp backend ↔
      k ∈ (kbp.map (·.2)).flatten ∧
      ¬ ∃ v ∈ vals, v.key = k ∧ usableValue backend.nullSentinel v = true := by
  simp only [missingPagedKeys, mem_sortStrings, mem_dedupStrings, List.mem_filter,
    Bool.not_eq_true', List.any_eq_false]
  constructor
  · rintro ⟨hmem, hall⟩
    refine ⟨hmem, ?_⟩
    rintro ⟨v, hv, hkey, husable⟩
    have := hall v hv
    simp [hkey, husable] at this
  · rintro ⟨hmem, hnone⟩
    refine ⟨hmem, ?_⟩
    intro v hv
    by_cases hkey : v.key = k
    · have husable : usableValue backend.nullSentinel v = false := by
        by_contra h
        exact hnone ⟨v, hv, hkey, by
          cases h' : usableValue backend.nullSentinel v
          · exact absurd h' h
          · rfl⟩
      simp [hkey, husable]
    · simp [hkey]

/-- `foldl (+) 0` agrees with `List.sum` on integers. -/
theorem foldl_add_int (a : Int) (l : List Int) :
    l.foldl (· + ·) a = a + l.sum := by
  induction l generalizing a with
  | nil => simp
  | cons x xs ih => simp [List.foldl_cons, ih, List.sum_cons]; ring

/-! ## Claim C2 — confidence reconciler -/

/-- C2: the confidence reconciler satisfies `select_better(absent, X) = X`
and `select_better(X, X) = X`; a non-blank value (trimmed form non-empty)
always beats a blank one regardless of confidence; between two values of
equal blankness the candidate wins exactly when its confidence rank is
strictly higher under unknown(0) < low(1) < medium(2) < high(3), ties
keeping the current value. -/
theorem C2_select_better_value :
    (∀ x : FieldValue, selectBetterValue none x = x) ∧
    (∀ x : FieldValue, selectBetterValue (some x) x = x) ∧
    (∀ cur cand : FieldValue, pyStrip cur.value = "" → pyStrip cand.value ≠ "" →
      selectBetterValue (some cur) cand = cand) ∧
    (∀ cur cand : FieldValue, pyStrip cur.value ≠ "" → pyStrip cand.value = "" →
      selectBetterValue (some cur) cand = cur) ∧
    (∀ cur cand : FieldValue, (pyStrip cur.value = "" ↔ pyStrip cand.value = "") →
      (confidenceRank cur.confidence < confidenceRank cand.confidence →
        selectBetterValue (some cur) cand = cand) ∧
      (confidenceRank cand.confidence ≤ confidenceRank cur.confidence →
        selectBetterValue (some cur) cand = cur)) ∧
    confidenceRank .unknown = 0 ∧ confidenceRank .low = 1 ∧
    confidenceRank .medium = 2 ∧ confidenceRank .high = 3 := by
  refine ⟨fun x => rfl, ?_, ?_, ?_, ?_, rfl, rfl, rfl, rfl⟩
  · intro x
    simp only [selectBetterValue]
    split_ifs <;> rfl
  · intro cur cand hcur hcand
    simp only [selectBetterValue]
    split_ifs <;> tauto
  · intro cur cand hcur hcand
    simp only [selectBetterValue]
    split_ifs <;> tauto
  · intro cur cand hiff
    constructor <;> intro hrank <;> simp only [selectBetterValue] <;>
      split_ifs <;> first | rfl | tauto | omega

/-- Witness for C2 at concrete inputs: a high-confidence blank loses to a
low-confidence non-blank, and a strictly higher rank wins among non-blanks. -/
theorem C2_select_better_value_witness :
    selectBetterValue (some ⟨"k", " ", none, .high⟩) ⟨"k", "v", none, .low⟩ =
      ⟨"k", "v", none, .low⟩ ∧
    selectBetterValue (some ⟨"k", "a", none, .low⟩) ⟨"k", "b", none, .medium⟩ =
      ⟨"k", "b", none, .medium⟩ :=
  ⟨C2_select_better_value.2.2.1 ⟨"k", " ", none, .high⟩ ⟨"k", "v", none, .low⟩
      (by decide) (by decide),
   (C2_select_better_value.2.2.2.2.1 ⟨"k", "a", none, .low⟩ ⟨"k", "b", none, .medium⟩
      (by decide)).1 (by decide)⟩

/-! ## Claim C4 — pricing mismatch handling -/

/-- C4 counterexample: `merge_pricing_calls` — the code path that aggregates
the per-call pricing list collected during one extraction run — silently
merges two calls whose provider and model both differ, labelling the sum
with the first call's provider and model instead of raising. -/
theorem C4_counterexample :
    mergePricingCalls
        [⟨"openai", "gpt-4o", some 10, some 5, none⟩,
         ⟨"azure", "doc-intel", some 3, none, none⟩] =
      some ⟨"openai", "gpt-4o", some 13, some 5, none⟩ ∧
    ("openai" : String) ≠ "azure" ∧ ("gpt-4o" : String) ≠ "doc-intel" :=
  ⟨rfl, by decide, by decide⟩

/-- C4 amended: `PricingCall.__add__` raises a `ModelMismatchError` whenever
provider or model differ and never silently merges; the per-extraction
aggregation `merge_pricing_calls`, however, performs no provider/model
check — it always produces a record labelled with the first call's provider
and model. -/
theorem C4_pricing_mismatch_amended :
    (∀ a b : PricingCall, a.provider ≠ b.provider ∨ a.model ≠ b.model →
      pricingCallAdd a b = .error ⟨a.provider, a.model, b.provider, b.model⟩) ∧
    (∀ a b : PricingCall, a.provider = b.provider → a.model = b.model →
      pricingCallAdd a b =
        .ok { provider := a.provider, model := a.model,
              inputTokens := sumOptionalInt2 a.inputTokens b.inputTokens,
              outputTokens := sumOptionalInt2 a.outputTokens b.outputTokens,
              totalCostUsd := sumOptionalFloat2 a.totalCostUsd b.totalCostUsd }) ∧
    (∀ (first : PricingCall) (rest : List PricingCall), ∃ m,
      mergePricingCalls (first :: rest) = some m ∧
      m.provider = first.provider ∧ m.model = first.model) := by
  refine ⟨?_, ?_, ?_⟩
  · intro a b h
    simp only [pricingCallAdd, if_pos h]
  · intro a b h1 h2
    simp only [pricingCallAdd]
    rw [if_neg]
    push_neg
    exact ⟨h1, h2⟩
  · intro first rest
    exact ⟨_, rfl, rfl, rfl⟩

/-- Witness for C4 amended: a mismatched `__add__` raises, a matched one
combines. -/
theorem C4_pricing_mismatch_amended_witness :
    pricingCallAdd ⟨"openai", "gpt-4o", some 1, none, none⟩
        ⟨"azure", "gpt-4o", some 2, none, none⟩ =
      .error ⟨"openai", "gpt-4o", "azure", "gpt-4o"⟩ ∧
    pricingCallAdd ⟨"openai", "gpt-4o", some 1, none, none⟩
        ⟨"openai", "gpt-4o", some 2, some 4, none⟩ =
      .ok ⟨"openai", "gpt-4o", some 3, some 4, none⟩ ∧
    ∃ m, mergePricingCalls [⟨"openai", "gpt-4o", some 1, none, none⟩] = some m ∧
      m.provider = "openai" ∧ m.model = "gpt-4o" :=
  ⟨C4_pricing_mismatch_amended.1 _ _ (Or.inl (by decide)),
   C4_pricing_mismatch_amended.2.1 ⟨"openai", "gpt-4o", some 1, none, none⟩
     ⟨"openai", "gpt-4o", some 2, some 4, none⟩ rfl rfl,
   C4_pricing_mismatch_amended.2.2 ⟨"openai", "gpt-4o", some 1, none, none⟩ []⟩

/-! ## Claim C9 — token aggregation -/

/-- C9: aggregating a non-empty pricing list sums token counts over the
calls whose count is known, yields `None` (not zero) when every count is
unknown, and aggregating an empty list yields no pricing record at all. -/
theorem C9_token_aggregation :
    mergePricingCalls [] = none ∧
    (∀ calls m, mergePricingCalls calls = some m →
      (calls.filterMap (·.inputTokens) = [] → m.inputTokens = none) ∧
      (calls.filterMap (·.inputTokens) ≠ [] →
        m.inputTokens = some (calls.filterMap (·.inputTokens)).sum) ∧
      (calls.filterMap (·.outputTokens) = [] → m.outputTokens = none) ∧
      (calls.filterMap (·.outputTokens) ≠ [] →
        m.outputTokens = some (calls.filterMap (·.outputTokens)).sum)) := by
  refine ⟨rfl, ?_⟩
  intro calls m hm
  have hsum : ∀ f : PricingCall → Option Int,
      sumOptionalIntList (calls.map f) =
        match calls.filterMap f with
        | [] => none
        | known => some known.sum := by
    intro f
    simp only [sumOptionalIntList, List.filterMap_map, Function.id_comp]
    cases h : calls.filterMap f with
    | nil => rfl
    | cons x xs => simp [foldl_add_int]
  cases calls with
  | nil => simp [mergePricingCalls] at hm
  | cons first rest =>
    simp only [mergePricingCalls, Option.some.injEq] at hm
    subst hm
    refine ⟨?_, ?_, ?_, ?_⟩ <;> intro h
    · show sumOptionalIntList ((first :: rest).map fun c => c.inputTokens) = none
      rw [hsum, h]
    · show sumOptionalIntList ((first :: rest).map fun c => c.inputTokens) = _
      cases hc : (first :: rest).filterMap (fun c => c.inputTokens) with
      | nil => exact absurd hc h
      | cons x xs => rw [hsum, hc]
    · show sumOptionalIntList ((first :: rest).map fun c => c.outputTokens) = none
      rw [hsum, h]
    · show sumOptionalIntList ((first :: rest).map fun c => c.outputTokens) = _
      cases hc : (first :: rest).filterMap (fun c => c.outputTokens) with
      | nil => exact absurd hc h
      | cons x xs => rw [hsum, hc]

/-- Witness for C9: all-unknown input tokens aggregate to `None` while the
known output tokens sum. -/
theorem C9_token_aggregation_witness :
    ∃ m, mergePricingCalls
        [⟨"p", "m", none, some 2, none⟩, ⟨"p", "m", none, some 3, none⟩] = some m ∧
      m.inputTokens = none ∧ m.outputTokens = some 5 := by
  refine ⟨⟨"p", "m", none, some 5, none⟩, rfl, ?_, ?_⟩
  · exact (C9_token_aggregation.2
      [⟨"p", "m", none, some 2, none⟩, ⟨"p", "m", none, some 3, none⟩]
      ⟨"p", "m", none, some 5, none⟩ rfl).1 (by decide)
  · have h := (C9_token_aggregation.2
      [⟨"p", "m", none, some 2, none⟩, ⟨"p", "m", none, some 3, none⟩]
      ⟨"p", "m", none, some 5, none⟩ rfl).2.2.2 (by decide)
    exact h.trans (by decide)

/-! ## Claim C10 — the reconciler's blankness test is whitespace-only -/

/-- C10: the reconciler classifies any value whose trimmed form is non-empty
— including the literal sentinel string `"NULL"` — as non-blank, so a
sentinel-valued observation beats an empty-string observation in either
direction, and when seen first with equal or higher confidence it is
retained over a later genuine value.  Sentinel awareness lives in the
missing-key computation (any key all of whose values trim to blank, the
configured sentinel, or `"NULL"` stays missing) and in the final normalizer
(a value trimming to the sentinel is emitted as the sentinel). -/
theorem C10_sentinel_blankness :
    (∀ k p c k' p' c',
      selectBetterValue (some ⟨k, "NULL", p, c⟩) ⟨k', "", p', c'⟩ = ⟨k, "NULL", p, c⟩) ∧
    (∀ k p c k' p' c',
      selectBetterValue (some ⟨k, "", p, c⟩) ⟨k', "NULL", p', c'⟩ = ⟨k', "NULL", p', c'⟩) ∧
    (∀ cur cand : FieldValue, pyStrip cur.value = "NULL" → pyStrip cand.value ≠ "" →
      confidenceRank cand.confidence ≤ confidenceRank cur.confidence →
      selectBetterValue (some cur) cand = cur) ∧
    (∀ (backend : Backend) (kbp : List (Int × List String)) (k : String)
        (vals : List FieldValue), k ∈ (kbp.map (·.2)).flatten →
      (∀ v ∈ vals, v.key = k →
        pyStrip v.value = "" ∨ pyStrip v.value = backend.nullSentinel ∨
          pyStrip v.value = "NULL") →
      k ∈ missingPagedKeys vals kbp backend) ∧
    (∀ f s v, pyStrip v = s → normalizeTypedValue v f s = .ok s) := by
  refine ⟨?_, ?_, ?_, ?_, ?_⟩
  · intro k p c k' p' c'
    simp only [selectBetterValue]
    split_ifs with h1 h2 h3 <;>
      first
        | rfl
        | (exfalso; revert h1; decide)
        | (exfalso; revert h2; decide)
  · intro k p c k' p' c'
    simp only [selectBetterValue]
    split_ifs with h1 <;> first | rfl |
      (exfalso; apply h1; constructor <;> decide)
  · intro cur cand hcur hcand hrank
    simp only [selectBetterValue]
    have hcurnb : ¬ (pyStrip cur.value = "") := by
      rw [hcur]; decide
    split_ifs with h1 h2 h3 <;> first | rfl | tauto | omega
  · intro backend kbp k vals hk hvals
    rw [mem_missingPagedKeys]
    refine ⟨hk, ?_⟩
    rintro ⟨v, hv, hkey, husable⟩
    have := hvals v hv hkey
    simp only [usableValue, Bool.and_eq_true, decide_eq_true_eq] at husable
    rcases this with h | h | h
    · exact husable.1 h
    · exact husable.2.1 h
    · exact husable.2.2 h
  · intro f s v hv
    simp only [normalizeTypedValue]
    rw [if_pos (Or.inr hv)]

/-- Witness for C10: an equal-confidence sentinel seen first is retained over
a later genuine value; a key whose only value is the sentinel is reported
missing; the normalizer maps a sentinel-valued amount to the sentinel. -/
theorem C10_sentinel_blankness_witness :
    selectBetterValue (some ⟨"a", "NULL", none, .unknown⟩)
        ⟨"a", "real", none, .unknown⟩ = ⟨"a", "NULL", none, .unknown⟩ ∧
    "a" ∈ missingPagedKeys [⟨"a", "NIL", none, .unknown⟩] [(1, ["a"])]
        ⟨fun _ _ _ => ([], none), "NIL"⟩ ∧
    normalizeTypedValue "NULL" ⟨"f", "F", none, .amount, none, none, none, []⟩
        "NULL" = .ok "NULL" :=
  ⟨C10_sentinel_blankness.2.2.1 ⟨"a", "NULL", none, .unknown⟩
      ⟨"a", "real", none, .unknown⟩ (by decide) (by decide) (by decide),
   C10_sentinel_blankness.2.2.2.1 ⟨fun _ _ _ => ([], none), "NIL"⟩ [(1, ["a"])]
      "a" [⟨"a", "NIL", none, .unknown⟩] (by decide) (by decide),
   C10_sentinel_blankness.2.2.2.2 ⟨"f", "F", none, .amount, none, none, none, []⟩
      "NULL" "NULL" (by decide)⟩

/-! ## Claim C7 — schema logical-page to physical-page mapping -/

theorem lookupInt_rangeMap {g : Int → Int} :
    ∀ (n : Nat) (start N : Int), start ≤ N → N < start + n →
      lookupInt ((rangeInts start n).map (fun p => (p, g p))) N = some (g N) := by
  intro n
  induction n with
  | zero => intro start N h1 h2; omega
  | succ m ih =>
    intro start N h1 h2
    simp only [rangeInts, List.map_cons, lookupInt]
    by_cases h : start = N
    · subst h; simp
    · rw [if_neg h]
      exact ih (start + 1) N (by omega) (by omega)

theorem getD_of_getElem? {α : Type} {l : List α} {n : Nat} {d q : α}
    (h : l[n]? = some q) : l.getD n d = q := by
  induction l generalizing n with
  | nil => simp at h
  | cons x xs ih =>
    cases n with
    | zero => simp at h; simp [List.getD, h]
    | succ m =>
      simp only [List.getElem?_cons_succ] at h
      simpa [List.getD] using ih h

/-- C7: the schema page mapping sends logical page `N` to the `N`-th retained
non-blank physical page exactly when the analysis is present, the retained
list is non-empty and strictly shorter than the selected list, and the
highest referenced schema page fits within the retained pages; in every
other case (including an absent analysis) it is the identity on logical
pages `1..maxSchemaPage`, and with no referenced schema page it is empty.
The construction is a total function — it cannot raise. -/
theorem C7_schema_page_mapping :
    (∀ schema analysis, schema.fields.filterMap (·.page) = [] →
      buildSchemaPageMapping schema analysis = []) ∧
    (∀ schema analysis p ps, schema.fields.filterMap (·.page) = p :: ps →
      ((∀ a, analysis = some a →
          a.nonblankPageNumbers ≠ [] →
          a.nonblankPageNumbers.length < a.selectedPageNumbers.length →
          ps.foldl max p ≤ (a.nonblankPageNumbers.length : Int) →
          ∀ N : Int, 1 ≤ N → N ≤ ps.foldl max p →
            ∃ q, a.nonblankPageNumbers[(N - 1).toNat]? = some q ∧
              lookupInt (buildSchemaPageMapping schema analysis) N = some q) ∧
       (analysis = none →
          ∀ N : Int, 1 ≤ N → N ≤ ps.foldl max p →
            lookupInt (buildSchemaPageMapping schema analysis) N = some N) ∧
       (∀ a, analysis = some a →
          (a.nonblankPageNumbers = [] ∨
           ¬ a.nonblankPageNumbers.length < a.selectedPageNumbers.length ∨
           ¬ ps.foldl max p ≤ (a.nonblankPageNumbers.length : Int)) →
          ∀ N : Int, 1 ≤ N → N ≤ ps.foldl max p →
            lookupInt (buildSchemaPageMapping schema analysis) N = some N))) := by
  constructor
  · intro schema analysis h
    simp only [buildSchemaPageMapping, h]
  · intro schema analysis p ps h
    have hmap : ∀ N : Int, 1 ≤ N → N ≤ ps.foldl max p →
        lookupInt ((rangeFromOne (ps.foldl max p)).map (fun n => (n, n))) N =
          some N := by
      intro N h1 h2
      have := lookupInt_rangeMap (g := fun n => n) (ps.foldl max p).toNat 1 N h1
        (by omega)
      simpa using this
    refine ⟨?_, ?_, ?_⟩
    · rintro a rfl hne hlen hmax N h1 h2
      have hidx : (N - 1).toNat < a.nonblankPageNumbers.length := by omega
      refine ⟨a.nonblankPageNumbers[(N - 1).toNat], List.getElem?_eq_getElem hidx, ?_⟩
      have hsel : a.selectedPageNumbers ≠ [] := by
        intro hs
        rw [hs] at hlen
        simp at hlen
      have hcond : a.nonblankPageNumbers ≠ [] ∧
          a.nonblankPageNumbers.length < a.selectedPageNumbers.length ∧
          ps.foldl max p ≤ (a.nonblankPageNumbers.length : Int) := ⟨hne, hlen, hmax⟩
      simp only [buildSchemaPageMapping, h]
      rw [if_neg hsel, if_pos hcond]
      have := lookupInt_rangeMap
        (g := fun n => pyIndex a.nonblankPageNumbers (n - 1))
        (ps.foldl max p).toNat 1 N h1 (by omega)
      simp only [rangeFromOne] at this ⊢
      rw [this]
      have : pyIndex a.nonblankPageNumbers (N - 1) =
          a.nonblankPageNumbers[(N - 1).toNat] :=
        getD_of_getElem? (List.getElem?_eq_getElem hidx)
      rw [this]
    · rintro rfl N h1 h2
      simp only [buildSchemaPageMapping, h]
      exact hmap N h1 h2
    · rintro a rfl hcond N h1 h2
      simp only [buildSchemaPageMapping, h]
      by_cases hsel : a.selectedPageNumbers = []
      · rw [if_pos hsel]
        exact hmap N h1 h2
      · rw [if_neg hsel, if_neg ?_]
        · exact hmap N h1 h2
        · rintro ⟨c1, c2, c3⟩
          rcases hcond with hc | hc | hc
          · exact c1 hc
          · exact hc c2
          · exact hc c3

/-- Witness for C7: the test-pinned scenario — fields on logical pages 1
and 2, selected pages `[1,2,3,4]`, retained `[1,3]` — maps logical 2 to
physical 3; without analysis the mapping is the identity. -/
theorem C7_schema_page_mapping_witness :
    (∃ q, ([1, 3] : List Int)[(2 - 1 : Int).toNat]? = some q ∧
      lookupInt (buildSchemaPageMapping
        ⟨"id", "n", "fp", 1, none,
          [⟨"a", "A", some 1, .unknown, none, none, none, []⟩,
           ⟨"b", "B", some 2, .unknown, none, none, none, []⟩]⟩
        (some ⟨[1, 2, 3, 4], [1, 3]⟩)) 2 = some q) ∧
    lookupInt (buildSchemaPageMapping
        ⟨"id", "n", "fp", 1, none,
          [⟨"a", "A", some 2, .unknown, none, none, none, []⟩]⟩ none) 2 = some 2 :=
  ⟨(C7_schema_page_mapping.2
      ⟨"id", "n", "fp", 1, none,
        [⟨"a", "A", some 1, .unknown, none, none, none, []⟩,
         ⟨"b", "B", some 2, .unknown, none, none, none, []⟩]⟩
      (some ⟨[1, 2, 3, 4], [1, 3]⟩) 1 [2] rfl).1
      ⟨[1, 2, 3, 4], [1, 3]⟩ rfl (by decide) (by decide) (by decide) 2
      (by decide) (by decide),
   (C7_schema_page_mapping.2
      ⟨"id", "n", "fp", 1, none,
        [⟨"a", "A", some 2, .unknown, none, none, none, []⟩]⟩
      none 2 [] rfl).2.1 rfl 2 (by decide) (by decide)⟩

/-! ## Claim C6 — sparse-key page inference -/

theorem pyMinBy_isFirstMin {α : Type} (f : α → Nat) :
    ∀ (l : List α) (a : α), isFirstMinBy f (pyMinBy f a l) (a :: l) := by
  intro l
  induction l with
  | nil =>
    intro a
    exact ⟨[], [], rfl, by simp, by simp [pyMinBy]⟩
  | cons b t ih =>
    intro a
    have hstep : pyMinBy f a (b :: t) = pyMinBy f (if f b < f a then b else a) t := rfl
    rw [hstep]
    by_cases hba : f b < f a
    · rw [if_pos hba]
      obtain ⟨l₁, l₂, hdec, hlt, hle⟩ := ih b
      refine ⟨a :: l₁, l₂, by rw [List.cons_append, ← hdec], ?_, ?_⟩
      · intro y hy
        rcases List.mem_cons.mp hy with rfl | hy'
        · have hb : f (pyMinBy f b t) ≤ f b := hle b (by simp)
          omega
        · exact hlt y hy'
      · intro y hy
        rcases List.mem_cons.mp hy with rfl | hy'
        · have hb : f (pyMinBy f b t) ≤ f b := hle b (by simp)
          omega
        · exact hle y hy'
    · rw [if_neg hba]
      obtain ⟨l₁, l₂, hdec, hlt, hle⟩ := ih a
      cases l₁ with
      | nil =>
        simp only [List.nil_append, List.cons.injEq] at hdec
        obtain ⟨hm, ht⟩ := hdec
        refine ⟨[], b :: l₂, ?_, by simp, ?_⟩
        · rw [List.nil_append, ← hm, ← ht]
        · intro y hy
          rcases List.mem_cons.mp hy with rfl | hy'
          · exact hle _ (by simp)
          · rcases List.mem_cons.mp hy' with rfl | hy''
            · rw [← hm]; omega
            · exact hle y (by simp [hy''])
      | cons x l₁' =>
        simp only [List.cons_append, List.cons.injEq] at hdec
        obtain ⟨hax, ht⟩ := hdec
        subst hax
        have hma : f (pyMinBy f a t) < f a := hlt a (by simp)
        refine ⟨a :: b :: l₁', l₂, ?_, ?_, ?_⟩
        · conv_lhs => rw [ht]
          simp
        · intro y hy
          rcases List.mem_cons.mp hy with rfl | hy'
          · exact hma
          · rcases List.mem_cons.mp hy' with rfl | hy''
            · omega
            · exact hlt y (by simp [hy''])
        · intro y hy
          rcases List.mem_cons.mp hy with rfl | hy'
          · omega
          · rcases List.mem_cons.mp hy' with rfl | hy''
            · omega
            · exact hle y (by simp [hy''])

/-- The first minimum in an index-sorted list has the lowest index among all
elements attaining the minimal key. -/
theorem isFirstMin_lowest_index {β : Type} (f : Nat × β → Nat) {m : Nat × β}
    {l : List (Nat × β)} (hfm : isFirstMinBy f m l)
    (hsorted : List.Pairwise (fun x y => x.1 < y.1) l) :
    ∀ y ∈ l, f y = f m → m.1 ≤ y.1 := by
  obtain ⟨l₁, l₂, rfl, hlt, _⟩ := hfm
  intro y hy hfy
  rcases List.mem_append.mp hy with hy1 | hy2
  · exact absurd hfy (by have := hlt y hy1; omega)
  · rcases List.mem_cons.mp hy2 with rfl | hy3
    · exact le_refl _
    · rw [List.pairwise_append] at hsorted
      exact le_of_lt ((List.pairwise_cons.mp hsorted.2.1).1 y hy3)

theorem fst_ge_of_mem_enumFrom {α : Type} :
    ∀ (l : List α) (n : Nat) (x : Nat × α), x ∈ l.enumFrom n → n ≤ x.1 := by
  intro l
  induction l with
  | nil => intro n x hx; simp [List.enumFrom] at hx
  | cons a t ih =>
    intro n x hx
    rcases List.mem_cons.mp hx with rfl | h
    · exact le_refl _
    · have := ih (n + 1) x h
      omega

theorem pairwise_fst_lt_enumFrom {α : Type} :
    ∀ (l : List α) (n : Nat),
      List.Pairwise (fun x y : Nat × α => x.1 < y.1) (l.enumFrom n) := by
  intro l
  induction l with
  | nil => intro n; simp [List.enumFrom]
  | cons a t ih =>
    intro n
    refine List.Pairwise.cons ?_ (ih (n + 1))
    intro y hy
    have := fst_ge_of_mem_enumFrom t (n + 1) y hy
    omega

theorem pairwise_filterMap_custom {α β : Type} (g : α → Option β)
    (R : α → α → Prop) (S : β → β → Prop)
    (hg : ∀ x y a b, R x y → g x = some a → g y = some b → S a b) :
    ∀ l : List α, List.Pairwise R l → List.Pairwise S (l.filterMap g) := by
  intro l
  induction l with
  | nil => intro _; simp
  | cons x xs ih =>
    intro hp
    rw [List.pairwise_cons] at hp
    rw [List.filterMap_cons]
    cases hx : g x with
    | none => exact ih hp.2
    | some a =>
      refine List.Pairwise.cons ?_ (ih hp.2)
      intro b hb
      obtain ⟨y, hy, hgy⟩ := List.mem_filterMap.mp hb
      exact hg x y a b (hp.1 y hy) hx hgy

/-- The anchored-position list is strictly sorted by field index. -/
theorem anchoredPositions_sorted (schema : SchemaSpec)
    (pm : Option (List (Int × Int))) :
    List.Pairwise (fun x y : Nat × Int => x.1 < y.1)
      (anchoredPositions schema pm) := by
  refine pairwise_filterMap_custom _ (fun x y : Nat × SchemaField => x.1 < y.1) _
    ?_ _ ?_
  · intro x y a b hxy hx hy
    cases hpx : x.2.page with
    | none => rw [hpx] at hx; simp at hx
    | some p =>
      cases hpy : y.2.page with
      | none => rw [hpy] at hy; simp at hy
      | some q =>
        rw [hpx] at hx
        rw [hpy] at hy
        simp only [Option.some.injEq] at hx hy
        rw [← hx, ← hy]
        exact hxy
  · exact pairwise_fst_lt_enumFrom schema.fields 0

theorem mem_enumFrom_of_mem {α : Type} :
    ∀ (l : List α) (n : Nat) (x : α), x ∈ l → ∃ i, (i, x) ∈ l.enumFrom n := by
  intro l
  induction l with
  | nil => intro n x hx; simp at hx
  | cons a t ih =>
    intro n x hx
    rcases List.mem_cons.mp hx with rfl | h
    · exact ⟨n, by simp [List.enumFrom]⟩
    · obtain ⟨i, hi⟩ := ih (n + 1) x h
      exact ⟨i, by simp [List.enumFrom, hi]⟩

theorem lookupInt_dictAppend_self (d : List (Int × List String)) (k : Int)
    (v : String) :
    ∃ vs, lookupInt (dictAppend d k v) k = some vs ∧ v ∈ vs := by
  induction d with
  | nil => exact ⟨[v], by simp [dictAppend, lookupInt], by simp⟩
  | cons kv rest ih =>
    obtain ⟨k', vs'⟩ := kv
    simp only [dictAppend]
    by_cases h : k' = k
    · rw [if_pos h]
      exact ⟨vs' ++ [v], by simp [lookupInt, h], by simp⟩
    · rw [if_neg h]
      obtain ⟨vs, hvs, hv⟩ := ih
      exact ⟨vs, by simp [lookupInt, h, hvs], hv⟩

theorem lookupInt_dictAppend_mono (d : List (Int × List String)) (k : Int)
    (v : String) (q : Int) (x : String)
    (h : ∃ vs, lookupInt d q = some vs ∧ x ∈ vs) :
    ∃ vs, lookupInt (dictAppend d k v) q = some vs ∧ x ∈ vs := by
  induction d with
  | nil => simp [lookupInt] at h
  | cons kv rest ih =>
    obtain ⟨k', vs'⟩ := kv
    obtain ⟨vs, hvs, hx⟩ := h
    simp only [lookupInt] at hvs
    by_cases hq : k' = q
    · rw [if_pos hq] at hvs
      obtain rfl := Option.some.inj hvs
      simp only [dictAppend]
      by_cases hk : k' = k
      · rw [if_pos hk]
        simp only [lookupInt, if_pos hq]
        exact ⟨_, rfl, by simp [hx]⟩
      · rw [if_neg hk]
        simp only [lookupInt, if_pos hq]
        exact ⟨_, rfl, hx⟩
    · rw [if_neg hq] at hvs
      simp only [dictAppend]
      by_cases hk : k' = k
      · rw [if_pos hk]
        simp only [lookupInt, if_neg hq]
        exact ⟨vs, hvs, hx⟩
      · rw [if_neg hk]
        simp only [lookupInt, if_neg hq]
        exact ih ⟨vs, hvs, hx⟩

theorem inferSparseLoop_mono (anchors : List (Nat × Int)) (ha : Nat × Int)
    (hrest : List (Nat × Int)) :
    ∀ (items : List (Nat × SchemaField)) (d : List (Int × List String))
      (q : Int) (x : String),
      (∃ vs, lookupInt d q = some vs ∧ x ∈ vs) →
      ∃ vs, lookupInt (inferSparseLoop anchors ha hrest items d) q = some vs ∧
        x ∈ vs := by
  intro items
  induction items with
  | nil => intro d q x h; exact h
  | cons item rest ih =>
    intro d q x h
    obtain ⟨i, fld⟩ := item
    simp only [inferSparseLoop]
    cases hpage : fld.page with
    | some p => exact ih d q x h
    | none =>
      exact ih _ q x (lookupInt_dictAppend_mono d _ fld.key q x h)

theorem inferSparseLoop_adds (anchors : List (Nat × Int)) (ha : Nat × Int)
    (hrest : List (Nat × Int)) :
    ∀ (items : List (Nat × SchemaField)) (d : List (Int × List String))
      (i : Nat) (fld : SchemaField), (i, fld) ∈ items → fld.page = none →
      ∃ vs, lookupInt (inferSparseLoop anchors ha hrest items d)
          (pyMinBy (anchorDist i) ha hrest).2 = some vs ∧ fld.key ∈ vs := by
  intro items
  induction items with
  | nil => intro d i fld h; simp at h
  | cons item rest ih =>
    intro d i fld hmem hpage
    rcases List.mem_cons.mp hmem with heq | h
    · cases heq
      simp only [inferSparseLoop, hpage]
      exact inferSparseLoop_mono anchors ha hrest rest _ _ fld.key
        (lookupInt_dictAppend_self d _ fld.key)
    · obtain ⟨j, g⟩ := item
      simp only [inferSparseLoop]
      cases hpg : g.page with
      | some p => exact ih d i fld h hpage
      | none => exact ih _ i fld h hpage

theorem filterMap_keys_of_all_none :
    ∀ fields : List SchemaField, (∀ f ∈ fields, f.page = none) →
      fields.filterMap
          (fun field => if field.page = none then some field.key else none) =
        fields.map (·.key) := by
  intro fields
  induction fields with
  | nil => intro _; rfl
  | cons f fs ih =>
    intro hall
    rw [List.filterMap_cons, List.map_cons, if_pos (hall f (by simp))]
    rw [ih (fun g hg => hall g (by simp [hg]))]

/-- C6: with at least one anchored field, every page-less field's key is
routed to the page of its nearest anchored neighbour by list position — the
first minimum of `|anchor_index - index|`, which has the lowest index among
equidistant anchors — and the unresolved list is empty; with no anchored
field, no inference happens and every field key is returned unresolved. -/
theorem C6_sparse_key_inference :
    (∀ schema pm, anchoredPositions schema pm = [] →
      inferSparseKeysByPage schema pm = ([], schema.fields.map (·.key))) ∧
    (∀ schema pm a rest, anchoredPositions schema pm = a :: rest →
      (inferSparseKeysByPage schema pm).2 = [] ∧
      ∀ i fld, (i, fld) ∈ schema.fields.enum → fld.page = none →
        ∃ nearest, isFirstMinBy (anchorDist i) nearest (a :: rest) ∧
          (∀ other ∈ a :: rest,
            anchorDist i other = anchorDist i nearest → nearest.1 ≤ other.1) ∧
          ∃ vs, lookupInt (inferSparseKeysByPage schema pm).1 nearest.2 = some vs ∧
            fld.key ∈ vs) := by
  constructor
  · intro schema pm h
    have hall : ∀ f ∈ schema.fields, f.page = none := by
      intro f hf
      obtain ⟨i, hi⟩ := mem_enumFrom_of_mem schema.fields 0 f hf
      have := List.filterMap_eq_nil_iff.mp h (i, f) hi
      cases hp : f.page with
      | none => rfl
      | some p => rw [hp] at this; simp at this
    simp only [inferSparseKeysByPage, h]
    rw [filterMap_keys_of_all_none schema.fields hall]
  · intro schema pm a rest h
    refine ⟨by simp only [inferSparseKeysByPage, h], ?_⟩
    intro i fld hmem hpage
    refine ⟨pyMinBy (anchorDist i) a rest, pyMinBy_isFirstMin (anchorDist i) rest a,
      ?_, ?_⟩
    · intro other hother hdist
      refine isFirstMin_lowest_index (anchorDist i)
        (pyMinBy_isFirstMin (anchorDist i) rest a) ?_ other hother hdist
      have := anchoredPositions_sorted schema pm
      rw [h] at this
      exact this
    · simp only [inferSparseKeysByPage, h]
      exact inferSparseLoop_adds (a :: rest) a rest schema.fields.enum [] i fld
        hmem hpage

/-- Witness for C6: in the fixture schema the unanchored field `x` (index 1)
is routed to the page of its nearest anchor. -/
theorem C6_sparse_key_inference_witness :
    ∃ nearest, isFirstMinBy (anchorDist 1) nearest [(0, (1 : Int)), (3, 3)] ∧
      (∀ other ∈ [(0, (1 : Int)), (3, 3)],
        anchorDist 1 other = anchorDist 1 nearest → nearest.1 ≤ other.1) ∧
      ∃ vs, lookupInt (inferSparseKeysByPage sparseSchemaFixture none).1
          nearest.2 = some vs ∧
        ("x" : String) ∈ vs :=
  (C6_sparse_key_inference.2 sparseSchemaFixture none (0, 1) [(3, 3)] rfl).2 1
    ⟨"x", "X", none, .unknown, none, none, none, []⟩ (by decide) rfl

/-! ## Reconciliation-dictionary lemmas -/

theorem selectBetterValue_mem (w v : FieldValue) :
    selectBetterValue (some w) v = w ∨ selectBetterValue (some w) v = v := by
  simp only [selectBetterValue]
  split_ifs <;> simp

theorem lookupStr_updateByKey (d : List (String × FieldValue)) (v : FieldValue)
    (k : String) :
    lookupStr (updateByKey d v) k =
      if v.key = k then some (selectBetterValue (lookupStr d k) v)
      else lookupStr d k := by
  induction d with
  | nil =>
    simp only [updateByKey, lookupStr]
  | cons kv rest ih =>
    obtain ⟨k', cur⟩ := kv
    simp only [updateByKey]
    by_cases h1 : k' = v.key
    · rw [if_pos h1]
      simp only [lookupStr]
      rw [← h1]
      by_cases h2 : k' = k
      · simp [h2]
      · simp [h2]
    · rw [if_neg h1]
      simp only [lookupStr]
      by_cases h2 : k' = k
      · have hvk : ¬ v.key = k := fun he => h1 (h2.trans he.symm)
        simp [h2, hvk]
      · simp only [if_neg h2]
        exact ih

theorem lookupStr_foldByKey_general (k : String) :
    ∀ (values : List FieldValue) (d : List (String × FieldValue)),
      lookupStr (values.foldl updateByKey d) k =
        (values.filter (fun v => v.key = k)).foldl
          (fun a v => some (selectBetterValue a v)) (lookupStr d k) := by
  intro values
  induction values with
  | nil => intro d; rfl
  | cons v vs ih =>
    intro d
    rw [List.foldl_cons, ih (updateByKey d v), lookupStr_updateByKey]
    by_cases h : v.key = k
    · rw [if_pos h, List.filter_cons_of_pos (by simp [h]), List.foldl_cons]
    · rw [if_neg h, List.filter_cons_of_neg (by simp [h])]

/-- The reconciliation dictionary holds, under key `k`, exactly the
reconciler's fold over the values carrying key `k`. -/
theorem lookupStr_foldByKey (values : List FieldValue) (k : String) :
    lookupStr (foldByKey values) k = reconcileForKey k values :=
  lookupStr_foldByKey_general k values []

theorem reconcileFold_key (k : String) :
    ∀ (l : List FieldValue) (acc : Option FieldValue),
      (∀ v ∈ l, v.key = k) → (∀ w, acc = some w → w.key = k) →
      ∀ fv, l.foldl (fun a v => some (selectBetterValue a v)) acc = some fv →
        fv.key = k := by
  intro l
  induction l with
  | nil => intro acc _ hacc fv h; exact hacc fv h
  | cons v vs ih =>
    intro acc hall hacc fv h
    rw [List.foldl_cons] at h
    refine ih _ (fun w hw => hall w (by simp [hw])) ?_ fv h
    intro w hw
    obtain rfl := Option.some.inj hw
    cases acc with
    | none => exact hall v (by simp)
    | some a =>
      rcases selectBetterValue_mem a v with he | he
      · rw [he]; exact hacc a rfl
      · rw [he]; exact hall v (by simp)

theorem reconcileForKey_key {k : String} {values : List FieldValue}
    {fv : FieldValue} (h : reconcileForKey k values = some fv) : fv.key = k := by
  refine reconcileFold_key k (values.filter (fun v => v.key = k)) none ?_
    (by simp) fv h
  intro v hv
  simpa using (List.mem_filter.mp hv).2

/-! ## Result-assembler lemmas -/

theorem buildEntry_key {byKey : List (String × FieldValue)} {s : String}
    {f : SchemaField} {e : FieldValue}
    (hkeys : ∀ k fv, lookupStr byKey k = some fv → fv.key = k)
    (h : buildEntry byKey s f = .ok e) : e.key = f.key := by
  simp only [buildEntry] at h
  cases hl : lookupStr byKey f.key with
  | none =>
    rw [hl] at h
    dsimp only at h
    obtain rfl := Except.ok.inj h
    rfl
  | some fv =>
    rw [hl] at h
    dsimp only at h
    split_ifs at h with hb
    · obtain rfl := Except.ok.inj h
      rfl
    · cases hn : normalizeTypedValue fv.value f s with
      | error u => rw [hn] at h; simp [Except.map] at h
      | ok nv =>
        rw [hn] at h
        simp only [Except.map, Except.ok.injEq] at h
        rw [← h]
        exact hkeys f.key fv hl

theorem buildEntries_ok {byKey : List (String × FieldValue)} {s : String} :
    ∀ {fs : List SchemaField} {es : List FieldValue},
      buildEntries byKey s fs = .ok es →
      es.length = fs.length ∧
      (∀ i f, fs.get? i = some f →
        ∃ e, es.get? i = some e ∧ buildEntry byKey s f = .ok e) := by
  intro fs
  induction fs with
  | nil =>
    intro es h
    obtain rfl := Except.ok.inj h
    exact ⟨rfl, by intro i f hf; simp at hf⟩
  | cons f fs ih =>
    intro es h
    simp only [buildEntries, bind, Except.bind] at h
    cases he : buildEntry byKey s f with
    | error u => rw [he] at h; simp at h
    | ok e =>
      rw [he] at h
      cases hr : buildEntries byKey s fs with
      | error u => rw [hr] at h; simp at h
      | ok rest =>
        rw [hr] at h
        obtain rfl := Except.ok.inj h
        obtain ⟨hlen, hget⟩ := ih hr
        refine ⟨by simp [hlen], ?_⟩
        intro i g hg
        cases i with
        | zero =>
          simp only [List.get?_cons_zero, Option.some.injEq] at hg
          exact ⟨e, by simp, hg ▸ he⟩
        | succ j =>
          simp only [List.get?_cons_succ] at hg ⊢
          exact hget j g hg

theorem buildEntries_keys {byKey : List (String × FieldValue)} {s : String}
    (hkeys : ∀ k fv, lookupStr byKey k = some fv → fv.key = k) :
    ∀ {fs : List SchemaField} {es : List FieldValue},
      buildEntries byKey s fs = .ok es →
      es.map (·.key) = fs.map (·.key) := by
  intro fs
  induction fs with
  | nil =>
    intro es h
    obtain rfl := Except.ok.inj h
    rfl
  | cons f fs ih =>
    intro es h
    simp only [buildEntries, bind, Except.bind] at h
    cases he : buildEntry byKey s f with
    | error u => rw [he] at h; simp at h
    | ok e =>
      rw [he] at h
      cases hr : buildEntries byKey s fs with
      | error u => rw [hr] at h; simp at h
      | ok rest =>
        rw [hr] at h
        obtain rfl := Except.ok.inj h
        simp only [List.map_cons]
        rw [buildEntry_key hkeys he, ih hr]

theorem foldByKey_keys (values : List FieldValue) :
    ∀ k fv, lookupStr (foldByKey values) k = some fv → fv.key = k := by
  intro k fv h
  rw [lookupStr_foldByKey] at h
  exact reconcileForKey_key h

theorem lookupStr_dictSet {α : Type} (d : List (String × α)) (k : String)
    (v : α) (q : String) :
    lookupStr (dictSet d k v) q = if k = q then some v else lookupStr d q := by
  induction d with
  | nil =>
    simp only [dictSet, lookupStr]
  | cons kv rest ih =>
    obtain ⟨k', v'⟩ := kv
    simp only [dictSet]
    by_cases h1 : k' = k
    · rw [if_pos h1]
      simp only [lookupStr]
      rw [h1]
      by_cases h2 : k = q
      · simp [h2]
      · simp [h2]
    · rw [if_neg h1]
      simp only [lookupStr]
      by_cases h2 : k' = q
      · have hkq : ¬ k = q := fun he => h1 (h2.trans he.symm)
        simp [h2, hkq]
      · simp only [if_neg h2]
        exact ih

theorem flatFold_lookup_notmem :
    ∀ (entries : List FieldValue) (d : List (String × String)) (k : String),
      k ∉ entries.map (·.key) →
      lookupStr (entries.foldl (fun d v => dictSet d v.key v.value) d) k =
        lookupStr d k := by
  intro entries
  induction entries with
  | nil => intro d k _; rfl
  | cons x xs ih =>
    intro d k hk
    simp only [List.map_cons, List.mem_cons] at hk
    push_neg at hk
    rw [List.foldl_cons, ih _ k hk.2, lookupStr_dictSet,
      if_neg (fun he => hk.1 he.symm)]

theorem flatFold_lookup_nodup :
    ∀ (entries : List FieldValue) (d : List (String × String)),
      (entries.map (·.key)).Nodup →
      ∀ e ∈ entries,
        lookupStr (entries.foldl (fun d v => dictSet d v.key v.value) d) e.key =
          some e.value := by
  intro entries
  induction entries with
  | nil => intro d _ e he; simp at he
  | cons x xs ih =>
    intro d hnodup e he
    simp only [List.map_cons, List.nodup_cons] at hnodup
    rcases List.mem_cons.mp he with rfl | he'
    · rw [List.foldl_cons, flatFold_lookup_notmem xs _ e.key hnodup.1,
        lookupStr_dictSet, if_pos rfl]
    · rw [List.foldl_cons]
      exact ih _ hnodup.2 e he'

/-! ## Claim C8 — result assembly -/

/-- C8: whenever assembly completes, the result holds exactly one
`FieldValue` per schema field in schema order (matching keys componentwise);
a field whose reconciled value is absent or blank after trimming is emitted
with the null sentinel; under unique schema keys the flat map has exactly
one entry per key, equal to the emitted value; `schema_fields_count` is the
schema field count regardless of fill; and in the concrete scenario (fields
`a`, `b`, backend returning only `a = "x"`, sentinel `"NULL"`) the flat map
is `{a: "x", b: "NULL"}`. -/
theorem C8_result_assembly :
    (∀ schema values s pricing res,
      buildResult schema values s pricing = .ok res →
      res.fields.length = schema.fields.length ∧
      res.schemaFieldsCount = schema.fields.length ∧
      res.pricing = pricing ∧
      res.fields.map (·.key) = schema.fields.map (·.key) ∧
      (∀ i f, schema.fields.get? i = some f →
        ∃ e, res.fields.get? i = some e ∧ e.key = f.key ∧
          ((reconcileForKey f.key values = none ∨
            (∃ fv, reconcileForKey f.key values = some fv ∧
              pyStrip fv.value = "")) →
            e.value = s)) ∧
      ((schema.fields.map (·.key)).Nodup →
        ∀ e ∈ res.fields, lookupStr res.flat e.key = some e.value)) ∧
    buildResult ⟨"id", "n", "fp", 1, none,
        [⟨"a", "A", some 1, .unknown, none, none, none, []⟩,
         ⟨"b", "B", some 1, .unknown, none, none, none, []⟩]⟩
      [⟨"a", "x", some 1, .unknown⟩] "NULL" none =
      .ok ⟨[⟨"a", "x", some 1, .unknown⟩, ⟨"b", "NULL", some 1, .unknown⟩],
        [("a", "x"), ("b", "NULL")], 2, none⟩ := by
  constructor
  · intro schema values s pricing res h
    simp only [buildResult, bind, Except.bind] at h
    cases hbe : buildEntries (foldByKey values) s schema.fields with
    | error u => rw [hbe] at h; simp at h
    | ok entries =>
      rw [hbe] at h
      dsimp only at h
      obtain rfl := Except.ok.inj h
      have hkeys := buildEntries_keys (foldByKey_keys values) hbe
      refine ⟨(buildEntries_ok hbe).1, rfl, rfl, hkeys, ?_, ?_⟩
      · intro i f hf
        obtain ⟨e, hge, hbe2⟩ := (buildEntries_ok hbe).2 i f hf
        refine ⟨e, hge, buildEntry_key (foldByKey_keys values) hbe2, ?_⟩
        intro hcase
        simp only [buildEntry, lookupStr_foldByKey] at hbe2
        rcases hcase with hnone | ⟨fv, hfv, hblank⟩
        · rw [hnone] at hbe2
          dsimp only at hbe2
          obtain rfl := Except.ok.inj hbe2
          rfl
        · rw [hfv] at hbe2
          dsimp only at hbe2
          rw [if_pos hblank] at hbe2
          obtain rfl := Except.ok.inj hbe2
          rfl
      · intro hnodup e he
        have : (entries.map (·.key)).Nodup := by rw [hkeys]; exact hnodup
        exact flatFold_lookup_nodup entries [] this e he
  · rfl

/-- Witness for C8: the universal part applied to the concrete scenario. -/
theorem C8_result_assembly_witness :
    (⟨[⟨"a", "x", some 1, .unknown⟩, ⟨"b", "NULL", some 1, .unknown⟩],
        [("a", "x"), ("b", "NULL")], 2, none⟩ : ExtractionResult).fields.length =
      2 ∧
    (∃ e, ([⟨"a", "x", some 1, .unknown⟩,
        ⟨"b", "NULL", some 1, .unknown⟩] : List FieldValue).get? 1 = some e ∧
      e.key = "b" ∧
      ((reconcileForKey "b" [⟨"a", "x", some 1, .unknown⟩] = none ∨
        (∃ fv, reconcileForKey "b" [⟨"a", "x", some 1, .unknown⟩] = some fv ∧
          pyStrip fv.value = "")) →
        e.value = "NULL")) := by
  have h := (C8_result_assembly.1
    ⟨"id", "n", "fp", 1, none,
      [⟨"a", "A", some 1, .unknown, none, none, none, []⟩,
       ⟨"b", "B", some 1, .unknown, none, none, none, []⟩]⟩
    [⟨"a", "x", some 1, .unknown⟩] "NULL" none
    ⟨[⟨"a", "x", some 1, .unknown⟩, ⟨"b", "NULL", some 1, .unknown⟩],
      [("a", "x"), ("b", "NULL")], 2, none⟩ C8_result_assembly.2)
  refine ⟨h.1, ?_⟩
  have h5 := h.2.2.2.2.1 1 ⟨"b", "B", some 1, .unknown, none, none, none, []⟩ rfl
  exact h5

/-! ## Claim C1 — page-scoped fallback extraction -/

/-- C1 counterexample: in the fixture run the page-scoped call answers the
routed key `a` with the null sentinel (high confidence), the collector
issues the fallback for exactly `["a"]`, and the fallback returns the
non-null value `"x"` — yet the final assembled result carries `"NULL"`, not
`"x"`, because the appended fallback value loses the confidence
reconciliation against the first-seen sentinel placeholder. -/
theorem C1_counterexample :
    (collectSchemaValues cexInput).2.2 = some ["a"] ∧
    (cexBackend.extract [cexPage1, cexPage2] ["a"] none).1 =
      [⟨"a", "x", some 1, .low⟩] ∧
    pyStrip "x" ≠ "" ∧
    (collectSchemaValues cexInput).1 =
      [⟨"a", "NULL", some 1, .high⟩, ⟨"a", "x", some 1, .low⟩] ∧
    buildResult cexSchema (collectSchemaValues cexInput).1
        cexBackend.nullSentinel none =
      .ok ⟨[⟨"a", "NULL", some 1, .high⟩], [("a", "NULL")], 1, none⟩ ∧
    ("NULL" : String) ≠ "x" :=
  ⟨rfl, rfl, by decide, rfl, rfl, by decide⟩

theorem reconcileBlankFold :
    ∀ (l : List FieldValue), (∀ v ∈ l, pyStrip v.value = "") →
      ∀ acc : Option FieldValue,
        (acc = none ∨ ∃ u, acc = some u ∧ pyStrip u.value = "") →
        (l.foldl (fun a v => some (selectBetterValue a v)) acc = none ∨
         ∃ u, l.foldl (fun a v => some (selectBetterValue a v)) acc = some u ∧
           pyStrip u.value = "") := by
  intro l
  induction l with
  | nil => intro _ acc hacc; exact hacc
  | cons v vs ih =>
    intro hall acc hacc
    rw [List.foldl_cons]
    refine ih (fun u hu => hall u (by simp [hu])) _ (Or.inr ?_)
    rcases hacc with rfl | ⟨u, rfl, hu⟩
    · exact ⟨v, rfl, hall v (by simp)⟩
    · rcases selectBetterValue_mem u v with he | he
      · exact ⟨u, by rw [he], hu⟩
      · exact ⟨v, by rw [he], hall v (by simp)⟩

/-- C1 amended: in page-scoped mode the collector issues the single fallback
schema-wide chunked extraction exactly when some page-routed key lacks a
usable value, requesting exactly those keys; its values are appended to the
collected list (not overwriting), so the fallback answer appears in the
final result only when it wins the confidence reconciliation — in
particular whenever every earlier value for the key is blank after
trimming; an earlier non-blank sentinel placeholder of equal or higher
confidence is retained instead. -/
theorem C1_fallback_amended :
    (∀ input : CollectInput,
      buildRoutedKeysByPage input.schemaSpec input.schemaPageMap ≠ [] →
      input.usePageGroups = true →
      (missingPagedKeys ((preFallback input).1.1 ++ (preFallback input).2.1)
          (buildRoutedKeysByPage input.schemaSpec input.schemaPageMap)
          input.backend = [] →
        collectSchemaValues input =
          ((preFallback input).1.1 ++ (preFallback input).2.1,
           (preFallback input).1.2 ++ (preFallback input).2.2, none)) ∧
      (missingPagedKeys ((preFallback input).1.1 ++ (preFallback input).2.1)
          (buildRoutedKeysByPage input.schemaSpec input.schemaPageMap)
          input.backend ≠ [] →
        (collectSchemaValues input).2.2 =
          some (missingPagedKeys
            ((preFallback input).1.1 ++ (preFallback input).2.1)
            (buildRoutedKeysByPage input.schemaSpec input.schemaPageMap)
            input.backend) ∧
        (collectSchemaValues input).1 =
          ((preFallback input).1.1 ++ (preFallback input).2.1) ++
            (extractValuesForKeys input.backend input.pages
              (missingPagedKeys
                ((preFallback input).1.1 ++ (preFallback input).2.1)
                (buildRoutedKeysByPage input.schemaSpec input.schemaPageMap)
                input.backend)
              input.chunkPages input.extraInstructions).1) ∧
      (∀ k, k ∈ missingPagedKeys
            ((preFallback input).1.1 ++ (preFallback input).2.1)
            (buildRoutedKeysByPage input.schemaSpec input.schemaPageMap)
            input.backend ↔
          k ∈ ((buildRoutedKeysByPage input.schemaSpec
              input.schemaPageMap).map (·.2)).flatten ∧
          ¬ ∃ v ∈ (preFallback input).1.1 ++ (preFallback input).2.1,
            v.key = k ∧ usableValue input.backend.nullSentinel v = true)) ∧
    (∀ (pre : List FieldValue) (w : FieldValue) (k : String),
      w.key = k → pyStrip w.value ≠ "" →
      (∀ v ∈ pre, v.key = k → pyStrip v.value = "") →
      reconcileForKey k (pre ++ [w]) = some w) ∧
    (∀ schema values s pricing res i f w nv,
      buildResult schema values s pricing = .ok res →
      schema.fields.get? i = some f →
      reconcileForKey f.key values = some w →
      pyStrip w.value ≠ "" →
      normalizeTypedValue w.value f s = .ok nv →
      res.fields.get? i = some { w with value := nv }) := by
  refine ⟨?_, ?_, ?_⟩
  · intro input hkbp hupg
    have hcond : ¬ (buildRoutedKeysByPage input.schemaSpec input.schemaPageMap
        = [] ∨ input.usePageGroups = false) := by
      rintro (h | h)
      · exact hkbp h
      · rw [hupg] at h; cases h
    refine ⟨?_, ?_, fun k => mem_missingPagedKeys⟩
    · intro hm
      simp only [collectSchemaValues, if_neg hcond, if_pos hm]
    · intro hm
      constructor <;> simp only [collectSchemaValues, if_neg hcond, if_neg hm]
  · intro pre w k hk hw hpre
    unfold reconcileForKey
    rw [List.filter_append]
    have hfw : [w].filter (fun v => v.key = k) = [w] := by simp [hk]
    rw [hfw, List.foldl_append, List.foldl_cons, List.foldl_nil]
    have hblank := reconcileBlankFold (pre.filter (fun v => v.key = k))
      (fun v hv => hpre v (List.mem_filter.mp hv).1
        (by simpa using (List.mem_filter.mp hv).2))
      none (Or.inl rfl)
    rcases hblank with hnone | ⟨u, hu, hublank⟩
    · rw [hnone]
      rfl
    · rw [hu]
      simp only [selectBetterValue]
      rw [if_pos ⟨hublank, hw⟩]
  · intro schema values s pricing res i f w nv h hf hrec hw hn
    simp only [buildResult, bind, Except.bind] at h
    cases hbe : buildEntries (foldByKey values) s schema.fields with
    | error u => rw [hbe] at h; simp at h
    | ok entries =>
      rw [hbe] at h
      dsimp only at h
      obtain rfl := Except.ok.inj h
      obtain ⟨e, hge, hbe2⟩ := (buildEntries_ok hbe).2 i f hf
      simp only [buildEntry, lookupStr_foldByKey, hrec] at hbe2
      rw [if_neg (by simpa using hw), hn] at hbe2
      simp only [Except.map, Except.ok.injEq] at hbe2
      rw [hge, ← hbe2]

/-- Witness for C1 amended: in the fixture run the fallback is issued for
exactly `["a"]`; a blank placeholder loses to the fallback value; the
reconciled winner is what the assembler emits. -/
theorem C1_fallback_amended_witness :
    (collectSchemaValues cexInput).2.2 =
      some (missingPagedKeys
        ((preFallback cexInput).1.1 ++ (preFallback cexInput).2.1)
        (buildRoutedKeysByPage cexInput.schemaSpec cexInput.schemaPageMap)
        cexInput.backend) ∧
    reconcileForKey "a"
        ([⟨"a", "", some 1, .high⟩] ++ [⟨"a", "v", some 2, .low⟩]) =
      some ⟨"a", "v", some 2, .low⟩ ∧
    (buildResult cexSchema [⟨"a", "v", some 2, .low⟩] "NULL" none =
        .ok ⟨[⟨"a", "v", some 2, .low⟩], [("a", "v")], 1, none⟩ →
      ([⟨"a", "v", some 2, .low⟩] : List FieldValue).get? 0 =
        some ⟨"a", "v", some 2, .low⟩) := by
  refine ⟨((C1_fallback_amended.1 cexInput (by decide) rfl).2.1 (by decide)).1,
    C1_fallback_amended.2.1 [⟨"a", "", some 1, .high⟩] ⟨"a", "v", some 2, .low⟩
      "a" rfl (by decide) (by decide), ?_⟩
  intro hb
  exact C1_fallback_amended.2.2 cexSchema [⟨"a", "v", some 2, .low⟩] "NULL" none
    ⟨[⟨"a", "v", some 2, .low⟩], [("a", "v")], 1, none⟩ 0
    ⟨"a", "A", some 1, .unknown, none, none, none, []⟩
    ⟨"a", "v", some 2, .low⟩ "v" hb rfl (by decide) (by decide) rfl

/-! ## Character and digit lemmas -/

theorem toNat_ofNat_valid (n : Nat) (h : n < 55296) : (Char.ofNat n).toNat = n := by
  have hv : n.isValidChar := Or.inl h
  rw [Char.ofNat, dif_pos hv]
  rfl

theorem pyLowerChar_toNat_of_upper {c : Char} (h : 65 ≤ c.toNat ∧ c.toNat ≤ 90) :
    (pyLowerChar c).toNat = c.toNat + 32 := by
  rw [pyLowerChar, if_pos h]
  exact toNat_ofNat_valid _ (by omega)

theorem pyLowerChar_idem (c : Char) :
    pyLowerChar (pyLowerChar c) = pyLowerChar c := by
  by_cases h : 65 ≤ c.toNat ∧ c.toNat ≤ 90
  · have ht := pyLowerChar_toNat_of_upper h
    conv_lhs => rw [pyLowerChar]
    rw [if_neg (by rw [ht]; omega)]
  · have hc : pyLowerChar c = c := by rw [pyLowerChar, if_neg h]
    rw [hc, hc]

theorem isDigitChar_toNat {c : Char} (h : isDigitChar c = true) :
    48 ≤ c.toNat ∧ c.toNat ≤ 57 := by
  simp only [isDigitChar, Bool.and_eq_true, decide_eq_true_eq] at h
  exact ⟨h.1, h.2⟩

theorem isDigitChar_of_toNat {c : Char} (h : 48 ≤ c.toNat ∧ c.toNat ≤ 57) :
    isDigitChar c = true := by
  simp only [isDigitChar, Bool.and_eq_true, decide_eq_true_eq]
  exact ⟨h.1, h.2⟩

theorem char_ne_of_toNat_ne {c d : Char} (h : c.toNat ≠ d.toNat) : c ≠ d :=
  fun he => h (he ▸ rfl)

theorem pyIsSpace_eq_false_of_toNat {c : Char} (h : 33 ≤ c.toNat) :
    pyIsSpace c = false := by
  simp only [pyIsSpace, Bool.or_eq_false_iff, decide_eq_false_iff_not]
  refine ⟨⟨⟨⟨⟨?_, ?_⟩, ?_⟩, ?_⟩, ?_⟩, ?_⟩ <;>
    (intro he; subst he; exact absurd h (by decide))

theorem digit_not_space {c : Char} (h : isDigitChar c = true) :
    pyIsSpace c = false := by
  obtain ⟨h1, h2⟩ := isDigitChar_toNat h
  exact pyIsSpace_eq_false_of_toNat (by omega)

theorem pyLowerChar_eq_self_of_digit {c : Char} (h : isDigitChar c = true) :
    pyLowerChar c = c := by
  obtain ⟨h1, h2⟩ := isDigitChar_toNat h
  rw [pyLowerChar, if_neg (by omega)]

theorem pyLowerChar_isSpace (c : Char) :
    pyIsSpace (pyLowerChar c) = pyIsSpace c := by
  by_cases h : 65 ≤ c.toNat ∧ c.toNat ≤ 90
  · have ht := pyLowerChar_toNat_of_upper h
    rw [pyIsSpace_eq_false_of_toNat (by rw [ht]; omega),
      pyIsSpace_eq_false_of_toNat (by omega)]
  · rw [pyLowerChar, if_neg h]

/-! ### Fuel-driven digits -/

theorem natDigitsRevAux_zero : ∀ fuel, natDigitsRevAux fuel 0 = [] := by
  intro fuel
  cases fuel <;> rfl

theorem natDigitsRevAux_fuel_irrel :
    ∀ (fuel fuel' n : Nat), n ≤ fuel → n ≤ fuel' →
      natDigitsRevAux fuel n = natDigitsRevAux fuel' n := by
  intro fuel
  induction fuel with
  | zero =>
    intro fuel' n h _
    obtain rfl : n = 0 := by omega
    rw [natDigitsRevAux_zero, natDigitsRevAux_zero]
  | succ f ih =>
    intro fuel' n h h'
    cases n with
    | zero => rw [natDigitsRevAux_zero, natDigitsRevAux_zero]
    | succ m =>
      cases fuel' with
      | zero => omega
      | succ f2 =>
        show (m + 1) % 10 :: natDigitsRevAux f ((m + 1) / 10) =
          (m + 1) % 10 :: natDigitsRevAux f2 ((m + 1) / 10)
        have hd : (m + 1) / 10 ≤ f := by
          have := Nat.div_lt_self (Nat.succ_pos m) (by omega : 1 < 10)
          omega
        have hd2 : (m + 1) / 10 ≤ f2 := by
          have := Nat.div_lt_self (Nat.succ_pos m) (by omega : 1 < 10)
          omega
        rw [ih f2 ((m + 1) / 10) hd hd2]

theorem natDigitsRev_succ {n : Nat} (hn : n ≠ 0) :
    natDigitsRev n = n % 10 :: natDigitsRev (n / 10) := by
  cases n with
  | zero => exact absurd rfl hn
  | succ m =>
    show natDigitsRevAux (m + 1) (m + 1) = _
    have : natDigitsRevAux (m + 1) (m + 1) =
        (m + 1) % 10 :: natDigitsRevAux m ((m + 1) / 10) := rfl
    rw [this, natDigitsRev, natDigitsRevAux_fuel_irrel m ((m + 1) / 10) ((m + 1) / 10)
      (by have := Nat.div_lt_self (Nat.succ_pos m) (by omega : 1 < 10); omega)
      (le_refl _)]

theorem natDigitsRev_zero : natDigitsRev 0 = [] := rfl

theorem natFromRev_natDigitsRev (n : Nat) : natFromRev (natDigitsRev n) = n := by
  induction n using Nat.strong_induction_on with
  | _ n ih =>
    cases hn : n with
    | zero => rw [natDigitsRev_zero]; rfl
    | succ m =>
      rw [← hn, natDigitsRev_succ (by omega)]
      show n % 10 + 10 * natFromRev (natDigitsRev (n / 10)) = n
      rw [ih (n / 10) (Nat.div_lt_self (by omega) (by omega))]
      omega

theorem natDigitsRev_all_lt (n : Nat) : ∀ d ∈ natDigitsRev n, d < 10 := by
  induction n using Nat.strong_induction_on with
  | _ n ih =>
    cases hn : n with
    | zero => rw [natDigitsRev_zero]; simp
    | succ m =>
      rw [← hn, natDigitsRev_succ (by omega)]
      intro d hd
      rcases List.mem_cons.mp hd with rfl | hd'
      · exact Nat.mod_lt _ (by omega)
      · exact ih (n / 10) (Nat.div_lt_self (by omega) (by omega)) d hd'

theorem natDigitsRev_eq_nil_iff {n : Nat} : natDigitsRev n = [] ↔ n = 0 := by
  constructor
  · intro h
    by_contra hn
    rw [natDigitsRev_succ hn] at h
    cases h
  · rintro rfl
    rfl

theorem numDigits_le_iff : ∀ (k n : Nat), numDigits n ≤ k ↔ n < 10 ^ k := by
  intro k
  induction k with
  | zero =>
    intro n
    simp only [numDigits, Nat.le_zero, List.length_eq_zero, pow_zero,
      Nat.lt_one_iff]
    exact natDigitsRev_eq_nil_iff
  | succ j ih =>
    intro n
    by_cases hn : n = 0
    · subst hn
      simp [numDigits, natDigitsRev_zero, Nat.pos_pow_of_pos]
    · rw [numDigits, natDigitsRev_succ hn]
      simp only [List.length_cons, Nat.succ_le_succ_iff]
      have hih := ih (n / 10)
      rw [numDigits] at hih
      rw [hih, Nat.div_lt_iff_lt_mul (by omega : 0 < 10), pow_succ]

theorem numDigits_mono {a b : Nat} (h : a ≤ b) : numDigits a ≤ numDigits b := by
  rw [numDigits_le_iff]
  have := (numDigits_le_iff (numDigits b) b).mp (le_refl _)
  omega

theorem digitsToNat_go (a : Nat) (l : List Char) :
    l.foldl (fun a c => 10 * a + charDigit c) a =
      a * 10 ^ l.length + digitsToNat l := by
  induction l generalizing a with
  | nil => simp [digitsToNat]
  | cons c t ih =>
    rw [List.foldl_cons, ih (10 * a + charDigit c)]
    have hct : digitsToNat (c :: t) = charDigit c * 10 ^ t.length + digitsToNat t := by
      show (c :: t).foldl _ 0 = _
      rw [List.foldl_cons, ih (10 * 0 + charDigit c)]
      ring
    rw [hct]
    simp only [List.length_cons, pow_succ]
    ring

theorem digitsToNat_append (x y : List Char) :
    digitsToNat (x ++ y) = digitsToNat x * 10 ^ y.length + digitsToNat y := by
  show (x ++ y).foldl _ 0 = _
  rw [List.foldl_append]
  exact digitsToNat_go (digitsToNat x) y

theorem charDigit_digitChar {d : Nat} (hd : d < 10) :
    charDigit (Nat.digitChar d) = d := by
  interval_cases d <;> decide

theorem isDigitChar_digitChar {d : Nat} (hd : d < 10) :
    isDigitChar (Nat.digitChar d) = true := by
  interval_cases d <;> decide

theorem digitChar_ne_zero_iff {d : Nat} (hd : d < 10) :
    Nat.digitChar d ≠ '0' ↔ d ≠ 0 := by
  interval_cases d <;> simp <;> decide

theorem revMap_digitsToNat (ds : List Nat) (h : ∀ d ∈ ds, d < 10) :
    digitsToNat (ds.reverse.map Nat.digitChar) = natFromRev ds := by
  induction ds with
  | nil => rfl
  | cons d t ih =>
    rw [List.reverse_cons, List.map_append, digitsToNat_append]
    have h1 : digitsToNat ([d].map Nat.digitChar) = d := by
      show 10 * 0 + charDigit (Nat.digitChar d) = d
      rw [charDigit_digitChar (h d (by simp))]
      omega
    rw [h1, ih (fun x hx => h x (by simp [hx]))]
    show natFromRev t * 10 ^ 1 + d = d + 10 * natFromRev t
    ring

theorem digitsToNat_natDigitChars (n : Nat) : digitsToNat (natDigitChars n) = n := by
  cases n with
  | zero => rfl
  | succ m =>
    show digitsToNat ((natDigitsRev (m + 1)).reverse.map Nat.digitChar) = m + 1
    rw [revMap_digitsToNat _ (natDigitsRev_all_lt _), natFromRev_natDigitsRev]

theorem natDigitChars_all_digit (n : Nat) :
    ∀ c ∈ natDigitChars n, isDigitChar c = true := by
  cases n with
  | zero =>
    intro c hc
    simp only [natDigitChars, List.mem_singleton] at hc
    subst hc
    decide
  | succ m =>
    intro c hc
    have hc' : c ∈ (natDigitsRev (m + 1)).reverse.map Nat.digitChar := hc
    obtain ⟨d, hd, rfl⟩ := List.mem_map.mp hc'
    exact isDigitChar_digitChar
      (natDigitsRev_all_lt _ d (List.mem_reverse.mp hd))

theorem natDigitChars_ne_nil (n : Nat) : natDigitChars n ≠ [] := by
  cases n with
  | zero => simp [natDigitChars]
  | succ m =>
    show (natDigitsRev (m + 1)).reverse.map Nat.digitChar ≠ []
    simp only [ne_eq, List.map_eq_nil_iff, List.reverse_eq_nil_iff]
    rw [natDigitsRev_eq_nil_iff]
    omega

theorem natDigitChars_length {n : Nat} (hn : n ≠ 0) :
    (natDigitChars n).length = numDigits n := by
  cases n with
  | zero => exact absurd rfl hn
  | succ m =>
    show ((natDigitsRev (m + 1)).reverse.map Nat.digitChar).length = _
    rw [List.length_map, List.length_reverse]
    rfl

theorem natDigitChars_getLast {n : Nat} (hn : n ≠ 0) :
    (natDigitChars n).getLast? = some (Nat.digitChar (n % 10)) := by
  cases n with
  | zero => exact absurd rfl hn
  | succ m =>
    show ((natDigitsRev (m + 1)).reverse.map Nat.digitChar).getLast? = _
    rw [natDigitsRev_succ (by omega), List.reverse_cons, List.map_append]
    exact List.getLast?_concat _

theorem numDigits_mul_ten {m : Nat} (hm : m ≠ 0) :
    numDigits (m * 10) = numDigits m + 1 := by
  rw [numDigits, natDigitsRev_succ (by positivity), Nat.mul_div_cancel m (by omega)]
  simp [numDigits]

theorem numDigits_mul_pow {m : Nat} (hm : m ≠ 0) (e : Nat) :
    numDigits (m * 10 ^ e) = numDigits m + e := by
  induction e with
  | zero => simp
  | succ j ih =>
    have : m * 10 ^ (j + 1) = m * 10 ^ j * 10 := by ring
    rw [this, numDigits_mul_ten (by positivity), ih]
    omega

theorem numDigits_pos {n : Nat} (hn : n ≠ 0) : 1 ≤ numDigits n := by
  rw [numDigits, natDigitsRev_succ hn]
  simp

/-! ### takeWhile / dropWhile / strip helpers -/

theorem takeWhile_append_of_all {p : Char → Bool} :
    ∀ {xs ys : List Char}, (∀ x ∈ xs, p x = true) →
      (xs ++ ys).takeWhile p = xs ++ ys.takeWhile p := by
  intro xs
  induction xs with
  | nil => intro ys _; rfl
  | cons x t ih =>
    intro ys h
    rw [List.cons_append, List.takeWhile_cons, if_pos (h x (by simp)),
      List.cons_append, ih (fun y hy => h y (by simp [hy]))]

theorem takeWhile_nil_of_head {p : Char → Bool} {y : Char} {ys : List Char}
    (h : p y = false) : (y :: ys).takeWhile p = [] := by
  rw [List.takeWhile_cons, if_neg (by rw [h]; exact Bool.false_ne_true)]

theorem takeWhile_eq_self_of_all {p : Char → Bool} {l : List Char}
    (h : ∀ x ∈ l, p x = true) : l.takeWhile p = l := by
  have h2 : (l ++ []).takeWhile p = l ++ List.takeWhile p [] :=
    takeWhile_append_of_all h
  simpa using h2

theorem dropWhile_eq_self_head {p : Char → Bool} {l : List Char}
    (h : ∀ x, l.head? = some x → p x = false) : l.dropWhile p = l := by
  cases l with
  | nil => rfl
  | cons x t =>
    rw [List.dropWhile_cons, if_neg (by rw [h x rfl]; exact Bool.false_ne_true)]

theorem pyStripList_eq_self_of_ends {l : List Char}
    (hh : ∀ x, l.head? = some x → pyIsSpace x = false)
    (hl : ∀ x, l.getLast? = some x → pyIsSpace x = false) :
    pyStripList l = l := by
  rw [pyStripList, dropWhile_eq_self_head hh, dropWhile_eq_self_head
    (by intro x hx; exact hl x (by rwa [List.head?_reverse] at hx)),
    List.reverse_reverse]

theorem mem_of_getLast?_eq {α : Type} {l : List α} {x : α}
    (hx : l.getLast? = some x) : x ∈ l := by
  obtain ⟨hne, rfl⟩ := List.mem_getLast?_eq_getLast (by rw [hx]; rfl)
  exact List.getLast_mem hne

theorem pyStripList_eq_self_of_all {l : List Char}
    (h : ∀ c ∈ l, pyIsSpace c = false) : pyStripList l = l :=
  pyStripList_eq_self_of_ends
    (fun x hx => h x (by cases l with
      | nil => cases hx
      | cons y t => obtain rfl := Option.some.inj hx; simp))
    (fun x hx => h x (mem_of_getLast?_eq hx))

theorem stripTrailing_eq_self {c : Char} {l : List Char}
    (h : ∀ x, l.getLast? = some x → x ≠ c) : stripTrailing c l = l := by
  rw [stripTrailing, dropWhile_eq_self_head ?_, List.reverse_reverse]
  intro x hx
  rw [List.head?_reverse] at hx
  simp only [decide_eq_false_iff_not]
  exact h x hx

theorem filter_eq_self_of_all {p : Char → Bool} {l : List Char}
    (h : ∀ c ∈ l, p c = true) : l.filter p = l :=
  List.filter_eq_self.mpr h

theorem map_eq_self_of_all {f : Char → Char} {l : List Char}
    (h : ∀ c ∈ l, f c = c) : l.map f = l := by
  induction l with
  | nil => rfl
  | cons x t ih =>
    rw [List.map_cons, h x (by simp), ih (fun c hc => h c (by simp [hc]))]

/-! ### Parsing the fixed-point rendering back -/

theorem digit_ne_char {c x : Char} (h : isDigitChar c = true)
    (hx : isDigitChar x = false) : c ≠ x :=
  fun he => by rw [he, hx] at h; cases h

theorem digitsToNat_replicate_zero (m : Nat) :
    digitsToNat (List.replicate m '0') = 0 := by
  induction m with
  | zero => rfl
  | succ j ih =>
    rw [List.replicate_succ]
    show (List.replicate j '0').foldl _ (10 * 0 + charDigit '0') = 0
    have : 10 * 0 + charDigit '0' = 0 := by decide
    rw [this]
    exact ih

theorem padZeros_length {k : Nat} {l : List Char} (h : l.length ≤ k) :
    (padZeros k l).length = k := by
  rw [padZeros, List.length_append, List.length_replicate]
  omega

theorem padZeros_all_digit {k : Nat} {l : List Char}
    (h : ∀ c ∈ l, isDigitChar c = true) :
    ∀ c ∈ padZeros k l, isDigitChar c = true := by
  intro c hc
  rcases List.mem_append.mp hc with h1 | h2
  · rw [List.eq_of_mem_replicate h1]
    decide
  · exact h c h2

theorem digitsToNat_padZeros (k : Nat) (l : List Char) :
    digitsToNat (padZeros k l) = digitsToNat l := by
  rw [padZeros, digitsToNat_append, digitsToNat_replicate_zero]
  omega

theorem natDigitChars_length_le {n k : Nat} (hn : n < 10 ^ k) (hk : 1 ≤ k) :
    (natDigitChars n).length ≤ k := by
  by_cases h0 : n = 0
  · subst h0
    simpa [natDigitChars] using hk
  · rw [natDigitChars_length h0]
    exact (numDigits_le_iff k n).mpr hn

theorem readSign_digit_head {l : List Char} {y : Char} (hy : l.head? = some y)
    (hd : isDigitChar y = true) : readSign l = (false, l) := by
  cases l with
  | nil => cases hy
  | cons c r =>
    obtain rfl := Option.some.inj hy
    rw [readSign, if_neg (digit_ne_char hd (by decide)),
      if_neg (digit_ne_char hd (by decide))]

theorem parseUnsigned_digits {l : List Char} (hne : l ≠ [])
    (hall : ∀ x ∈ l, isDigitChar x = true) :
    parseUnsigned l = some (digitsToNat l, 0) := by
  simp only [parseUnsigned, takeWhile_eq_self_of_all hall, List.drop_length]
  rw [if_neg hne]
  rfl

theorem parseUnsigned_dot {ipart frac : List Char} (hip : ipart ≠ [])
    (hipd : ∀ x ∈ ipart, isDigitChar x = true)
    (hfd : ∀ x ∈ frac, isDigitChar x = true) :
    parseUnsigned (ipart ++ '.' :: frac) =
      some (digitsToNat (ipart ++ frac), -(frac.length : Int)) := by
  have htw : (ipart ++ '.' :: frac).takeWhile isDigitChar = ipart := by
    rw [takeWhile_append_of_all hipd, takeWhile_nil_of_head (by decide),
      List.append_nil]
  simp only [parseUnsigned, htw, List.drop_left,
    takeWhile_eq_self_of_all hfd, List.drop_length, if_true]
  rw [if_neg (by rintro ⟨h1, _⟩; exact hip h1)]
  rfl

theorem parsePyDecimal_signed_body (neg : Bool) (body : List Char)
    (hhead : ∃ y, body.head? = some y ∧ isDigitChar y = true)
    (hall : ∀ x ∈ body, isDigitChar x = true ∨ x = '.') :
    parsePyDecimal ⟨(if neg then ['-'] else []) ++ body⟩ =
      (parseUnsigned body).map (fun ce => .num ⟨neg, ce.1, ce.2⟩) := by
  obtain ⟨y, hy, hyd⟩ := hhead
  have hgood : ∀ x ∈ (if neg then ['-'] else []) ++ body,
      isDigitChar x = true ∨ x = '.' ∨ x = '-' := by
    intro x hx
    rcases List.mem_append.mp hx with h1 | h2
    · right; right
      cases neg with
      | true => simpa using h1
      | false => simp at h1
    · rcases hall x h2 with h | h
      · exact Or.inl h
      · exact Or.inr (Or.inl h)
  have hstrip : pyStripList ((if neg then ['-'] else []) ++ body) =
      (if neg then ['-'] else []) ++ body := by
    refine pyStripList_eq_self_of_all ?_
    intro x hx
    rcases hgood x hx with h | h | h
    · exact digit_not_space h
    · rw [h]; decide
    · rw [h]; decide
  have hfilter : ((if neg then ['-'] else []) ++ body).filter (· ≠ '_') =
      (if neg then ['-'] else []) ++ body := by
    refine filter_eq_self_of_all ?_
    intro x hx
    simp only [ne_eq, decide_eq_true_eq]
    rcases hgood x hx with h | h | h
    · exact digit_ne_char h (by decide)
    · rw [h]; decide
    · rw [h]; decide
  have hsign : readSign ((if neg then ['-'] else []) ++ body) = (neg, body) := by
    cases neg with
    | true =>
      show readSign ('-' :: body) = (true, body)
      rw [readSign, if_neg (by decide), if_pos rfl]
    | false =>
      show readSign body = (false, body)
      exact readSign_digit_head hy hyd
  have hlowhead : (body.map pyLowerChar).head? = some y := by
    rw [List.head?_map, hy, Option.map_some']
    rw [pyLowerChar_eq_self_of_digit hyd]
  show parsePyDecimal ⟨(if neg then ['-'] else []) ++ body⟩ = _
  simp only [parsePyDecimal]
  rw [show (⟨(if neg then ['-'] else []) ++ body⟩ : String).toList =
    (if neg then ['-'] else []) ++ body from rfl]
  rw [hstrip, hfilter, hsign]
  have hinf : ¬ (body.map pyLowerChar = ['i', 'n', 'f'] ∨
      body.map pyLowerChar = ['i', 'n', 'f', 'i', 'n', 'i', 't', 'y']) := by
    rintro (h | h) <;>
      (rw [h] at hlowhead
       obtain rfl := Option.some.inj hlowhead
       exact absurd hyd (by decide))
  have hnan : ¬ ((body.map pyLowerChar).take 3 = ['n', 'a', 'n'] ∧
      ((body.map pyLowerChar).drop 3).all isDigitChar) := by
    rintro ⟨h, _⟩
    cases hb : body.map pyLowerChar with
    | nil => rw [hb] at hlowhead; cases hlowhead
    | cons z rest =>
      rw [hb] at hlowhead h
      obtain rfl := Option.some.inj hlowhead
      simp only [List.take_succ_cons, List.cons.injEq] at h
      rw [h.1] at hyd
      exact absurd hyd (by decide)
  have hsnan : ¬ ((body.map pyLowerChar).take 4 = ['s', 'n', 'a', 'n'] ∧
      ((body.map pyLowerChar).drop 4).all isDigitChar) := by
    rintro ⟨h, _⟩
    cases hb : body.map pyLowerChar with
    | nil => rw [hb] at hlowhead; cases hlowhead
    | cons z rest =>
      rw [hb] at hlowhead h
      obtain rfl := Option.some.inj hlowhead
      simp only [List.take_succ_cons, List.cons.injEq] at h
      rw [h.1] at hyd
      exact absurd hyd (by decide)
  rw [if_neg hinf, if_neg hnan, if_neg hsnan]

theorem head_digit_natDigitChars (n : Nat) :
    ∃ y, (natDigitChars n).head? = some y ∧ isDigitChar y = true := by
  cases hd : natDigitChars n with
  | nil => exact absurd hd (natDigitChars_ne_nil n)
  | cons x t =>
    refine ⟨x, rfl, ?_⟩
    have := natDigitChars_all_digit n x (by rw [hd]; simp)
    exact this

theorem parse_render_int (neg : Bool) (C : Nat) :
    parsePyDecimal ⟨(if neg then ['-'] else []) ++ natDigitChars C⟩ =
      some (.num ⟨neg, C, 0⟩) := by
  rw [parsePyDecimal_signed_body neg _ (head_digit_natDigitChars C)
    (fun x hx => Or.inl (natDigitChars_all_digit C x hx))]
  rw [parseUnsigned_digits (natDigitChars_ne_nil C) (natDigitChars_all_digit C)]
  rw [digitsToNat_natDigitChars]
  rfl

theorem parse_render_dot (neg : Bool) (c : Nat) (k : Nat) (hk : 1 ≤ k) :
    parsePyDecimal ⟨(if neg then ['-'] else []) ++
        (natDigitChars (c / 10 ^ k) ++
          '.' :: padZeros k (natDigitChars (c % 10 ^ k)))⟩ =
      some (.num ⟨neg, c, -(k : Int)⟩) := by
  have hfd : ∀ x ∈ padZeros k (natDigitChars (c % 10 ^ k)),
      isDigitChar x = true := padZeros_all_digit (natDigitChars_all_digit _)
  have hhead : ∃ y, (natDigitChars (c / 10 ^ k) ++
      '.' :: padZeros k (natDigitChars (c % 10 ^ k))).head? = some y ∧
      isDigitChar y = true := by
    obtain ⟨y, hy, hyd⟩ := head_digit_natDigitChars (c / 10 ^ k)
    refine ⟨y, ?_, hyd⟩
    cases hd : natDigitChars (c / 10 ^ k) with
    | nil => exact absurd hd (natDigitChars_ne_nil _)
    | cons x t =>
      rw [hd] at hy
      obtain rfl := Option.some.inj hy
      rfl
  have hall : ∀ x ∈ natDigitChars (c / 10 ^ k) ++
      '.' :: padZeros k (natDigitChars (c % 10 ^ k)),
      isDigitChar x = true ∨ x = '.' := by
    intro x hx
    rcases List.mem_append.mp hx with h1 | h2
    · exact Or.inl (natDigitChars_all_digit _ x h1)
    · rcases List.mem_cons.mp h2 with rfl | h3
      · exact Or.inr rfl
      · exact Or.inl (hfd x h3)
  rw [parsePyDecimal_signed_body neg _ hhead hall]
  rw [parseUnsigned_dot (natDigitChars_ne_nil _) (natDigitChars_all_digit _) hfd]
  have hlen : (padZeros k (natDigitChars (c % 10 ^ k))).length = k :=
    padZeros_length (natDigitChars_length_le (Nat.mod_lt _ (by positivity)) hk)
  have hval : digitsToNat (natDigitChars (c / 10 ^ k) ++
      padZeros k (natDigitChars (c % 10 ^ k))) = c := by
    rw [digitsToNat_append, hlen, digitsToNat_padZeros,
      digitsToNat_natDigitChars, digitsToNat_natDigitChars]
    exact Nat.div_add_mod' c (10 ^ k)
  rw [hval, hlen]
  rfl

/-- Parsing the fixed-point rendering of a finite decimal recovers its sign
and an equivalent coefficient/exponent pair. -/
theorem parse_render_num (neg : Bool) (c : Nat) (e : Int) :
    parsePyDecimal ⟨formatFixed (.num ⟨neg, c, e⟩)⟩ =
      some (.num ⟨neg, if 0 ≤ e then c * 10 ^ e.toNat else c,
                  if 0 ≤ e then 0 else e⟩) := by
  by_cases he : 0 ≤ e
  · have hf : formatFixed (.num ⟨neg, c, e⟩) =
        (if neg then ['-'] else []) ++ natDigitChars (c * 10 ^ e.toNat) := by
      simp only [formatFixed, if_pos he]
    rw [hf, parse_render_int]
    simp [he]
  · have hk : 1 ≤ (-e).toNat := by omega
    have hf : formatFixed (.num ⟨neg, c, e⟩) =
        (if neg then ['-'] else []) ++
          (natDigitChars (c / 10 ^ (-e).toNat) ++
            '.' :: padZeros (-e).toNat (natDigitChars (c % 10 ^ (-e).toNat))) := by
      simp only [formatFixed, if_neg he]
    rw [hf, parse_render_dot neg c (-e).toNat hk]
    have : -(((-e).toNat : Nat) : Int) = e := by omega
    rw [this]
    simp [he]

/-! ### Zero stripping and `reduce` -/

theorem stripZeros_zero (e : Int) : stripZeros 0 e = (0, e) := rfl

theorem stripZerosAux_spec : ∀ (fuel c : Nat) (e : Int) (c' m : Nat),
    c ≤ fuel → c = c' * 10 ^ m → ¬ 10 ∣ c' → c' ≠ 0 →
    stripZerosAux fuel c e = (c', e + m) := by
  intro fuel
  induction fuel with
  | zero =>
    intro c e c' m hle hcm h10 hc'
    have : c ≠ 0 := by rw [hcm]; positivity
    omega
  | succ f ih =>
    intro c e c' m hle hcm h10 hc'
    have hc : c ≠ 0 := by rw [hcm]; positivity
    simp only [stripZerosAux, if_neg hc]
    cases m with
    | zero =>
      rw [pow_zero, Nat.mul_one] at hcm
      subst hcm
      have hmod : ¬ c % 10 = 0 := fun h => h10 (Nat.dvd_of_mod_eq_zero h)
      rw [if_neg hmod]
      simp
    | succ j =>
      have h10c : 10 ∣ c := ⟨c' * 10 ^ j, by rw [hcm]; ring⟩
      have hdvd : c % 10 = 0 := by omega
      have hdiv : c / 10 = c' * 10 ^ j := by
        rw [hcm, pow_succ, ← mul_assoc, Nat.mul_div_cancel _ (by norm_num)]
      have hle' : c / 10 ≤ f := by
        have := Nat.div_lt_self (Nat.pos_of_ne_zero hc) (by norm_num : 1 < 10)
        omega
      have harith : e + ((j + 1 : Nat) : Int) = (e + 1) + j := by push_cast; ring
      rw [if_pos hdvd, hdiv, harith]
      exact ih (c' * 10 ^ j) (e + 1) c' j (hdiv ▸ hle') rfl h10 hc'

theorem stripZeros_spec {c c' m : Nat} (e : Int) (hcm : c = c' * 10 ^ m)
    (h10 : ¬ 10 ∣ c') (hc' : c' ≠ 0) : stripZeros c e = (c', e + m) :=
  stripZerosAux_spec c c e c' m le_rfl hcm h10 hc'

theorem stripZeros_of_not_dvd {c : Nat} (e : Int) (h10 : ¬ 10 ∣ c)
    (hc : c ≠ 0) : stripZeros c e = (c, e) := by
  have h := stripZeros_spec (m := 0) e (by ring : c = c * 10 ^ 0) h10 hc
  simpa using h

theorem exists_strip_decomp : ∀ c : Nat, c ≠ 0 →
    ∃ c' m : Nat, ¬ 10 ∣ c' ∧ c' ≠ 0 ∧ c = c' * 10 ^ m := by
  intro c
  induction c using Nat.strong_induction_on with
  | _ c ih =>
    intro hc
    by_cases h10 : 10 ∣ c
    · obtain ⟨d, hd⟩ := h10
      have hd0 : d ≠ 0 := by rintro rfl; omega
      have hdlt : d < c := by omega
      obtain ⟨c', m, h1, h2, h3⟩ := ih d hdlt hd0
      exact ⟨c', m + 1, h1, h2, by rw [hd, h3]; ring⟩
    · exact ⟨c, 0, h10, hc, by ring⟩

theorem roundHalfEvenAt_fst_le (c : Nat) (e : Int) (k : Nat) :
    (roundHalfEvenAt c e k).1 ≤ c / 10 ^ k + 1 := by
  simp only [roundHalfEvenAt]
  split_ifs <;> omega

theorem roundHalfEvenAt_snd (c : Nat) (e : Int) (k : Nat) :
    (roundHalfEvenAt c e k).2 = e + k := rfl

theorem roundHalfEvenAt_exact {c : Nat} {k : Nat} (e : Int)
    (hmod : c % 10 ^ k = 0) :
    roundHalfEvenAt c e k = (c / 10 ^ k, e + k) := by
  have hhalf : 0 < 5 * 10 ^ (k - 1) := by positivity
  simp only [roundHalfEvenAt]
  rw [if_neg (by omega), if_pos (by omega)]

theorem decReduceNum_via {neg : Bool} {c : Nat} {e : Int}
    {c1 c2 c3 : Nat} {e1 e2 e3 : Int}
    (h1 : (if numDigits c ≤ decPrec then (c, e)
           else roundHalfEvenAt c e (numDigits c - decPrec)) = (c1, e1))
    (h2 : (if c1 ≠ 0 ∧ e1 < decEtiny
           then roundHalfEvenAt c1 e1 (decEtiny - e1).toNat else (c1, e1)) = (c2, e2))
    (h3 : stripZeros c2 e2 = (c3, e3)) :
    decReduceNum neg c e =
      if c3 ≠ 0 ∧ decEmax < e3 + numDigits c3 - 1 then .error ()
      else .ok ⟨neg, c3, e3⟩ := by
  simp only [decReduceNum, h1, h2, h3]

theorem decReduceNum_ok_spec {neg : Bool} {c : Nat} {e : Int} {d : DecNum}
    (h : decReduceNum neg c e = .ok d) :
    d.neg = neg ∧
    (d.coeff = 0 ∨
      (¬ 10 ∣ d.coeff ∧ numDigits d.coeff ≤ decPrec ∧ decEtiny ≤ d.exp ∧
        d.exp + numDigits d.coeff - 1 ≤ decEmax)) := by
  obtain ⟨⟨c1, e1⟩, h1⟩ : ∃ p, (if numDigits c ≤ decPrec then (c, e)
      else roundHalfEvenAt c e (numDigits c - decPrec)) = p := ⟨_, rfl⟩
  obtain ⟨⟨c2, e2⟩, h2⟩ : ∃ p, (if c1 ≠ 0 ∧ e1 < decEtiny
      then roundHalfEvenAt c1 e1 (decEtiny - e1).toNat else (c1, e1)) = p := ⟨_, rfl⟩
  obtain ⟨⟨c3, e3⟩, h3⟩ : ∃ p, stripZeros c2 e2 = p := ⟨_, rfl⟩
  rw [decReduceNum_via h1 h2 h3] at h
  have hc1 : c1 ≤ 10 ^ decPrec := by
    rcases Decidable.em (numDigits c ≤ decPrec) with hp | hp
    · rw [if_pos hp] at h1
      obtain ⟨rfl, rfl⟩ := Prod.mk.injEq .. ▸ h1
      exact le_of_lt ((numDigits_le_iff decPrec c).mp hp)
    · rw [if_neg hp] at h1
      have hklt : c < 10 ^ numDigits c :=
        (numDigits_le_iff (numDigits c) c).mp le_rfl
      have hq : c / 10 ^ (numDigits c - decPrec) < 10 ^ decPrec := by
        rw [Nat.div_lt_iff_lt_mul (by positivity), ← pow_add]
        have heq : decPrec + (numDigits c - decPrec) = numDigits c := by omega
        rw [heq]
        exact hklt
      have hle := roundHalfEvenAt_fst_le c e (numDigits c - decPrec)
      rw [h1] at hle
      simp only at hle
      omega
  have hc2 : c2 ≤ 10 ^ decPrec ∧ (c2 ≠ 0 → decEtiny ≤ e2) := by
    rcases Decidable.em (c1 ≠ 0 ∧ e1 < decEtiny) with hp | hp
    · rw [if_pos hp] at h2
      constructor
      · have hk1 : 1 ≤ (decEtiny - e1).toNat := by omega
        have ha : c1 / 10 ^ (decEtiny - e1).toNat ≤ c1 / 10 ^ 1 :=
          Nat.div_le_div_left (Nat.pow_le_pow_right (by norm_num) hk1)
            (by positivity)
        have hb : c1 / 10 ^ 1 ≤ 10 ^ decPrec / 10 ^ 1 :=
          Nat.div_le_div_right hc1
        have hval : (10 : Nat) ^ decPrec / 10 ^ 1 + 1 ≤ 10 ^ decPrec := by
          norm_num [decPrec]
        have hle := roundHalfEvenAt_fst_le c1 e1 (decEtiny - e1).toNat
        rw [h2] at hle
        simp only at hle
        omega
      · intro _
        have hsnd := roundHalfEvenAt_snd c1 e1 (decEtiny - e1).toNat
        rw [h2] at hsnd
        simp only at hsnd
        omega
    · rw [if_neg hp] at h2
      obtain ⟨rfl, rfl⟩ := Prod.mk.injEq .. ▸ h2
      push_neg at hp
      exact ⟨hc1, fun hne => hp hne⟩
  by_cases h0 : c2 = 0
  · subst h0
    rw [stripZeros_zero] at h3
    obtain ⟨rfl, rfl⟩ := Prod.mk.injEq .. ▸ h3.symm
    rw [if_neg (by simp)] at h
    obtain rfl := Except.ok.inj h
    exact ⟨rfl, Or.inl rfl⟩
  · obtain ⟨c', m, h10, hc', hcm⟩ := exists_strip_decomp c2 h0
    rw [stripZeros_spec e2 hcm h10 hc'] at h3
    obtain ⟨rfl, rfl⟩ := Prod.mk.injEq .. ▸ h3.symm
    have hlt : c3 < 10 ^ decPrec := by
      have hle : c3 ≤ 10 ^ decPrec :=
        calc c3 ≤ c3 * 10 ^ m := Nat.le_mul_of_pos_right c3 (by positivity)
          _ = c2 := hcm.symm
          _ ≤ 10 ^ decPrec := hc2.1
      rcases Nat.lt_or_ge c3 (10 ^ decPrec) with hlt | hge
      · exact hlt
      · exfalso
        have hceq : c3 = 10 ^ decPrec := by omega
        exact h10 (hceq ▸ ⟨10 ^ (decPrec - 1), by norm_num [decPrec]⟩)
    rcases Decidable.em (c3 ≠ 0 ∧ decEmax < e2 + (m : Int) + (numDigits c3 : Int) - 1)
      with hov | hov
    · rw [if_pos hov] at h
      cases h
    · rw [if_neg hov] at h
      obtain rfl := Except.ok.inj h
      refine ⟨rfl, Or.inr ⟨h10, (numDigits_le_iff decPrec c3).mpr hlt, ?_, ?_⟩⟩
      · show decEtiny ≤ e2 + (m : Int)
        have := hc2.2 h0
        omega
      · show e2 + (m : Int) + (numDigits c3 : Int) - 1 ≤ decEmax
        rcases not_and_or.mp hov with h' | h'
        · exact absurd (not_not.mp h') hc'
        · omega

theorem decReduceNum_reduced {c : Nat} {e : Int} (neg : Bool)
    (h10 : ¬ 10 ∣ c) (hc : c ≠ 0) (hdig : numDigits c ≤ decPrec)
    (he : decEtiny ≤ e) (hov : e + numDigits c - 1 ≤ decEmax) :
    decReduceNum neg c e = .ok ⟨neg, c, e⟩ := by
  rw [decReduceNum_via (if_pos hdig)
    (if_neg (fun hx => absurd hx.2 (not_lt.mpr he)))
    (stripZeros_of_not_dvd e h10 hc)]
  rw [if_neg (by omega)]

theorem decReduceNum_scaled {c : Nat} (neg : Bool) (m : Nat)
    (h10 : ¬ 10 ∣ c) (hc : c ≠ 0) (hdig : numDigits c ≤ decPrec)
    (hov : (m : Int) + numDigits c - 1 ≤ decEmax) :
    decReduceNum neg (c * 10 ^ m) 0 = .ok ⟨neg, c, m⟩ := by
  have hnd : numDigits (c * 10 ^ m) = numDigits c + m := numDigits_mul_pow hc m
  by_cases hp : numDigits (c * 10 ^ m) ≤ decPrec
  · rw [decReduceNum_via (if_pos hp)
      (if_neg (fun hx => absurd hx.2 (by decide)))
      ((stripZeros_spec (m := m) 0 rfl h10 hc).trans
        (show ((c, (0 : Int) + (m : Int))) = (c, (m : Int)) from by simp))]
    rw [if_neg (by omega)]
  · have hkm : numDigits (c * 10 ^ m) - decPrec ≤ m := by omega
    set k := numDigits (c * 10 ^ m) - decPrec with hk
    obtain ⟨j, hj⟩ : ∃ j, m = j + k := ⟨m - k, by omega⟩
    have hmod : c * 10 ^ m % 10 ^ k = 0 := by
      obtain ⟨t, ht⟩ : (10 : Nat) ^ k ∣ c * 10 ^ m :=
        dvd_mul_of_dvd_right (pow_dvd_pow 10 hkm) c
      rw [ht, Nat.mul_mod_right]
    have hdivq : c * 10 ^ m / 10 ^ k = c * 10 ^ j := by
      rw [hj, pow_add, ← mul_assoc, Nat.mul_div_cancel _ (by positivity)]
    rw [decReduceNum_via
      ((if_neg hp).trans ((roundHalfEvenAt_exact 0 hmod).trans
        (by rw [hdivq]; simp)))
      (if_neg (fun hx => absurd hx.2 (by simp only [decEtiny, decEmin, decPrec]; omega)))
      (stripZeros_spec (m := j) (k : Int) rfl h10 hc)]
    rw [if_neg (by omega)]
    simp only [Except.ok.injEq, DecNum.mk.injEq]
    exact ⟨trivial, trivial, by omega⟩

/-! ### Rendered-string structure -/

theorem getLast?_append_of_ne_nil {α : Type} (l₁ : List α) {l₂ : List α}
    (h : l₂ ≠ []) : (l₁ ++ l₂).getLast? = l₂.getLast? := by
  induction l₁ with
  | nil => rfl
  | cons x t ih =>
    rw [List.cons_append, List.getLast?_cons, ih]
    cases l₂ with
    | nil => exact absurd rfl h
    | cons y u =>
      rw [List.getLast?_cons]
      cases hu : (u.getLast?) with
      | none =>
        have := List.getLast?_eq_none_iff.mp hu
        subst this
        rfl
      | some z => rfl

theorem getLast?_cons_of_ne_nil {α : Type} (a : α) {l : List α} (h : l ≠ []) :
    (a :: l).getLast? = l.getLast? := by
  have h2 := getLast?_append_of_ne_nil [a] h
  simpa using h2

theorem dropWhile_replicate_append (c : Char) (k : Nat) (x : List Char) :
    List.dropWhile (· = c) (List.replicate k c ++ x) =
      List.dropWhile (· = c) x := by
  induction k with
  | zero => rfl
  | succ j ih =>
    rw [List.replicate_succ, List.cons_append, List.dropWhile_cons,
      if_pos (by simp)]
    exact ih

theorem stripTrailing_append_replicate (c : Char) (l : List Char) (k : Nat) :
    stripTrailing c (l ++ List.replicate k c) = stripTrailing c l := by
  rw [stripTrailing, stripTrailing, List.reverse_append, List.reverse_replicate,
    dropWhile_replicate_append]

theorem compactAmount_eq_self {l : List Char}
    (h : ∀ x ∈ l, x ≠ ' ' ∧ x ≠ ',') : compactAmount ⟨l⟩ = ⟨l⟩ := by
  show (⟨((⟨l⟩ : String).toList.filter (· ≠ ' ')).map
    (fun c => if c = ',' then '.' else c)⟩ : String) = ⟨l⟩
  rw [show (⟨l⟩ : String).toList = l from rfl]
  rw [filter_eq_self_of_all (fun c hc => by
    simp only [ne_eq, decide_eq_true_eq]; exact (h c hc).1)]
  rw [map_eq_self_of_all (fun c hc => if_neg (h c hc).2)]

theorem dot_not_mem_natDigitChars (n : Nat) : '.' ∉ natDigitChars n :=
  fun h => absurd (natDigitChars_all_digit n '.' h) (by decide)

theorem dot_not_mem_sign_digits (neg : Bool) (n : Nat) :
    '.' ∉ (if neg then ['-'] else []) ++ natDigitChars n := by
  intro h
  rcases List.mem_append.mp h with h1 | h2
  · cases neg <;> simp at h1
  · exact dot_not_mem_natDigitChars n h2

theorem formatFixed_num_pos_exp (neg : Bool) (c : Nat) {e : Int} (he : 0 ≤ e) :
    formatFixed (.num ⟨neg, c, e⟩) =
      (if neg then ['-'] else []) ++ natDigitChars (c * 10 ^ e.toNat) := by
  simp only [formatFixed, if_pos he]

theorem formatFixed_num_neg_exp (neg : Bool) (c : Nat) {e : Int} (he : ¬ 0 ≤ e) :
    formatFixed (.num ⟨neg, c, e⟩) =
      (if neg then ['-'] else []) ++
        (natDigitChars (c / 10 ^ (-e).toNat) ++
          '.' :: padZeros (-e).toNat (natDigitChars (c % 10 ^ (-e).toNat))) := by
  simp only [formatFixed, if_neg he]

theorem mem_sign {x : Char} {neg : Bool}
    (h : x ∈ (if neg then ['-'] else [])) : x = '-' := by
  cases neg
  · simp at h
  · simp at h
    exact h

theorem dot_mem_formatFixed_neg_exp (neg : Bool) (c : Nat) {e : Int}
    (he : ¬ 0 ≤ e) : '.' ∈ formatFixed (.num ⟨neg, c, e⟩) := by
  rw [formatFixed_num_neg_exp neg c he]
  simp

theorem formatFixed_zero_pos_exp (neg : Bool) {e : Int} (he : 0 ≤ e) :
    formatFixed (.num ⟨neg, 0, e⟩) = (if neg then ['-'] else []) ++ ['0'] := by
  rw [formatFixed_num_pos_exp neg 0 he, Nat.zero_mul]
  rfl

theorem strip_render_zero (neg : Bool) {e : Int} (he : ¬ 0 ≤ e) :
    stripTrailing '.' (stripTrailing '0' (formatFixed (.num ⟨neg, 0, e⟩))) =
      (if neg then ['-'] else []) ++ ['0'] := by
  have hk1 : 1 ≤ (-e).toNat := by omega
  rw [formatFixed_num_neg_exp neg 0 he, Nat.zero_div, Nat.zero_mod]
  rw [show natDigitChars 0 = ['0'] from rfl]
  rw [show padZeros (-e).toNat ['0'] =
    List.replicate ((-e).toNat - 1) '0' ++ ['0'] from rfl]
  rw [show List.replicate ((-e).toNat - 1) '0' ++ ['0'] =
      List.replicate (-e).toNat '0' from by
    rw [← List.replicate_succ']
    congr 1
    omega]
  rw [show (if neg then ['-'] else []) ++ (['0'] ++ '.' :: List.replicate (-e).toNat '0') =
      ((if neg then ['-'] else []) ++ ['0', '.']) ++ List.replicate (-e).toNat '0' from by
    simp]
  rw [stripTrailing_append_replicate]
  rw [show stripTrailing '0' ((if neg then ['-'] else []) ++ ['0', '.']) =
      (if neg then ['-'] else []) ++ ['0', '.'] from
    stripTrailing_eq_self (fun x hx => by
      rw [getLast?_append_of_ne_nil _ (by simp)] at hx
      obtain rfl := Option.some.inj hx
      decide)]
  rw [show (if neg then ['-'] else []) ++ ['0', '.'] =
      ((if neg then ['-'] else []) ++ ['0']) ++ List.replicate 1 '.' from by simp]
  rw [stripTrailing_append_replicate]
  exact stripTrailing_eq_self (fun x hx => by
    rw [getLast?_append_of_ne_nil _ (by simp)] at hx
    obtain rfl := Option.some.inj hx
    decide)

theorem formatFixed_nonzero_getLast {c3 : Nat} (neg : Bool) {e3 : Int}
    (h10 : ¬ 10 ∣ c3) (he : ¬ 0 ≤ e3) :
    (formatFixed (.num ⟨neg, c3, e3⟩)).getLast? =
      some (Nat.digitChar (c3 % 10)) := by
  have hk1 : 1 ≤ (-e3).toNat := by omega
  have hfr : c3 % 10 ^ (-e3).toNat ≠ 0 := by
    intro h0
    exact h10 (dvd_trans (dvd_pow_self 10 (by omega))
      (Nat.dvd_of_mod_eq_zero h0))
  rw [formatFixed_num_neg_exp neg c3 he]
  rw [getLast?_append_of_ne_nil _ (by simp)]
  rw [getLast?_append_of_ne_nil _ (by simp)]
  rw [getLast?_cons_of_ne_nil _ (by simp [padZeros, natDigitChars_ne_nil])]
  rw [padZeros, getLast?_append_of_ne_nil _ (natDigitChars_ne_nil _)]
  rw [natDigitChars_getLast hfr]
  rw [Nat.mod_mod_of_dvd c3 (dvd_pow_self 10 (by omega))]

theorem strip_render_nonzero_neg_exp {c3 : Nat} (neg : Bool) {e3 : Int}
    (h10 : ¬ 10 ∣ c3) (he : ¬ 0 ≤ e3) :
    stripTrailing '.' (stripTrailing '0' (formatFixed (.num ⟨neg, c3, e3⟩))) =
      formatFixed (.num ⟨neg, c3, e3⟩) := by
  have hlast := formatFixed_nonzero_getLast neg h10 he
  have hlt : c3 % 10 < 10 := Nat.mod_lt _ (by norm_num)
  have hne0 : Nat.digitChar (c3 % 10) ≠ '0' :=
    (digitChar_ne_zero_iff hlt).mpr
      (fun h0 => h10 (Nat.dvd_of_mod_eq_zero h0))
  have hnedot : Nat.digitChar (c3 % 10) ≠ '.' :=
    digit_ne_char (isDigitChar_digitChar hlt) (by decide)
  rw [show stripTrailing '0' (formatFixed (.num ⟨neg, c3, e3⟩)) =
      formatFixed (.num ⟨neg, c3, e3⟩) from
    stripTrailing_eq_self (fun x hx => by
      rw [hlast] at hx
      obtain rfl := Option.some.inj hx
      exact hne0)]
  exact stripTrailing_eq_self (fun x hx => by
    rw [hlast] at hx
    obtain rfl := Option.some.inj hx
    exact hnedot)

theorem formatFixed_num_chars (neg : Bool) (c : Nat) (e : Int) :
    ∀ x ∈ formatFixed (.num ⟨neg, c, e⟩),
      isDigitChar x = true ∨ x = '.' ∨ x = '-' := by
  intro x hx
  by_cases he : 0 ≤ e
  · rw [formatFixed_num_pos_exp neg c he] at hx
    rcases List.mem_append.mp hx with h1 | h2
    · exact Or.inr (Or.inr (mem_sign h1))
    · exact Or.inl (natDigitChars_all_digit _ x h2)
  · rw [formatFixed_num_neg_exp neg c he] at hx
    rcases List.mem_append.mp hx with h1 | h2
    · exact Or.inr (Or.inr (mem_sign h1))
    · rcases List.mem_append.mp h2 with h3 | h4
      · exact Or.inl (natDigitChars_all_digit _ x h3)
      · rcases List.mem_cons.mp h4 with rfl | h5
        · exact Or.inr (Or.inl rfl)
        · exact Or.inl (padZeros_all_digit (natDigitChars_all_digit _) x h5)

theorem mem_stripTrailing_subset {c : Char} {l : List Char} :
    ∀ x ∈ stripTrailing c l, x ∈ l := by
  intro x hx
  rw [stripTrailing, List.mem_reverse] at hx
  exact List.mem_reverse.mp ((List.dropWhile_sublist _).subset hx)

theorem decReduceNum_zero (neg : Bool) : decReduceNum neg 0 0 = .ok ⟨neg, 0, 0⟩ :=
  rfl

theorem normalizeDecimal_of_parse_none {v : String}
    (hp : parsePyDecimal (compactAmount v) = none) :
    normalizeDecimal v = .ok v := by
  simp only [normalizeDecimal, hp]

theorem normalizeDecimal_of_parse {v : String} {d p : PyDecimal}
    (hp : parsePyDecimal (compactAmount v) = some d)
    (hr : decReduce d = .ok p) :
    normalizeDecimal v =
      if '.' ∈ formatFixed p then
        .ok ⟨stripTrailing '.' (stripTrailing '0' (formatFixed p))⟩
      else .ok ⟨formatFixed p⟩ := by
  simp only [normalizeDecimal, hp, hr]
  rfl

theorem normalizeDecimal_of_parse_err {v : String} {d : PyDecimal}
    (hp : parsePyDecimal (compactAmount v) = some d)
    (hr : decReduce d = .error ()) :
    normalizeDecimal v = .error () := by
  simp only [normalizeDecimal, hp, hr]
  rfl

theorem parse_render_inf (neg : Bool) :
    parsePyDecimal ⟨formatFixed (.inf neg)⟩ = some (.inf neg) := by
  cases neg <;> decide

theorem dot_not_mem_inf (neg : Bool) : '.' ∉ formatFixed (.inf neg) := by
  cases neg <;> decide

theorem formatFixed_qnan (neg : Bool) (payload : Nat) :
    formatFixed (.nan false neg payload) =
      (if neg then ['-'] else []) ++ ['N', 'a', 'N'] ++
        (if payload = 0 then [] else natDigitChars payload) := rfl

theorem dot_not_mem_qnan (neg : Bool) (payload : Nat) :
    '.' ∉ formatFixed (.nan false neg payload) := by
  rw [formatFixed_qnan]
  intro h
  rcases List.mem_append.mp h with h1 | h2
  · rcases List.mem_append.mp h1 with h3 | h4
    · exact absurd (mem_sign h3) (by decide)
    · simp at h4
  · by_cases hpl : payload = 0
    · rw [if_pos hpl] at h2
      simp at h2
    · rw [if_neg hpl] at h2
      exact dot_not_mem_natDigitChars _ h2

theorem parsePyDecimal_signed_qnan (neg : Bool) (ds : List Char)
    (hds : ∀ x ∈ ds, isDigitChar x = true) :
    parsePyDecimal ⟨(if neg then ['-'] else []) ++ (['N', 'a', 'N'] ++ ds)⟩ =
      some (.nan false neg (digitsToNat ds)) := by
  have hgood : ∀ x ∈ (if neg then ['-'] else []) ++ (['N', 'a', 'N'] ++ ds),
      pyIsSpace x = false ∧ x ≠ '_' := by
    intro x hx
    rcases List.mem_append.mp hx with h1 | h2
    · rw [mem_sign h1]
      exact ⟨by decide, by decide⟩
    · rcases List.mem_append.mp h2 with h3 | h4
      · rcases List.mem_cons.mp h3 with rfl | h5
        · exact ⟨by decide, by decide⟩
        · rcases List.mem_cons.mp h5 with rfl | h6
          · exact ⟨by decide, by decide⟩
          · rcases List.mem_cons.mp h6 with rfl | h7
            · exact ⟨by decide, by decide⟩
            · simp at h7
      · exact ⟨digit_not_space (hds x h4), digit_ne_char (hds x h4) (by decide)⟩
  have hstrip : pyStripList ((if neg then ['-'] else []) ++ (['N', 'a', 'N'] ++ ds)) =
      (if neg then ['-'] else []) ++ (['N', 'a', 'N'] ++ ds) :=
    pyStripList_eq_self_of_all (fun c hc => (hgood c hc).1)
  have hfilter : (((if neg then ['-'] else []) ++ (['N', 'a', 'N'] ++ ds)).filter
      (· ≠ '_')) = (if neg then ['-'] else []) ++ (['N', 'a', 'N'] ++ ds) :=
    filter_eq_self_of_all (fun c hc => by
      simp only [ne_eq, decide_eq_true_eq]
      exact (hgood c hc).2)
  have hsign : readSign ((if neg then ['-'] else []) ++ (['N', 'a', 'N'] ++ ds)) =
      (neg, ['N', 'a', 'N'] ++ ds) := by
    cases neg with
    | true =>
      show readSign ('-' :: (['N', 'a', 'N'] ++ ds)) = _
      rw [readSign, if_neg (by decide), if_pos rfl]
    | false =>
      show readSign ('N' :: ('a' :: 'N' :: ds)) = _
      rw [readSign, if_neg (by decide), if_neg (by decide)]
      rfl
  have hlow : (['N', 'a', 'N'] ++ ds).map pyLowerChar = 'n' :: 'a' :: 'n' :: ds := by
    rw [List.map_append,
      show (['N', 'a', 'N'] : List Char).map pyLowerChar = ['n', 'a', 'n'] from by decide,
      map_eq_self_of_all (fun c hc => pyLowerChar_eq_self_of_digit (hds c hc))]
    rfl
  show parsePyDecimal ⟨(if neg then ['-'] else []) ++ (['N', 'a', 'N'] ++ ds)⟩ = _
  simp only [parsePyDecimal]
  rw [show (⟨(if neg then ['-'] else []) ++ (['N', 'a', 'N'] ++ ds)⟩ : String).toList =
    (if neg then ['-'] else []) ++ (['N', 'a', 'N'] ++ ds) from rfl]
  rw [hstrip, hfilter, hsign, hlow]
  rw [if_neg (by rintro (h | h) <;> simp at h)]
  rw [if_pos (by
    refine ⟨by simp, ?_⟩
    rw [show List.drop 3 ('n' :: 'a' :: 'n' :: ds) = ds from rfl]
    exact List.all_eq_true.mpr hds)]
  rw [show List.drop 3 (['N', 'a', 'N'] ++ ds) = ds from rfl]

theorem parse_render_qnan (neg : Bool) (payload : Nat) :
    parsePyDecimal ⟨formatFixed (.nan false neg payload)⟩ =
      some (.nan false neg payload) := by
  rw [formatFixed_qnan, List.append_assoc]
  by_cases hpl : payload = 0
  · rw [if_pos hpl, parsePyDecimal_signed_qnan neg [] (by simp), hpl]
    rfl
  · rw [if_neg hpl,
      parsePyDecimal_signed_qnan neg _ (natDigitChars_all_digit payload),
      digitsToNat_natDigitChars]

theorem qnan_chars (neg : Bool) (payload : Nat) :
    ∀ x ∈ formatFixed (.nan false neg payload), x ≠ ' ' ∧ x ≠ ',' := by
  rw [formatFixed_qnan]
  intro x hx
  rcases List.mem_append.mp hx with h1 | h2
  · rcases List.mem_append.mp h1 with h3 | h4
    · rw [mem_sign h3]
      exact ⟨by decide, by decide⟩
    · rcases List.mem_cons.mp h4 with rfl | h5
      · exact ⟨by decide, by decide⟩
      · rcases List.mem_cons.mp h5 with rfl | h6
        · exact ⟨by decide, by decide⟩
        · rcases List.mem_cons.mp h6 with rfl | h7
          · exact ⟨by decide, by decide⟩
          · simp at h7
  · by_cases hpl : payload = 0
    · rw [if_pos hpl] at h2
      simp at h2
    · rw [if_neg hpl] at h2
      have hd := natDigitChars_all_digit payload x h2
      exact ⟨digit_ne_char hd (by decide), digit_ne_char hd (by decide)⟩

theorem normalizeDecimal_zero_string (neg : Bool) :
    normalizeDecimal ⟨(if neg then ['-'] else []) ++ ['0']⟩ =
      .ok ⟨(if neg then ['-'] else []) ++ ['0']⟩ := by
  have hca : compactAmount ⟨(if neg then ['-'] else []) ++ ['0']⟩ =
      ⟨(if neg then ['-'] else []) ++ ['0']⟩ :=
    compactAmount_eq_self (fun x hx => by
      rcases List.mem_append.mp hx with h1 | h2
      · rw [mem_sign h1]
        exact ⟨by decide, by decide⟩
      · rw [List.mem_singleton.mp h2]
        exact ⟨by decide, by decide⟩)
  have hparse : parsePyDecimal ⟨(if neg then ['-'] else []) ++ ['0']⟩ =
      some (.num ⟨neg, 0, 0⟩) := parse_render_int neg 0
  have hred : decReduce (.num ⟨neg, 0, 0⟩) = .ok (.num ⟨neg, 0, 0⟩) := rfl
  rw [normalizeDecimal_of_parse (by rw [hca]; exact hparse) hred]
  rw [if_neg (show '.' ∉ formatFixed (.num ⟨neg, 0, 0⟩) from by
    rw [formatFixed_zero_pos_exp neg le_rfl]
    exact dot_not_mem_sign_digits neg 0)]
  rw [formatFixed_zero_pos_exp neg le_rfl]

theorem num_chars_space_comma (neg : Bool) (c : Nat) (e : Int) :
    ∀ x ∈ formatFixed (.num ⟨neg, c, e⟩), x ≠ ' ' ∧ x ≠ ',' := by
  intro x hx
  rcases formatFixed_num_chars neg c e x hx with hd | rfl | rfl
  · exact ⟨digit_ne_char hd (by decide), digit_ne_char hd (by decide)⟩
  · exact ⟨by decide, by decide⟩
  · exact ⟨by decide, by decide⟩

theorem normalizeDecimal_ok_props {v r : String}
    (h : normalizeDecimal v = .ok r) :
    normalizeDecimal r = .ok r ∧
      ((parsePyDecimal (compactAmount v)).isSome = true → minimalFixedForm r) := by
  rcases hp : parsePyDecimal (compactAmount v) with _ | d
  · rw [normalizeDecimal_of_parse_none hp] at h
    obtain rfl := Except.ok.inj h
    refine ⟨normalizeDecimal_of_parse_none hp, fun hs => ?_⟩
    simp at hs
  · cases d with
    | inf neg =>
      have hred : decReduce (.inf neg) = .ok (.inf neg) := rfl
      rw [normalizeDecimal_of_parse hp hred, if_neg (dot_not_mem_inf neg)] at h
      obtain rfl := Except.ok.inj h
      constructor
      · have hca : compactAmount ⟨formatFixed (.inf neg)⟩ =
            ⟨formatFixed (.inf neg)⟩ := by
          cases neg <;> rfl
        rw [normalizeDecimal_of_parse
          (by rw [hca]; exact parse_render_inf neg) hred,
          if_neg (dot_not_mem_inf neg)]
      · exact fun _ hdot => absurd hdot (dot_not_mem_inf neg)
    | nan s neg payload =>
      cases s with
      | true =>
        rw [normalizeDecimal_of_parse_err hp rfl] at h
        cases h
      | false =>
        have hred : decReduce (.nan false neg payload) =
            .ok (.nan false neg payload) := rfl
        rw [normalizeDecimal_of_parse hp hred,
          if_neg (dot_not_mem_qnan neg payload)] at h
        obtain rfl := Except.ok.inj h
        constructor
        · have hca : compactAmount ⟨formatFixed (.nan false neg payload)⟩ =
              ⟨formatFixed (.nan false neg payload)⟩ :=
            compactAmount_eq_self (qnan_chars neg payload)
          rw [normalizeDecimal_of_parse
            (by rw [hca]; exact parse_render_qnan neg payload) hred,
            if_neg (dot_not_mem_qnan neg payload)]
        · exact fun _ hdot => absurd hdot (dot_not_mem_qnan neg payload)
    | num dn =>
      obtain ⟨neg, c, e⟩ := dn
      rcases hred : decReduceNum neg c e with u | p
      · rw [normalizeDecimal_of_parse_err hp (by
          show (decReduceNum neg c e).map PyDecimal.num = .error ()
          rw [hred]
          rfl)] at h
        cases h
      · have hredP : decReduce (.num ⟨neg, c, e⟩) = .ok (.num p) := by
          show (decReduceNum neg c e).map PyDecimal.num = .ok (.num p)
          rw [hred]
          rfl
        obtain ⟨pneg, pc, pe⟩ := p
        obtain ⟨hneg, hspec⟩ := decReduceNum_ok_spec hred
        have hneg' : neg = pneg := hneg.symm
        subst hneg'
        rw [normalizeDecimal_of_parse hp hredP] at h
        rcases hspec with h0 | ⟨h10s, hdigs, hetys, hovs⟩
        · have h0' : pc = 0 := h0
          subst h0'
          by_cases hpe : 0 ≤ pe
          · rw [if_neg (show '.' ∉ formatFixed (.num ⟨neg, 0, pe⟩) from by
              rw [formatFixed_zero_pos_exp neg hpe]
              exact dot_not_mem_sign_digits neg 0)] at h
            obtain rfl := Except.ok.inj h
            rw [formatFixed_zero_pos_exp neg hpe]
            refine ⟨normalizeDecimal_zero_string neg, fun _ hdot => ?_⟩
            exact absurd hdot (dot_not_mem_sign_digits neg 0)
          · rw [if_pos (dot_mem_formatFixed_neg_exp neg 0 hpe),
              strip_render_zero neg hpe] at h
            obtain rfl := Except.ok.inj h
            refine ⟨normalizeDecimal_zero_string neg, fun _ hdot => ?_⟩
            exact absurd hdot (dot_not_mem_sign_digits neg 0)
        · have h10 : ¬ 10 ∣ pc := h10s
          have hdig : numDigits pc ≤ decPrec := hdigs
          have hety : decEtiny ≤ pe := hetys
          have hov : pe + numDigits pc - 1 ≤ decEmax := hovs
          have hpc0 : pc ≠ 0 := fun h0 => h10 (h0 ▸ dvd_zero 10)
          have hca : compactAmount ⟨formatFixed (.num ⟨neg, pc, pe⟩)⟩ =
              ⟨formatFixed (.num ⟨neg, pc, pe⟩)⟩ :=
            compactAmount_eq_self (num_chars_space_comma neg pc pe)
          by_cases hpe : 0 ≤ pe
          · rw [if_neg (show '.' ∉ formatFixed (.num ⟨neg, pc, pe⟩) from by
              rw [formatFixed_num_pos_exp neg pc hpe]
              exact dot_not_mem_sign_digits neg _)] at h
            obtain rfl := Except.ok.inj h
            constructor
            · have hparse : parsePyDecimal ⟨formatFixed (.num ⟨neg, pc, pe⟩)⟩ =
                  some (.num ⟨neg, pc * 10 ^ pe.toNat, 0⟩) := by
                rw [parse_render_num neg pc pe, if_pos hpe, if_pos hpe]
              have hred2 : decReduce (.num ⟨neg, pc * 10 ^ pe.toNat, 0⟩) =
                  .ok (.num ⟨neg, pc, pe⟩) := by
                show (decReduceNum neg (pc * 10 ^ pe.toNat) 0).map PyDecimal.num = _
                rw [decReduceNum_scaled neg pe.toNat h10 hpc0 hdig (by
                  rw [show ((pe.toNat : Nat) : Int) = pe from Int.toNat_of_nonneg hpe]
                  exact hov)]
                simp [Int.toNat_of_nonneg hpe]
                rfl
              rw [normalizeDecimal_of_parse (by rw [hca]; exact hparse) hred2,
                if_neg (show '.' ∉ formatFixed (.num ⟨neg, pc, pe⟩) from by
                  rw [formatFixed_num_pos_exp neg pc hpe]
                  exact dot_not_mem_sign_digits neg _)]
            · refine fun _ hdot => absurd hdot ?_
              rw [show (⟨formatFixed (.num ⟨neg, pc, pe⟩)⟩ : String).toList =
                formatFixed (.num ⟨neg, pc, pe⟩) from rfl]
              rw [formatFixed_num_pos_exp neg pc hpe]
              exact dot_not_mem_sign_digits neg _
          · rw [if_pos (dot_mem_formatFixed_neg_exp neg pc hpe),
              strip_render_nonzero_neg_exp neg h10 hpe] at h
            obtain rfl := Except.ok.inj h
            constructor
            · have hparse : parsePyDecimal ⟨formatFixed (.num ⟨neg, pc, pe⟩)⟩ =
                  some (.num ⟨neg, pc, pe⟩) := by
                rw [parse_render_num neg pc pe, if_neg hpe, if_neg hpe]
              have hred2 : decReduce (.num ⟨neg, pc, pe⟩) =
                  .ok (.num ⟨neg, pc, pe⟩) := by
                show (decReduceNum neg pc pe).map PyDecimal.num = _
                rw [decReduceNum_reduced neg h10 hpc0 hdig hety hov]
                rfl
              rw [normalizeDecimal_of_parse (by rw [hca]; exact hparse) hred2,
                if_pos (dot_mem_formatFixed_neg_exp neg pc hpe),
                strip_render_nonzero_neg_exp neg h10 hpe]
            · intro _ _
              have hlast := formatFixed_nonzero_getLast neg h10 hpe
              have hlt : pc % 10 < 10 := Nat.mod_lt _ (by norm_num)
              constructor
              · show (formatFixed (.num ⟨neg, pc, pe⟩)).getLast? ≠ some '0'
                rw [hlast]
                intro heq
                exact (digitChar_ne_zero_iff hlt).mpr
                  (fun h0 => h10 (Nat.dvd_of_mod_eq_zero h0))
                  (Option.some.inj heq)
              · show (formatFixed (.num ⟨neg, pc, pe⟩)).getLast? ≠ some '.'
                rw [hlast]
                intro heq
                exact digit_ne_char (isDigitChar_digitChar hlt) (by decide)
                  (Option.some.inj heq)

theorem decValue_scaled (neg : Bool) (c : Nat) {e : Int} (he : 0 ≤ e) :
    decValue ⟨neg, c * 10 ^ e.toNat, 0⟩ = decValue ⟨neg, c, e⟩ := by
  simp only [decValue]
  rw [zpow_zero, mul_one]
  push_cast
  rw [← zpow_natCast (10 : ℚ) e.toNat, Int.toNat_of_nonneg he]
  ring

theorem decReduceNum_value {neg : Bool} {c : Nat} {e : Int} {d : DecNum}
    (hdig : numDigits c ≤ decPrec) (hety : decEtiny ≤ e)
    (h : decReduceNum neg c e = .ok d) :
    decValue d = decValue ⟨neg, c, e⟩ := by
  by_cases hc : c = 0
  · subst hc
    rw [decReduceNum_via (if_pos hdig) (if_neg (fun hx => hx.1 rfl))
      (stripZeros_zero e), if_neg (by simp)] at h
    obtain rfl := Except.ok.inj h
    rfl
  · obtain ⟨c', m, h10, hc', hcm⟩ := exists_strip_decomp c hc
    rw [decReduceNum_via (if_pos hdig)
      (if_neg (fun hx => absurd hx.2 (not_lt.mpr hety)))
      (stripZeros_spec e hcm h10 hc')] at h
    rcases Decidable.em (c' ≠ 0 ∧
        decEmax < e + (m : Int) + (numDigits c' : Int) - 1) with hov | hov
    · rw [if_pos hov] at h
      cases h
    · rw [if_neg hov] at h
      obtain rfl := Except.ok.inj h
      simp only [decValue]
      rw [zpow_add₀ (by norm_num : (10 : ℚ) ≠ 0), zpow_natCast, hcm]
      push_cast
      ring

theorem normalizeDecimal_num_exact {v : String} {dn : DecNum}
    (hp : parsePyDecimal (compactAmount v) = some (.num dn))
    (hdig : numDigits dn.coeff ≤ decPrec) (hety : decEtiny ≤ dn.exp)
    (hov : dn.exp + numDigits dn.coeff - 1 ≤ decEmax) :
    ∃ (r : String) (p : DecNum), normalizeDecimal v = .ok r ∧
      parsePyDecimal r = some (.num p) ∧ decValue p = decValue dn := by
  obtain ⟨dneg, dc, de⟩ := dn
  have hdig' : numDigits dc ≤ decPrec := hdig
  have hety' : decEtiny ≤ de := hety
  have hov' : de + (numDigits dc : Int) - 1 ≤ decEmax := hov
  have hok : ∃ p : DecNum, decReduceNum dneg dc de = .ok p := by
    by_cases hc : dc = 0
    · subst hc
      exact ⟨⟨dneg, 0, de⟩, by
        rw [decReduceNum_via (if_pos hdig') (if_neg (fun hx => hx.1 rfl))
          (stripZeros_zero de), if_neg (by simp)]⟩
    · obtain ⟨c', m, h10, hc', hcm⟩ := exists_strip_decomp dc hc
      have hnd : numDigits dc = numDigits c' + m := by
        rw [hcm]
        exact numDigits_mul_pow hc' m
      refine ⟨⟨dneg, c', de + m⟩, ?_⟩
      rw [decReduceNum_via (if_pos hdig')
        (if_neg (fun hx => absurd hx.2 (not_lt.mpr hety')))
        (stripZeros_spec de hcm h10 hc')]
      rw [if_neg (by
        rintro ⟨h1, h2⟩
        omega)]
  obtain ⟨p, hredOk⟩ := hok
  have hval : decValue p = decValue ⟨dneg, dc, de⟩ :=
    decReduceNum_value hdig' hety' hredOk
  have hredP : decReduce (.num ⟨dneg, dc, de⟩) = .ok (.num p) := by
    show (decReduceNum dneg dc de).map PyDecimal.num = .ok (.num p)
    rw [hredOk]
    rfl
  obtain ⟨pneg, pc, pe⟩ := p
  obtain ⟨hneg, hspec⟩ := decReduceNum_ok_spec hredOk
  have hneg' : dneg = pneg := hneg.symm
  subst hneg'
  rcases hspec with h0 | ⟨h10s, hdigs, hetys, hovs⟩
  · have h0' : pc = 0 := h0
    subst h0'
    by_cases hpe : 0 ≤ pe
    · refine ⟨⟨(if dneg then ['-'] else []) ++ ['0']⟩, ⟨dneg, 0, 0⟩, ?_, ?_, ?_⟩
      · rw [normalizeDecimal_of_parse hp hredP,
          if_neg (show '.' ∉ formatFixed (.num ⟨dneg, 0, pe⟩) from by
            rw [formatFixed_zero_pos_exp dneg hpe]
            exact dot_not_mem_sign_digits dneg 0),
          formatFixed_zero_pos_exp dneg hpe]
      · exact parse_render_int dneg 0
      · rw [← hval]
        simp [decValue]
    · refine ⟨⟨(if dneg then ['-'] else []) ++ ['0']⟩, ⟨dneg, 0, 0⟩, ?_, ?_, ?_⟩
      · rw [normalizeDecimal_of_parse hp hredP,
          if_pos (dot_mem_formatFixed_neg_exp dneg 0 hpe),
          strip_render_zero dneg hpe]
      · exact parse_render_int dneg 0
      · rw [← hval]
        simp [decValue]
  · have h10 : ¬ 10 ∣ pc := h10s
    have hpc0 : pc ≠ 0 := fun h0 => h10 (h0 ▸ dvd_zero 10)
    by_cases hpe : 0 ≤ pe
    · refine ⟨⟨formatFixed (.num ⟨dneg, pc, pe⟩)⟩,
        ⟨dneg, pc * 10 ^ pe.toNat, 0⟩, ?_, ?_, ?_⟩
      · rw [normalizeDecimal_of_parse hp hredP,
          if_neg (show '.' ∉ formatFixed (.num ⟨dneg, pc, pe⟩) from by
            rw [formatFixed_num_pos_exp dneg pc hpe]
            exact dot_not_mem_sign_digits dneg _)]
      · rw [parse_render_num dneg pc pe, if_pos hpe, if_pos hpe]
      · rw [← hval]
        exact decValue_scaled dneg pc hpe
    · refine ⟨⟨formatFixed (.num ⟨dneg, pc, pe⟩)⟩, ⟨dneg, pc, pe⟩, ?_, ?_, ?_⟩
      · rw [normalizeDecimal_of_parse hp hredP,
          if_pos (dot_mem_formatFixed_neg_exp dneg pc hpe),
          strip_render_nonzero_neg_exp dneg h10 hpe]
      · rw [parse_render_num dneg pc pe, if_neg hpe, if_neg hpe]
      · exact hval

/-- C3 counterexample: `_normalize_decimal` is not exception-free — the
amount `"1E+1000000"` parses as an exact decimal whose `normalize()` signals
the trapped `Overflow` (adjusted exponent `1000000 > Emax`), so the trapped
signal escapes `normalize_typed_value` instead of the value being returned. -/
theorem C3_counterexample : normalizeDecimal "1E+1000000" = .error () := rfl

/-- C3 (amended): amount normalization replaces spaces and comma decimal
separators and parses exactly; on parse failure the value is returned
unchanged; `"1 234,50"` yields exactly `"1234.5"` and `"1,50"` exactly
`"1.5"`; every successfully normalized amount is in minimal fixed-point form
with no trailing zeros or trailing point; and for inputs within the default
context's 28-digit precision and exponent range the re-rendered value is
exactly the parsed value (no rounding of any kind).  Unlike the original
claim, an exception is raised when `normalize()` overflows, and inputs
beyond 28 significant digits are rounded half-even to context precision. -/
theorem C3_amount_normalization_amended :
    (∀ v : String, parsePyDecimal (compactAmount v) = none →
      normalizeDecimal v = .ok v) ∧
    normalizeDecimal "1 234,50" = .ok "1234.5" ∧
    normalizeDecimal "1,50" = .ok "1.5" ∧
    (∀ v r : String, normalizeDecimal v = .ok r →
      (parsePyDecimal (compactAmount v)).isSome = true → minimalFixedForm r) ∧
    (∀ (v : String) (d : DecNum),
      parsePyDecimal (compactAmount v) = some (.num d) →
      numDigits d.coeff ≤ decPrec → decEtiny ≤ d.exp →
      d.exp + numDigits d.coeff - 1 ≤ decEmax →
      ∃ (r : String) (p : DecNum), normalizeDecimal v = .ok r ∧
        parsePyDecimal r = some (.num p) ∧ decValue p = decValue d) := by
  refine ⟨fun v hp => normalizeDecimal_of_parse_none hp, rfl, rfl, ?_, ?_⟩
  · intro v r h hs
    exact (normalizeDecimal_ok_props h).2 hs
  · intro v d hp hdig hety hov
    exact normalizeDecimal_num_exact hp hdig hety hov

/-- Witness for the amended C3 theorem at the concrete amount `"2,5"`. -/
theorem C3_amount_normalization_amended_witness :
    ∃ (r : String) (p : DecNum), normalizeDecimal "2,5" = .ok r ∧
      parsePyDecimal r = some (.num p) ∧
      decValue p = decValue ⟨false, 25, -1⟩ :=
  C3_amount_normalization_amended.2.2.2.2 "2,5" ⟨false, 25, -1⟩ rfl
    (by decide) (by decide) (by decide)

/-! ### Strip idempotence and end-character lemmas -/

theorem head?_dropWhile {p : Char → Bool} : ∀ {l : List Char} {x : Char},
    (l.dropWhile p).head? = some x → p x = false := by
  intro l
  induction l with
  | nil => intro x hx; cases hx
  | cons c t ih =>
    intro x hx
    rw [List.dropWhile_cons] at hx
    split at hx
    · exact ih hx
    · rename_i hpc
      obtain rfl := Option.some.inj hx
      simp only [Bool.not_eq_true] at hpc
      exact hpc

theorem exists_dropWhile_decomp {p : Char → Bool} : ∀ (l : List Char),
    ∃ t, l = t ++ l.dropWhile p := by
  intro l
  induction l with
  | nil => exact ⟨[], rfl⟩
  | cons c t ih =>
    by_cases hpc : p c = true
    · obtain ⟨u, hu⟩ := ih
      refine ⟨c :: u, ?_⟩
      rw [List.dropWhile_cons, if_pos hpc, List.cons_append, ← hu]
    · refine ⟨[], ?_⟩
      rw [List.dropWhile_cons, if_neg hpc]
      rfl

theorem getLast?_dropWhile {p : Char → Bool} {l : List Char}
    (h : l.dropWhile p ≠ []) : (l.dropWhile p).getLast? = l.getLast? := by
  obtain ⟨t, ht⟩ := exists_dropWhile_decomp (p := p) l
  conv_rhs => rw [ht]
  rw [getLast?_append_of_ne_nil t h]

theorem pyStripList_head {l : List Char} {x : Char}
    (hx : (pyStripList l).head? = some x) : pyIsSpace x = false := by
  rw [pyStripList, List.head?_reverse] at hx
  have hne : List.dropWhile pyIsSpace (l.dropWhile pyIsSpace).reverse ≠ [] := by
    intro h0
    rw [h0] at hx
    cases hx
  rw [getLast?_dropWhile hne, List.getLast?_reverse] at hx
  exact head?_dropWhile hx

theorem pyStripList_getLast {l : List Char} {x : Char}
    (hx : (pyStripList l).getLast? = some x) : pyIsSpace x = false := by
  rw [pyStripList, List.getLast?_reverse] at hx
  exact head?_dropWhile hx

theorem pyStripList_idem (l : List Char) :
    pyStripList (pyStripList l) = pyStripList l :=
  pyStripList_eq_self_of_ends (fun _ hx => pyStripList_head hx)
    (fun _ hx => pyStripList_getLast hx)

theorem pyStrip_idem (s : String) : pyStrip (pyStrip s) = pyStrip s :=
  congrArg String.mk (pyStripList_idem s.toList)

theorem mem_pyStripList_subset {l : List Char} : ∀ x ∈ pyStripList l, x ∈ l := by
  intro x hx
  rw [pyStripList, List.mem_reverse] at hx
  have h1 := (List.dropWhile_sublist _).subset hx
  rw [List.mem_reverse] at h1
  exact (List.dropWhile_sublist _).subset h1

theorem ne_space_of_not_space {x : Char} (h : pyIsSpace x = false) : x ≠ ' ' :=
  fun heq => absurd (heq ▸ h) (by decide)

theorem num_chars_good (neg : Bool) (c : Nat) (e : Int) :
    ∀ x ∈ formatFixed (.num ⟨neg, c, e⟩),
      pyIsSpace x = false ∧ x ≠ '%' ∧ x ≠ ',' := by
  intro x hx
  rcases formatFixed_num_chars neg c e x hx with hd | rfl | rfl
  · exact ⟨digit_not_space hd, digit_ne_char hd (by decide),
      digit_ne_char hd (by decide)⟩
  · exact ⟨by decide, by decide, by decide⟩
  · exact ⟨by decide, by decide, by decide⟩

theorem zero_string_chars_good (neg : Bool) :
    ∀ x ∈ (if neg then ['-'] else []) ++ ['0'],
      pyIsSpace x = false ∧ x ≠ '%' ∧ x ≠ ',' := by
  intro x hx
  rcases List.mem_append.mp hx with h1 | h2
  · rw [mem_sign h1]
    exact ⟨by decide, by decide, by decide⟩
  · rw [List.mem_singleton.mp h2]
    exact ⟨by decide, by decide, by decide⟩

theorem inf_chars_good (neg : Bool) :
    ∀ x ∈ formatFixed (.inf neg), pyIsSpace x = false ∧ x ≠ '%' ∧ x ≠ ',' := by
  cases neg <;> decide

theorem qnan_chars_good (neg : Bool) (payload : Nat) :
    ∀ x ∈ formatFixed (.nan false neg payload),
      pyIsSpace x = false ∧ x ≠ '%' ∧ x ≠ ',' := by
  intro x hx
  rw [formatFixed_qnan] at hx
  rcases List.mem_append.mp hx with h1 | h2
  · rcases List.mem_append.mp h1 with h3 | h4
    · rw [mem_sign h3]
      exact ⟨by decide, by decide, by decide⟩
    · rcases List.mem_cons.mp h4 with rfl | h5
      · exact ⟨by decide, by decide, by decide⟩
      · rcases List.mem_cons.mp h5 with rfl | h6
        · exact ⟨by decide, by decide, by decide⟩
        · rcases List.mem_cons.mp h6 with rfl | h7
          · exact ⟨by decide, by decide, by decide⟩
          · simp at h7
  · by_cases hpl : payload = 0
    · rw [if_pos hpl] at h2
      simp at h2
    · rw [if_neg hpl] at h2
      have hd := natDigitChars_all_digit payload x h2
      exact ⟨digit_not_space hd, digit_ne_char hd (by decide),
        digit_ne_char hd (by decide)⟩

theorem formatFixed_num_ne_nil (neg : Bool) (c : Nat) (e : Int) :
    formatFixed (.num ⟨neg, c, e⟩) ≠ [] := by
  by_cases he : 0 ≤ e
  · rw [formatFixed_num_pos_exp neg c he]
    simp [natDigitChars_ne_nil]
  · rw [formatFixed_num_neg_exp neg c he]
    simp [natDigitChars_ne_nil]

theorem formatFixed_inf_ne_nil (neg : Bool) : formatFixed (.inf neg) ≠ [] := by
  cases neg <;> decide

theorem formatFixed_qnan_ne_nil (neg : Bool) (payload : Nat) :
    formatFixed (.nan false neg payload) ≠ [] := by
  rw [formatFixed_qnan]
  cases neg <;> simp

theorem normalizeDecimal_out_chars {v r : String}
    (h : normalizeDecimal v = .ok r) :
    r = v ∨ (r.toList ≠ [] ∧ ∀ x ∈ r.toList,
      pyIsSpace x = false ∧ x ≠ '%' ∧ x ≠ ',') := by
  rcases hp : parsePyDecimal (compactAmount v) with _ | d
  · rw [normalizeDecimal_of_parse_none hp] at h
    exact Or.inl (Except.ok.inj h).symm
  · cases d with
    | inf neg =>
      rw [normalizeDecimal_of_parse hp rfl, if_neg (dot_not_mem_inf neg)] at h
      obtain rfl := Except.ok.inj h
      exact Or.inr ⟨formatFixed_inf_ne_nil neg, inf_chars_good neg⟩
    | nan s neg payload =>
      cases s with
      | true =>
        rw [normalizeDecimal_of_parse_err hp rfl] at h
        cases h
      | false =>
        rw [normalizeDecimal_of_parse hp rfl,
          if_neg (dot_not_mem_qnan neg payload)] at h
        obtain rfl := Except.ok.inj h
        exact Or.inr ⟨formatFixed_qnan_ne_nil neg payload,
          qnan_chars_good neg payload⟩
    | num dn =>
      obtain ⟨neg, c, e⟩ := dn
      rcases hred : decReduceNum neg c e with u | p
      · rw [normalizeDecimal_of_parse_err hp (by
          show (decReduceNum neg c e).map PyDecimal.num = .error ()
          rw [hred]
          rfl)] at h
        cases h
      · have hredP : decReduce (.num ⟨neg, c, e⟩) = .ok (.num p) := by
          show (decReduceNum neg c e).map PyDecimal.num = .ok (.num p)
          rw [hred]
          rfl
        obtain ⟨pneg, pc, pe⟩ := p
        rw [normalizeDecimal_of_parse hp hredP] at h
        by_cases hpc : pc = 0
        · subst hpc
          by_cases hpe : 0 ≤ pe
          · rw [if_neg (show '.' ∉ formatFixed (.num ⟨pneg, 0, pe⟩) from by
              rw [formatFixed_zero_pos_exp pneg hpe]
              exact dot_not_mem_sign_digits pneg 0),
              formatFixed_zero_pos_exp pneg hpe] at h
            obtain rfl := Except.ok.inj h
            exact Or.inr ⟨by simp, zero_string_chars_good pneg⟩
          · rw [if_pos (dot_mem_formatFixed_neg_exp pneg 0 hpe),
              strip_render_zero pneg hpe] at h
            obtain rfl := Except.ok.inj h
            exact Or.inr ⟨by simp, zero_string_chars_good pneg⟩
        · rcases (decReduceNum_ok_spec hred).2 with h0 | ⟨h10s, _, _, _⟩
          · exact absurd h0 hpc
          · have h10 : ¬ 10 ∣ pc := h10s
            by_cases hpe : 0 ≤ pe
            · rw [if_neg (show '.' ∉ formatFixed (.num ⟨pneg, pc, pe⟩) from by
                rw [formatFixed_num_pos_exp pneg pc hpe]
                exact dot_not_mem_sign_digits pneg _)] at h
              obtain rfl := Except.ok.inj h
              exact Or.inr ⟨formatFixed_num_ne_nil pneg pc pe,
                num_chars_good pneg pc pe⟩
            · rw [if_pos (dot_mem_formatFixed_neg_exp pneg pc hpe),
                strip_render_nonzero_neg_exp pneg h10 hpe] at h
              obtain rfl := Except.ok.inj h
              exact Or.inr ⟨formatFixed_num_ne_nil pneg pc pe,
                num_chars_good pneg pc pe⟩

/-! ### Phone normalization -/

theorem normalizePhone_chars (v : String) :
    ∀ x ∈ (normalizePhone v).toList, isDigitChar x = true ∨ x = '+' := by
  have hcomp : ∀ y ∈ v.toList.filter (fun c => isDigitChar c || c = '+'),
      isDigitChar y = true ∨ y = '+' := by
    intro y hy
    have hp := List.of_mem_filter hy
    simpa using hp
  intro x hx
  rw [normalizePhone] at hx
  split at hx
  · have hx' : x ∈ '+' :: (v.toList.filter (fun c => isDigitChar c || c = '+')).drop 2 := hx
    rcases List.mem_cons.mp hx' with rfl | h2
    · exact Or.inr rfl
    · exact hcomp x (List.mem_of_mem_drop h2)
  · split at hx
    · have hx' : x ∈ (v.toList.filter (fun c => isDigitChar c || c = '+')).filter
        (· ≠ '+') := hx
      exact hcomp x (List.mem_of_mem_filter hx')
    · exact hcomp x hx

theorem pyStrip_normalizePhone (v : String) :
    pyStrip (normalizePhone v) = normalizePhone v := by
  show (⟨pyStripList (normalizePhone v).toList⟩ : String) = normalizePhone v
  rw [pyStripList_eq_self_of_all (fun c hc => by
    rcases normalizePhone_chars v c hc with hd | rfl
    · exact digit_not_space hd
    · decide)]
  rfl

theorem normalizePhone_fix {v : String}
    (h1 : (normalizePhone v).toList.take 2 ≠ ['0', '0'])
    (h2 : ((normalizePhone v).toList.filter (· = '+')).length ≤ 1) :
    normalizePhone (normalizePhone v) = normalizePhone v := by
  have hcomp2 : (normalizePhone v).toList.filter
      (fun c => isDigitChar c || c = '+') = (normalizePhone v).toList :=
    filter_eq_self_of_all (fun c hc => by
      rcases normalizePhone_chars v c hc with hd | rfl
      · simp [hd]
      · simp)
  rw [normalizePhone, hcomp2, if_neg h1, if_neg (not_lt.mpr h2)]
  rfl

/-! ### Whitespace splitting and joining -/

theorem joinSpace_single (w : List Char) : joinSpace [w] = w := by
  show List.intercalate [' '] [w] = w
  simp [List.intercalate]

theorem joinSpace_pair (w w2 : List Char) (rest : List (List Char)) :
    joinSpace (w :: w2 :: rest) = w ++ ' ' :: joinSpace (w2 :: rest) := by
  show (List.intersperse [' '] (w :: w2 :: rest)).flatten = _
  rw [List.intersperse_cons_cons, List.flatten_cons, List.flatten_cons]
  show w ++ ([' '] ++ (List.intersperse [' '] (w2 :: rest)).flatten) = _
  rfl

theorem joinSpace_ne_nil {w : List Char} (rest : List (List Char))
    (hw : w ≠ []) : joinSpace (w :: rest) ≠ [] := by
  cases rest with
  | nil =>
    rw [joinSpace_single]
    exact hw
  | cons w2 r2 =>
    rw [joinSpace_pair]
    simp

theorem pySplitWsAux_words : ∀ (l acc : List Char),
    (∀ c ∈ acc, pyIsSpace c = false) →
    ∀ w ∈ pySplitWsAux l acc, w ≠ [] ∧ ∀ c ∈ w, pyIsSpace c = false := by
  intro l
  induction l with
  | nil =>
    intro acc hacc w hw
    rw [pySplitWsAux] at hw
    split at hw
    · cases hw
    · rename_i hne
      rw [List.mem_singleton] at hw
      subst hw
      exact ⟨by simpa using hne, fun c hc => hacc c (List.mem_reverse.mp hc)⟩
  | cons c rest ih =>
    intro acc hacc w hw
    rw [pySplitWsAux] at hw
    split at hw
    · split at hw
      · exact ih [] (by simp) w hw
      · rename_i hsp hne
        rcases List.mem_cons.mp hw with rfl | hw2
        · exact ⟨by simpa using hne, fun x hx => hacc x (List.mem_reverse.mp hx)⟩
        · exact ih [] (by simp) w hw2
    · rename_i hsp
      refine ih (c :: acc) ?_ w hw
      intro x hx
      rcases List.mem_cons.mp hx with rfl | hx2
      · simp only [Bool.not_eq_true] at hsp
        exact hsp
      · exact hacc x hx2

theorem pySplitWs_words (l : List Char) :
    ∀ w ∈ pySplitWs l, w ≠ [] ∧ ∀ c ∈ w, pyIsSpace c = false :=
  pySplitWsAux_words l [] (by simp)

theorem pySplitWsAux_word : ∀ (w rest acc : List Char),
    (∀ c ∈ w, pyIsSpace c = false) →
    pySplitWsAux (w ++ rest) acc = pySplitWsAux rest (w.reverse ++ acc) := by
  intro w
  induction w with
  | nil =>
    intro rest acc _
    simp
  | cons c w' ih =>
    intro rest acc h
    rw [List.cons_append, pySplitWsAux,
      if_neg (by rw [h c (by simp)]; exact Bool.false_ne_true)]
    rw [ih rest (c :: acc) (fun x hx => h x (by simp [hx]))]
    congr 1
    simp

theorem pySplitWsAux_space {acc : List Char} (rest : List Char)
    (h : acc ≠ []) :
    pySplitWsAux (' ' :: rest) acc = acc.reverse :: pySplitWsAux rest [] := by
  rw [pySplitWsAux, if_pos (by decide), if_neg h]

theorem pySplitWs_joinSpace : ∀ ws : List (List Char),
    (∀ w ∈ ws, w ≠ [] ∧ ∀ c ∈ w, pyIsSpace c = false) →
    pySplitWs (joinSpace ws) = ws := by
  intro ws
  induction ws with
  | nil => intro _; rfl
  | cons w rest ih =>
    intro h
    cases rest with
    | nil =>
      rw [joinSpace_single, pySplitWs,
        show w = w ++ ([] : List Char) from (List.append_nil w).symm,
        pySplitWsAux_word w [] [] (h w (by simp)).2]
      rw [pySplitWsAux, if_neg (by simp [(h w (by simp)).1])]
      simp
    | cons w2 rest2 =>
      rw [pySplitWs, joinSpace_pair,
        pySplitWsAux_word w _ [] (h w (by simp)).2, List.append_nil,
        pySplitWsAux_space _ (by simp [(h w (by simp)).1]),
        List.reverse_reverse]
      congr 1
      exact ih (fun u hu => h u (by simp [hu]))

theorem joinSpace_head_nonspace : ∀ (ws : List (List Char)),
    (∀ w ∈ ws, w ≠ [] ∧ ∀ c ∈ w, pyIsSpace c = false) →
    ∀ x, (joinSpace ws).head? = some x → pyIsSpace x = false := by
  intro ws h x hx
  cases ws with
  | nil => cases hx
  | cons w rest =>
    obtain ⟨hne, hns⟩ := h w (by simp)
    cases w with
    | nil => exact absurd rfl hne
    | cons c t =>
      have hc : x = c := by
        cases rest with
        | nil =>
          rw [joinSpace_single] at hx
          exact (Option.some.inj hx).symm
        | cons w2 rest2 =>
          rw [joinSpace_pair, List.cons_append] at hx
          exact (Option.some.inj hx).symm
      rw [hc]
      exact hns c (by simp)

theorem joinSpace_getLast_nonspace : ∀ (ws : List (List Char)),
    (∀ w ∈ ws, w ≠ [] ∧ ∀ c ∈ w, pyIsSpace c = false) →
    ∀ x, (joinSpace ws).getLast? = some x → pyIsSpace x = false := by
  intro ws
  induction ws with
  | nil =>
    intro _ x hx
    cases hx
  | cons w rest ih =>
    intro h x hx
    cases rest with
    | nil =>
      rw [joinSpace_single] at hx
      exact (h w (by simp)).2 x (mem_of_getLast?_eq hx)
    | cons w2 rest2 =>
      rw [joinSpace_pair,
        getLast?_append_of_ne_nil _ (by simp),
        getLast?_cons_of_ne_nil _
          (joinSpace_ne_nil rest2 (h w2 (by simp)).1)] at hx
      exact ih (fun u hu => h u (by simp [hu])) x hx

theorem pyStripList_joinSpace (ws : List (List Char))
    (h : ∀ w ∈ ws, w ≠ [] ∧ ∀ c ∈ w, pyIsSpace c = false) :
    pyStripList (joinSpace ws) = joinSpace ws :=
  pyStripList_eq_self_of_ends
    (fun x hx => joinSpace_head_nonspace ws h x hx)
    (fun x hx => joinSpace_getLast_nonspace ws h x hx)

/-! ### Lowercasing -/

theorem pyLowerChar_nonspace {c : Char} (h : pyIsSpace c = false) :
    pyIsSpace (pyLowerChar c) = false := by
  rw [pyLowerChar]
  split_ifs with hc
  · exact pyIsSpace_eq_false_of_toNat
      (by rw [toNat_ofNat_valid _ (by omega)]; omega)
  · exact h

theorem getLast?_map (f : Char → Char) : ∀ (l : List Char),
    (l.map f).getLast? = l.getLast?.map f := by
  intro l
  induction l with
  | nil => rfl
  | cons c t ih =>
    cases t with
    | nil => rfl
    | cons d u =>
      rw [List.map_cons, getLast?_cons_of_ne_nil _ (by simp),
        getLast?_cons_of_ne_nil _ (by simp)]
      exact ih

theorem pyLower_mk (l : List Char) :
    pyLower ⟨l⟩ = ⟨l.map pyLowerChar⟩ := rfl

theorem pyLower_idem (s : String) : pyLower (pyLower s) = pyLower s := by
  show (⟨(s.toList.map pyLowerChar).map pyLowerChar⟩ : String) =
    ⟨s.toList.map pyLowerChar⟩
  rw [List.map_map]
  exact congrArg String.mk
    (List.map_congr_left (fun a _ => pyLowerChar_idem a))

theorem pyStrip_pyLower {s : String} (hs : pyStrip s = s) :
    pyStrip (pyLower s) = pyLower s := by
  show (⟨pyStripList (s.toList.map pyLowerChar)⟩ : String) = pyLower s
  rw [pyStripList_eq_self_of_ends ?_ ?_]
  · rfl
  · intro x hx
    rw [List.head?_map] at hx
    rcases hh : s.toList.head? with _ | c
    · rw [hh] at hx
      cases hx
    · rw [hh] at hx
      obtain rfl := Option.some.inj hx
      refine pyLowerChar_nonspace ?_
      have hs' : pyStripList s.toList = s.toList := congrArg String.data hs
      rw [← hs'] at hh
      exact pyStripList_head hh
  · intro x hx
    rw [getLast?_map] at hx
    rcases hh : s.toList.getLast? with _ | c
    · rw [hh] at hx
      cases hx
    · rw [hh] at hx
      obtain rfl := Option.some.inj hx
      refine pyLowerChar_nonspace ?_
      have hs' : pyStripList s.toList = s.toList := congrArg String.data hs
      rw [← hs'] at hh
      exact pyStripList_getLast hh

/-! ### Typed-value dispatch-branch equations -/

theorem normalizeTypedValue_blank {v : String} (f : SchemaField) {s : String}
    (h : pyStrip v = "" ∨ pyStrip v = s) :
    normalizeTypedValue v f s = .ok s := by
  simp only [normalizeTypedValue, if_pos h]

theorem normalizeTypedValue_phone {v s : String} {f : SchemaField}
    (hnb : ¬ (pyStrip v = "" ∨ pyStrip v = s))
    (hph : f.semanticType = some .phone ∨ f.kind = .phone) :
    normalizeTypedValue v f s = .ok (normalizePhone (pyStrip v)) := by
  simp only [normalizeTypedValue, if_neg hnb, if_pos hph]

theorem normalizeTypedValue_amount {v s : String} {f : SchemaField}
    (hnb : ¬ (pyStrip v = "" ∨ pyStrip v = s))
    (hph : ¬ (f.semanticType = some .phone ∨ f.kind = .phone))
    (ham : f.semanticType = some .amount ∨ f.kind = .amount) :
    normalizeTypedValue v f s = normalizeDecimal (pyStrip v) := by
  simp only [normalizeTypedValue, if_neg hnb, if_neg hph, if_pos ham]

theorem normalizeTypedValue_percentage {v s : String} {f : SchemaField}
    (hnb : ¬ (pyStrip v = "" ∨ pyStrip v = s))
    (hph : ¬ (f.semanticType = some .phone ∨ f.kind = .phone))
    (ham : ¬ (f.semanticType = some .amount ∨ f.kind = .amount))
    (hpc : f.semanticType = some .percentage) :
    normalizeTypedValue v f s = normalizePercentage (pyStrip v) := by
  simp only [normalizeTypedValue, if_neg hnb, if_neg hph, if_neg ham, if_pos hpc]

theorem normalizeTypedValue_address {v s : String} {f : SchemaField}
    (hnb : ¬ (pyStrip v = "" ∨ pyStrip v = s))
    (hph : ¬ (f.semanticType = some .phone ∨ f.kind = .phone))
    (ham : ¬ (f.semanticType = some .amount ∨ f.kind = .amount))
    (hpc : ¬ f.semanticType = some .percentage)
    (had : f.semanticType = some .address ∨ f.kind = .address) :
    normalizeTypedValue v f s =
      .ok ⟨joinSpace (pySplitWs (pyStrip v).toList)⟩ := by
  simp only [normalizeTypedValue, if_neg hnb, if_neg hph, if_neg ham,
    if_neg hpc, if_pos had]

theorem normalizeTypedValue_email {v s : String} {f : SchemaField}
    (hnb : ¬ (pyStrip v = "" ∨ pyStrip v = s))
    (hph : ¬ (f.semanticType = some .phone ∨ f.kind = .phone))
    (ham : ¬ (f.semanticType = some .amount ∨ f.kind = .amount))
    (hpc : ¬ f.semanticType = some .percentage)
    (had : ¬ (f.semanticType = some .address ∨ f.kind = .address))
    (hem : f.semanticType = some .email ∨ f.kind = .email) :
    normalizeTypedValue v f s = .ok (pyLower (pyStrip v)) := by
  simp only [normalizeTypedValue, if_neg hnb, if_neg hph, if_neg ham,
    if_neg hpc, if_neg had, if_pos hem]

theorem normalizeTypedValue_default {v s : String} {f : SchemaField}
    (hnb : ¬ (pyStrip v = "" ∨ pyStrip v = s))
    (hph : ¬ (f.semanticType = some .phone ∨ f.kind = .phone))
    (ham : ¬ (f.semanticType = some .amount ∨ f.kind = .amount))
    (hpc : ¬ f.semanticType = some .percentage)
    (had : ¬ (f.semanticType = some .address ∨ f.kind = .address))
    (hem : ¬ (f.semanticType = some .email ∨ f.kind = .email)) :
    normalizeTypedValue v f s = .ok (pyStrip v) := by
  simp only [normalizeTypedValue, if_neg hnb, if_neg hph, if_neg ham,
    if_neg hpc, if_neg had, if_neg hem]

theorem ne_empty_of_toList_ne_nil {r : String} (h : r.toList ≠ []) :
    r ≠ "" :=
  fun he => h (by rw [he]; rfl)

theorem pyStrip_eq_self_of_list {s : String}
    (h : pyStripList s.toList = s.toList) : pyStrip s = s := by
  show (⟨pyStripList s.toList⟩ : String) = s
  rw [h]
  rfl

theorem pyStrip_head_nonspace {v : String} (h : pyStrip v ≠ "") :
    ∃ c t, (pyStrip v).toList = c :: t ∧ pyIsSpace c = false := by
  cases hl : (pyStrip v).toList with
  | nil =>
    exfalso
    apply h
    conv_lhs => rw [show pyStrip v = (⟨(pyStrip v).toList⟩ : String) from rfl, hl]
  | cons c t =>
    refine ⟨c, t, rfl, ?_⟩
    exact pyStripList_head (show (pyStripList v.toList).head? = some c from by
      rw [show pyStripList v.toList = (pyStrip v).toList from rfl, hl]
      rfl)

theorem pySplitWsAux_ne_nil : ∀ (l acc : List Char), acc ≠ [] →
    pySplitWsAux l acc ≠ [] := by
  intro l
  induction l with
  | nil =>
    intro acc h
    rw [pySplitWsAux, if_neg h]
    simp
  | cons c rest ih =>
    intro acc h
    rw [pySplitWsAux]
    by_cases hsp : pyIsSpace c = true
    · rw [if_pos hsp, if_neg h]
      simp
    · rw [if_neg hsp]
      exact ih (c :: acc) (by simp)

theorem pySplitWs_cons_ne_nil {c : Char} (t : List Char)
    (hc : pyIsSpace c = false) : pySplitWs (c :: t) ≠ [] := by
  rw [pySplitWs, pySplitWsAux,
    if_neg (by rw [hc]; exact Bool.false_ne_true)]
  exact pySplitWsAux_ne_nil t [c] (by simp)

theorem pyStrip_append_percent {n : String} (hn : pyStrip n = n) :
    pyStrip (n ++ "%") = n ++ "%" := by
  have hends : pyStripList (n.toList ++ ['%']) = n.toList ++ ['%'] := by
    refine pyStripList_eq_self_of_ends ?_ ?_
    · intro x hx
      cases hl : n.toList with
      | nil =>
        rw [hl] at hx
        obtain rfl := Option.some.inj hx
        decide
      | cons c t =>
        rw [hl, List.cons_append] at hx
        obtain rfl := Option.some.inj hx
        have hn' : pyStripList n.toList = n.toList := congrArg String.data hn
        exact pyStripList_head (l := n.toList) (by rw [hn', hl]; rfl)
    · intro x hx
      rw [getLast?_append_of_ne_nil _ (by simp)] at hx
      obtain rfl := Option.some.inj hx
      decide
  show (⟨pyStripList (n ++ "%").toList⟩ : String) = n ++ "%"
  rw [show (n ++ "%").toList = n.toList ++ ['%'] from rfl, hends]
  rfl

/-- C5 counterexample: the typed value normalizer is not idempotent — on a
phone-typed field the letters-only value `"abc"` normalizes to `""`, but
renormalizing `""` hits the blank check and yields the null sentinel
`"NULL" ≠ ""`. -/
theorem C5_counterexample :
    normalizeTypedValue "abc" phoneFieldFixture "NULL" = .ok "" ∧
    normalizeTypedValue "" phoneFieldFixture "NULL" = .ok "NULL" ∧
    ("NULL" : String) ≠ "" :=
  ⟨rfl, rfl, by decide⟩

/-- C5 (amended): with a whitespace-trimmed null sentinel, the typed value
normalizer is idempotent on every non-phone field kind and semantic type
(amount, percentage, address, email and the default branch); on phone fields
it is idempotent when the first pass returns the sentinel itself or a
nonempty string with at most one `+` that does not start with `00` — but not
in general, because the phone branch can produce `""` (rewritten to the
sentinel on the second pass) or a string that a second pass rewrites again. -/
theorem C5_normalize_idempotence_amended :
    ∀ (v s r : String) (f : SchemaField), pyStrip s = s →
      normalizeTypedValue v f s = .ok r →
      (¬ (f.semanticType = some .phone ∨ f.kind = .phone) ∨ r = s ∨
        (r ≠ "" ∧ (r.toList.filter (· = '+')).length ≤ 1 ∧
          r.toList.take 2 ≠ ['0', '0'])) →
      normalizeTypedValue r f s = .ok r := by
  intro v s r f hs h hcond
  by_cases hrs : r = s
  · subst hrs
    exact normalizeTypedValue_blank f (Or.inr hs)
  · by_cases hnb : pyStrip v = "" ∨ pyStrip v = s
    · rw [normalizeTypedValue_blank f hnb] at h
      exact absurd (Except.ok.inj h).symm hrs
    · by_cases hph : f.semanticType = some .phone ∨ f.kind = .phone
      · rw [normalizeTypedValue_phone hnb hph] at h
        obtain rfl := Except.ok.inj h
        rcases hcond with hc | hc | ⟨hr0, hplus, h00⟩
        · exact absurd hph hc
        · exact absurd hc hrs
        · have hstrip_r : pyStrip (normalizePhone (pyStrip v)) =
              normalizePhone (pyStrip v) := pyStrip_normalizePhone _
          have hnb2 : ¬ (pyStrip (normalizePhone (pyStrip v)) = "" ∨
              pyStrip (normalizePhone (pyStrip v)) = s) := by
            rw [hstrip_r]
            rintro (hx | hx)
            · exact hr0 hx
            · exact hrs hx
          rw [normalizeTypedValue_phone hnb2 hph, hstrip_r,
            normalizePhone_fix h00 hplus]
      · by_cases ham : f.semanticType = some .amount ∨ f.kind = .amount
        · rw [normalizeTypedValue_amount hnb hph ham] at h
          have hfix := (normalizeDecimal_ok_props h).1
          have hout := normalizeDecimal_out_chars h
          have hstrip_r : pyStrip r = r := by
            rcases hout with rfl | ⟨_, hgood⟩
            · exact pyStrip_idem v
            · exact pyStrip_eq_self_of_list (pyStripList_eq_self_of_all
                (fun c hc => (hgood c hc).1))
          have hr0 : r ≠ "" := by
            rcases hout with rfl | ⟨hne, _⟩
            · exact fun h0 => hnb (Or.inl h0)
            · exact ne_empty_of_toList_ne_nil hne
          have hnb2 : ¬ (pyStrip r = "" ∨ pyStrip r = s) := by
            rw [hstrip_r]
            rintro (hx | hx)
            · exact hr0 hx
            · exact hrs hx
          rw [normalizeTypedValue_amount hnb2 hph ham, hstrip_r]
          exact hfix
        · by_cases hpc : f.semanticType = some .percentage
          · rw [normalizeTypedValue_percentage hnb hph ham hpc] at h
            simp only [normalizePercentage] at h
            rcases hnd : normalizeDecimal
                (pyStrip ⟨(pyStrip v).toList.filter (· ≠ '%')⟩) with u | n
            · rw [hnd] at h
              cases h
            · rw [hnd] at h
              have h' : Except.ok (n ++ "%") = Except.ok r := h
              obtain rfl := Except.ok.inj h'
              have hnfix := (normalizeDecimal_ok_props hnd).1
              have hnout := normalizeDecimal_out_chars hnd
              have hnostrip : pyStrip n = n := by
                rcases hnout with rfl | ⟨_, hgood⟩
                · exact pyStrip_idem _
                · exact pyStrip_eq_self_of_list (pyStripList_eq_self_of_all
                    (fun c hc => (hgood c hc).1))
              have hnopct : ∀ x ∈ n.toList, x ≠ '%' := by
                rcases hnout with rfl | ⟨_, hgood⟩
                · intro x hx
                  have hx2 := mem_pyStripList_subset x hx
                  have hx3 := List.of_mem_filter hx2
                  simpa using hx3
                · exact fun x hx => (hgood x hx).2.1
              have hstrip_r : pyStrip (n ++ "%") = n ++ "%" :=
                pyStrip_append_percent hnostrip
              have hr0 : (n ++ "%" : String) ≠ "" :=
                ne_empty_of_toList_ne_nil (by
                  rw [show (n ++ "%").toList = n.toList ++ ['%'] from rfl]
                  simp)
              have hnb2 : ¬ (pyStrip (n ++ "%") = "" ∨
                  pyStrip (n ++ "%") = s) := by
                rw [hstrip_r]
                rintro (hx | hx)
                · exact hr0 hx
                · exact hrs hx
              rw [normalizeTypedValue_percentage hnb2 hph ham hpc]
              simp only [normalizePercentage]
              have hfilter2 : ((pyStrip (n ++ "%")).toList).filter (· ≠ '%') =
                  n.toList := by
                rw [hstrip_r, show (n ++ "%").toList = n.toList ++ ['%'] from rfl,
                  List.filter_append]
                rw [filter_eq_self_of_all (fun c hc => by
                  simp only [ne_eq, decide_eq_true_eq]
                  exact hnopct c hc)]
                rw [show List.filter (· ≠ '%') ['%'] = [] from by decide]
                exact List.append_nil _
              rw [hfilter2, show (⟨n.toList⟩ : String) = n from rfl,
                hnostrip, hnfix]
              rfl
          · by_cases had : f.semanticType = some .address ∨ f.kind = .address
            · rw [normalizeTypedValue_address hnb hph ham hpc had] at h
              obtain rfl := Except.ok.inj h
              have hwords := pySplitWs_words (pyStrip v).toList
              obtain ⟨c, t, hct, hcns⟩ :=
                pyStrip_head_nonspace (v := v) (fun h0 => hnb (Or.inl h0))
              have hws_ne : pySplitWs (pyStrip v).toList ≠ [] := by
                rw [hct]
                exact pySplitWs_cons_ne_nil t hcns
              have hlist : (⟨joinSpace (pySplitWs (pyStrip v).toList)⟩ :
                  String).toList = joinSpace (pySplitWs (pyStrip v).toList) :=
                rfl
              have hstrip_r : pyStrip
                  (⟨joinSpace (pySplitWs (pyStrip v).toList)⟩ : String) =
                  ⟨joinSpace (pySplitWs (pyStrip v).toList)⟩ :=
                pyStrip_eq_self_of_list (by
                  rw [hlist]
                  exact pyStripList_joinSpace _ hwords)
              have hr0 : (⟨joinSpace (pySplitWs (pyStrip v).toList)⟩ :
                  String) ≠ "" := by
                refine ne_empty_of_toList_ne_nil ?_
                rw [hlist]
                cases hw : pySplitWs (pyStrip v).toList with
                | nil => exact absurd hw hws_ne
                | cons w rest =>
                  exact joinSpace_ne_nil rest (hwords w (by rw [hw]; simp)).1
              have hnb2 : ¬ (pyStrip (⟨joinSpace
                  (pySplitWs (pyStrip v).toList)⟩ : String) = "" ∨
                  pyStrip (⟨joinSpace (pySplitWs (pyStrip v).toList)⟩ :
                    String) = s) := by
                rw [hstrip_r]
                rintro (hx | hx)
                · exact hr0 hx
                · exact hrs hx
              rw [normalizeTypedValue_address hnb2 hph ham hpc had, hstrip_r]
              rw [show (⟨joinSpace (pySplitWs (pyStrip v).toList)⟩ :
                String).toList = joinSpace (pySplitWs (pyStrip v).toList)
                from rfl]
              rw [pySplitWs_joinSpace _ hwords]
            · by_cases hem : f.semanticType = some .email ∨ f.kind = .email
              · rw [normalizeTypedValue_email hnb hph ham hpc had hem] at h
                obtain rfl := Except.ok.inj h
                have hstrip_r : pyStrip (pyLower (pyStrip v)) =
                    pyLower (pyStrip v) := pyStrip_pyLower (pyStrip_idem v)
                have hr0 : pyLower (pyStrip v) ≠ "" := by
                  obtain ⟨c, t, hct, _⟩ :=
                    pyStrip_head_nonspace (v := v) (fun h0 => hnb (Or.inl h0))
                  refine ne_empty_of_toList_ne_nil ?_
                  rw [show (pyLower (pyStrip v)).toList =
                    (pyStrip v).toList.map pyLowerChar from rfl, hct]
                  simp
                have hnb2 : ¬ (pyStrip (pyLower (pyStrip v)) = "" ∨
                    pyStrip (pyLower (pyStrip v)) = s) := by
                  rw [hstrip_r]
                  rintro (hx | hx)
                  · exact hr0 hx
                  · exact hrs hx
                rw [normalizeTypedValue_email hnb2 hph ham hpc had hem,
                  hstrip_r, pyLower_idem]
              · rw [normalizeTypedValue_default hnb hph ham hpc had hem] at h
                obtain rfl := Except.ok.inj h
                have hnb2 : ¬ (pyStrip (pyStrip v) = "" ∨
                    pyStrip (pyStrip v) = s) := by
                  rw [pyStrip_idem v]
                  exact hnb
                rw [normalizeTypedValue_default hnb2 hph ham hpc had hem,
                  pyStrip_idem v]

/-- Witness for the amended C5 theorem: an amount field value renormalizes
to itself. -/
theorem C5_normalize_idempotence_amended_witness :
    normalizeTypedValue "1234.5"
      ⟨"a", "A", none, .amount, none, none, none, []⟩ "NULL" = .ok "1234.5" :=
  C5_normalize_idempotence_amended "1 234,50"
    "NULL" "1234.5" ⟨"a", "A", none, .amount, none, none, none, []⟩ rfl rfl
    (Or.inl (by decide))

end ExtractForms
